import Mathlib

/-!
Verification development for the factory-simulation script `src/main.py`.

The script drives a simpy discrete-event simulation of a four-stage
manufacturing line.  We give a shallow embedding: virtual time is `ℚ`,
the event queue is a list of (time, sequence-id, process-id) entries
dispatched in (time, seq) order, resource pools are FIFO queues with a
users list (mirroring simpy's `Resource`), and each simpy process of the
script (`generate_breakdown`, `produce_product`, `send_raw_material`,
`change_shift`) is a state machine stepped by the scheduler.  Python's
`random` module is modelled as an oracle stream of rational values
threaded through the run (the module keeps one global generator; the
script never calls `random.seed`, so the initial stream is
entropy-determined and we quantify over it).
-/

set_option linter.unusedVariables false

namespace MainSim

set_option maxRecDepth 8000

/-- The four machine types / pipeline stages of the script. -/
inductive MachineType
  | Machining
  | Assembly
  | QualityControl
  | Packaging
deriving DecidableEq, Repr

/-- A configured closed integer range, mirroring the `{"min": _, "max": _}` dicts. -/
structure MMRange where
  min : ℕ
  max : ℕ
deriving DecidableEq, Repr

/-- Errors the program can raise.  The script defines no exception classes of
its own; these are the library errors its calls can produce:
`valueErrorCapacity` is simpy's `ValueError` for `Resource(env, capacity<=0)`,
`valueErrorEmptyRange` is `random.randint`'s `ValueError` for an empty range,
`valueErrorNegativeDelay` is simpy's `ValueError` for a negative timeout,
`keyError` is a dict lookup miss, and `resumedAtBadPoint` marks a process
resumed at an impossible suspension point (unreachable; totalizes dispatch). -/
inductive SimErr
  | valueErrorCapacity
  | valueErrorEmptyRange
  | valueErrorNegativeDelay
  | keyError
  | resumedAtBadPoint
deriving DecidableEq, Repr

/-- Addition on ℚ, written out through `mkRat` so that the kernel can
evaluate concrete runs (the library's addition is marked irreducible); it
equals ordinary addition, see `qAdd_eq`. -/
def qAdd (a b : ℚ) : ℚ := mkRat (a.num * b.den + b.num * a.den) (a.den * b.den)

/-- Multiplication on ℚ, written out through `mkRat` for the same reason;
it equals ordinary multiplication, see `qMul_eq`. -/
def qMul (a b : ℚ) : ℚ := mkRat (a.num * b.num) (a.den * b.den)

/-- The state of python's global pseudo-random generator: an oracle stream of
rational values plus a position.  Each draw consumes one value. -/
structure RngState where
  stream : ℕ → ℚ
  idx : ℕ

/-- Consume the next oracle value of the shared stream. -/
def RngState.next (r : RngState) : ℚ × RngState :=
  (r.stream r.idx, { r with idx := r.idx + 1 })

/-- Modelled from the spec: `random.randint(a, b)` (library code, not under
src/) draws a uniform integer on the closed range `[a, b]`; a value is
obtained from the shared stream and folded into the range, so the result
always lies in `[a, b]`; when `a > b` python raises `ValueError` (empty
range) at draw time. -/
def randint (a b : ℕ) (r : RngState) : Except SimErr (ℕ × RngState) :=
  if b < a then .error .valueErrorEmptyRange
  else
    let (u, r') := r.next
    .ok (a + Nat.floor u % (b - a + 1), r')

/-- Modelled from the spec: `random.expovariate(1.0 / mean)` (library code,
not under src/) draws an exponential interarrival gap with the given mean.
The draw's magnitude is oracle-provided by the stream; the library guarantees
the result is non-negative, which `max u 0` records. -/
def expovariate (mean : ℚ) (r : RngState) : ℚ × RngState :=
  let (u, r') := r.next
  (qMul mean (max u 0), r')

/-- A scheduled event: wake time, insertion sequence id (tie-break), and the
process to resume. -/
structure Ev where
  time : ℚ
  seq : ℕ
  pid : ℕ
deriving DecidableEq, Repr

/-- Event ordering: earlier wake time first, ties broken by insertion order. -/
def evBefore (a b : Ev) : Bool :=
  decide (a.time < b.time) || (decide (a.time = b.time) && decide (a.seq < b.seq))

/-- Remove the earliest event (by `evBefore`) from the queue. -/
def popMin : List Ev → Option (Ev × List Ev)
  | [] => none
  | e :: es =>
    match popMin es with
    | none => some (e, [])
    | some (m, rest) => if evBefore m e then some (m, e :: rest) else some (e, es)

/-- Program counter of a `generate_breakdown` process. -/
inductive BreakPc
  | bStart
  | bSleeping
  | bWaiting
  | bGranted
  | bRepairing
deriving DecidableEq, Repr

/-- Program counter of a `produce_product` process. -/
inductive ProdPc
  | pToRequest
  | pWaiting
  | pGranted
  | pInStage
  | pDone
deriving DecidableEq, Repr

/-- Program counter of a `send_raw_material` process. -/
inductive ArrPc
  | aStart
  | aWake
deriving DecidableEq, Repr

/-- Program counter of a `change_shift` process. -/
inductive ShiftPc
  | sStart
  | sWake
deriving DecidableEq, Repr

/-- The shift labels cycled by `change_shift`. -/
inductive ShiftLabel
  | Day
  | Evening
  | Night
deriving DecidableEq, Repr

/-- Local state of one `produce_product` process: its product type, the
sequential unit id from `f"{product_type}-{i}"`, the virtual time it entered
the line, the mutable `start_time` local, the index of the stage it is at in
the fixed stage list, and the stages it has entered so far (in order). -/
structure ProduceData where
  ptype : String
  uid : ℕ
  entered : ℚ
  start_time : ℚ
  k : ℕ
  visited : List MachineType
  pc : ProdPc
deriving DecidableEq, Repr

/-- A logical process of the simulation. -/
inductive Proc
  | breakdown (machine_type : MachineType) (pc : BreakPc)
  | produce (d : ProduceData)
  | arrival (product_type : String) (i : ℕ) (pc : ArrPc)
  | shiftCycle (current_shift : ShiftLabel) (pc : ShiftPc)
deriving DecidableEq, Repr

/-- State of one `Machine`'s resource pool (simpy `Resource`): its capacity,
the pids currently holding a unit (simpy's `users`), the FIFO wait queue of
pids, and the per-machine-type breakdown/repair ranges copied at
construction, mirroring `Machine.__init__`. -/
structure MachineSt where
  capacity : ℕ
  users : List ℕ
  queue : List ℕ
  breakdown_time : MMRange
  repair_time : MMRange
deriving DecidableEq, Repr

/-- The module-level configuration dictionaries of `src/main.py` (lines
8-53), passed explicitly instead of read as globals so that one definition
covers every scenario configuration. -/
structure Globals where
  RAW_MATERIAL_ARRIVAL_TIME : String → ℚ
  PRODUCT_TYPES : List String
  PROCESSING_TIMES : String → MachineType → MMRange
  NUM_OPERATORS : String → ℕ
  MACHINE_BREAKDOWN_TIME : MachineType → MMRange
  MACHINE_REPAIR_TIME : MachineType → MMRange

/-- The whole simulation state: virtual clock, event queue with its next
sequence id, the process table (pid = index, in spawn order), the machine
pools keyed by machine type, the two global counters `PRODUCTS_PRODUCED` and
`RAW_MATERIALS_USED`, the shared random stream, and whether `env.run` has
returned. -/
structure SimState where
  clock : ℚ
  nextSeq : ℕ
  events : List Ev
  procs : List Proc
  machines : List (MachineType × MachineSt)
  produced : ℕ
  raw : ℕ
  rng : RngState
  finished : Bool

/-- Insert an event resuming `pid` at time `t` (tail of the queue, fresh
sequence id: FIFO among equal wake times). -/
def SimState.sched (st : SimState) (t : ℚ) (pid : ℕ) : SimState :=
  { st with events := st.events ++ [{ time := t, seq := st.nextSeq, pid := pid }],
            nextSeq := st.nextSeq + 1 }

/-- Replace the state of process `pid`. -/
def SimState.setProc (st : SimState) (pid : ℕ) (p : Proc) : SimState :=
  { st with procs := st.procs.set pid p }

/-- Spawn a new process (`env.process(...)`): append it to the table and
schedule its start event at the current instant. -/
def spawnProc (st : SimState) (p : Proc) : SimState :=
  SimState.sched { st with procs := st.procs ++ [p] } st.clock st.procs.length

/-- Look up the pool of a machine type (`machines[machine_type]`). -/
def lookupMachine : List (MachineType × MachineSt) → MachineType → Option MachineSt
  | [], _ => none
  | (k, m) :: rest, mt => if k = mt then some m else lookupMachine rest mt

/-- Replace the pool stored under a machine type. -/
def setMachine : List (MachineType × MachineSt) → MachineType → MachineSt → List (MachineType × MachineSt)
  | [], _, _ => []
  | (k, m) :: rest, mt, m' =>
    if k = mt then (k, m') :: setMachine rest mt m' else (k, m) :: setMachine rest mt m'

/-- Dict insert for the `machines` comprehension in `run_scenario`. -/
def assocSet : List (MachineType × MachineSt) → MachineType → MachineSt → List (MachineType × MachineSt)
  | [], mt, m => [(mt, m)]
  | (k, v) :: rest, mt, m =>
    if k = mt then (k, m) :: rest else (k, v) :: assocSet rest mt m

/-- Switch a suspended requester to its granted state when its pool request
succeeds. -/
def grantProc : Proc → Proc
  | .produce d => .produce { d with pc := .pGranted }
  | .breakdown mt _ => .breakdown mt .bGranted
  | p => p

/-- `pool.request()` issued by process `pid` against pool `mt` (simpy
`Resource.request`): if a unit is free it is taken at once (`users` grows)
and the requester's resume event is scheduled at the current instant;
otherwise the request joins the tail of the FIFO wait queue.  `pGrant` and
`pWait` are the requester's continuation states for the two outcomes. -/
def requestPool (st : SimState) (pid : ℕ) (mt : MachineType) (pGrant pWait : Proc) :
    Except SimErr SimState :=
  match lookupMachine st.machines mt with
  | none => .error .keyError
  | some m =>
    if m.users.length < m.capacity then
      .ok (SimState.sched
            (SimState.setProc
              { st with machines := setMachine st.machines mt { m with users := m.users ++ [pid] } }
              pid pGrant)
            st.clock pid)
    else
      .ok (SimState.setProc
            { st with machines := setMachine st.machines mt { m with queue := m.queue ++ [pid] } }
            pid pWait)

/-- Release of one pool unit by `pid` (the `with ... request` exit): `pid`
leaves `users` (a missing entry is ignored, as in simpy), and if a unit is
now free and the wait queue is non-empty the head request is granted: it is
dequeued, enters `users`, its process switches to its granted state, and its
resume event is scheduled at the current instant.  This is the sole path by
which queued processes make progress. -/
def releasePool (st : SimState) (pid : ℕ) (mt : MachineType) : Except SimErr SimState :=
  match lookupMachine st.machines mt with
  | none => .error .keyError
  | some m =>
    if (m.users.erase pid).length < m.capacity then
      match m.queue with
      | [] => .ok { st with machines := setMachine st.machines mt { m with users := m.users.erase pid } }
      | h :: t =>
        match st.procs.get? h with
        | none => .error .resumedAtBadPoint
        | some hp =>
          .ok (SimState.sched
                (SimState.setProc
                  { st with machines := setMachine st.machines mt ({ m with users := m.users.erase pid ++ [h], queue := t }) }
                  h (grantProc hp))
                st.clock h)
    else
      .ok { st with machines := setMachine st.machines mt { m with users := m.users.erase pid } }

/-- Schedule a `yield env.timeout(delay)` for `pid`, first updating its
process state; a negative delay raises `ValueError` as in simpy. -/
def timeoutSched (st : SimState) (pid : ℕ) (delay : ℚ) (p : Proc) : Except SimErr SimState :=
  if delay < 0 then .error .valueErrorNegativeDelay
  else .ok (SimState.sched (SimState.setProc st pid p) (qAdd st.clock delay) pid)

/-- The fixed stage list of `produce_product`:
`["Machining", "Assembly", "QualityControl", "Packaging"]`. -/
def stageOrder : List MachineType :=
  [MachineType.Machining, MachineType.Assembly, MachineType.QualityControl, MachineType.Packaging]

/-- `Machine.process_product`: draw a processing time uniformly from the
configured range for (product type, machine type); the caller then holds the
stage for that long. -/
def Machine_process_product (g : Globals) (product_type : String) (machine_type : MachineType)
    (r : RngState) : Except SimErr (ℕ × RngState) :=
  randint (g.PROCESSING_TIMES product_type machine_type).min
    (g.PROCESSING_TIMES product_type machine_type).max r

/-- `Machine.__init__`: simpy's `Resource(env, capacity=quantity)` rejects a
non-positive capacity with `ValueError` at construction; otherwise the pool
starts empty and copies its breakdown/repair ranges from the global dicts. -/
def Machine_init (g : Globals) (machine_type : MachineType) (quantity : ℤ) :
    Except SimErr MachineSt :=
  if quantity ≤ 0 then .error .valueErrorCapacity
  else .ok { capacity := quantity.toNat, users := [], queue := [],
             breakdown_time := g.MACHINE_BREAKDOWN_TIME machine_type,
             repair_time := g.MACHINE_REPAIR_TIME machine_type }

/-- Request the pool of the stage `d.k` of the fixed stage list for a
production unit (the `with machines[machine_type].machines.request()` at the
head of each loop iteration of `produce_product`). -/
def produce_product_request (st : SimState) (pid : ℕ) (d : ProduceData) :
    Except SimErr SimState :=
  match stageOrder.get? d.k with
  | none => .error .resumedAtBadPoint
  | some mt =>
    requestPool st pid mt (.produce { d with pc := .pGranted })
      (.produce { d with pc := .pWaiting })

/-- One resumption of a `produce_product` process.  From its start it
requests the first stage; when a grant event fires it records the stage
visit, draws the processing time via `Machine_process_product` and suspends
for it; when the processing timeout fires it updates `start_time`, releases
the stage and immediately requests the next one, or — after the last stage's
release — increments `PRODUCTS_PRODUCED` and terminates. -/
def produce_product_step (g : Globals) (st : SimState) (pid : ℕ) (d : ProduceData) :
    Except SimErr SimState :=
  match d.pc with
  | .pToRequest => produce_product_request st pid d
  | .pGranted =>
    match stageOrder.get? d.k with
    | none => .error .resumedAtBadPoint
    | some mt => do
      let (t, r') ← Machine_process_product g d.ptype mt st.rng
      .ok (SimState.sched
            (SimState.setProc { st with rng := r' } pid
              (.produce { d with visited := d.visited ++ [mt], pc := .pInStage }))
            (qAdd st.clock (t : ℚ)) pid)
  | .pInStage =>
    match stageOrder.get? d.k with
    | none => .error .resumedAtBadPoint
    | some mt => do
      let st1 ← releasePool st pid mt
      if d.k + 1 < 4 then
        produce_product_request st1 pid { d with start_time := st.clock, k := d.k + 1, pc := .pToRequest }
      else
        .ok { SimState.setProc st1 pid (.produce { d with start_time := st.clock, k := d.k + 1, pc := .pDone }) with produced := st1.produced + 1 }
  | .pWaiting => .error .resumedAtBadPoint
  | .pDone => .error .resumedAtBadPoint

/-- One resumption of a `generate_breakdown` process: draw a breakdown
interval and sleep; on waking, request the own machine type's pool on the
same FIFO footing as production requests; on grant, draw a repair duration
and hold the unit for it; then release and loop. -/
def generate_breakdown_step (st : SimState) (pid : ℕ) (mt : MachineType) (pc : BreakPc) :
    Except SimErr SimState :=
  match pc with
  | .bStart =>
    match lookupMachine st.machines mt with
    | none => .error .keyError
    | some m => do
      let (t, r') ← randint m.breakdown_time.min m.breakdown_time.max st.rng
      .ok (SimState.sched
            (SimState.setProc { st with rng := r' } pid (.breakdown mt .bSleeping))
            (qAdd st.clock (t : ℚ)) pid)
  | .bSleeping =>
    requestPool st pid mt (.breakdown mt .bGranted) (.breakdown mt .bWaiting)
  | .bGranted =>
    match lookupMachine st.machines mt with
    | none => .error .keyError
    | some m => do
      let (t, r') ← randint m.repair_time.min m.repair_time.max st.rng
      .ok (SimState.sched
            (SimState.setProc { st with rng := r' } pid (.breakdown mt .bRepairing))
            (qAdd st.clock (t : ℚ)) pid)
  | .bRepairing =>
    match lookupMachine st.machines mt with
    | none => .error .keyError
    | some m => do
      let st1 ← releasePool st pid mt
      let (t, r') ← randint m.breakdown_time.min m.breakdown_time.max st1.rng
      .ok (SimState.sched
            (SimState.setProc { st1 with rng := r' } pid (.breakdown mt .bSleeping))
            (qAdd st1.clock (t : ℚ)) pid)
  | .bWaiting => .error .resumedAtBadPoint

/-- One resumption of a `send_raw_material` process: on waking it increments
`RAW_MATERIALS_USED`, spawns a fresh `produce_product` process carrying the
next sequential unit id, increments the id, then draws the next exponential
interarrival gap and sleeps for it (the first resumption only draws and
sleeps, matching the loop head). -/
def send_raw_material_step (g : Globals) (st : SimState) (pid : ℕ) (product_type : String)
    (i : ℕ) (pc : ArrPc) : Except SimErr SimState :=
  match pc with
  | .aStart =>
    let (gap, r') := expovariate (g.RAW_MATERIAL_ARRIVAL_TIME product_type) st.rng
    timeoutSched { st with rng := r' } pid gap (.arrival product_type i .aWake)
  | .aWake =>
    let st1 := spawnProc { st with raw := st.raw + 1 }
      (.produce { ptype := product_type, uid := i, entered := st.clock,
                  start_time := st.clock, k := 0, visited := [], pc := .pToRequest })
    let (gap, r') := expovariate (g.RAW_MATERIAL_ARRIVAL_TIME product_type) st1.rng
    timeoutSched { st1 with rng := r' } pid gap (.arrival product_type (i + 1) .aWake)

/-- The cyclic successor of a shift label (the nested conditional in
`change_shift`). -/
def nextShiftLabel : ShiftLabel → ShiftLabel
  | .Day => .Evening
  | .Evening => .Night
  | .Night => .Day

/-- One resumption of the `change_shift` process: sleep 8 hours, then advance
the local shift label and sleep again.  It touches nothing else: no pool, no
counter, no random draw. -/
def change_shift_step (st : SimState) (pid : ℕ) (label : ShiftLabel) (pc : ShiftPc) : SimState :=
  match pc with
  | .sStart =>
    SimState.sched (SimState.setProc st pid (.shiftCycle label .sWake)) (qAdd st.clock 480) pid
  | .sWake =>
    SimState.sched (SimState.setProc st pid (.shiftCycle (nextShiftLabel label) .sWake))
      (qAdd st.clock 480) pid

/-- Resume the process an event points at. -/
def dispatchProc (g : Globals) (st : SimState) (pid : ℕ) : Except SimErr SimState :=
  match st.procs.get? pid with
  | none => .error .resumedAtBadPoint
  | some (.breakdown mt pc) => generate_breakdown_step st pid mt pc
  | some (.produce d) => produce_product_step g st pid d
  | some (.arrival p i pc) => send_raw_material_step g st pid p i pc
  | some (.shiftCycle label pc) => .ok (change_shift_step st pid label pc)

/-- One scheduler step of `env.run(until=horizon)`: pop the earliest event;
if none is left or its wake time has reached the horizon, the run ends with
the clock at the horizon (simpy's `until` event outranks same-time events, so
events at exactly the horizon are not dispatched); otherwise advance the
clock to its wake time and resume its process. -/
def simStep (g : Globals) (horizon : ℚ) (st : SimState) : Except SimErr SimState :=
  if st.finished then .ok st
  else
    match popMin st.events with
    | none => .ok { st with finished := true, clock := horizon }
    | some (e, rest) =>
      if horizon ≤ e.time then .ok { st with finished := true, clock := horizon }
      else dispatchProc g { st with events := rest, clock := e.time } e.pid

/-- Iterate the scheduler.  The fuel bounds the number of dispatched events;
a finished run is a fixed point, so any sufficiently large fuel yields the
state at the horizon, and smaller fuels yield the intermediate instants. -/
def simSteps (g : Globals) (horizon : ℚ) : ℕ → SimState → Except SimErr SimState
  | 0, st => .ok st
  | n + 1, st => do simSteps g horizon n (← simStep g horizon st)

/-- Build the `machines` dict of `run_scenario`, constructing a `Machine` for
each entry in order (so the first invalid capacity raises before anything
runs). -/
def buildMachinesAux (g : Globals) (acc : List (MachineType × MachineSt)) :
    List (MachineType × ℤ) → Except SimErr (List (MachineType × MachineSt))
  | [] => .ok acc
  | (mt, q) :: rest => do
    let m ← Machine_init g mt q
    buildMachinesAux g (assocSet acc mt m) rest

/-- The `machines` dict comprehension of `run_scenario`. -/
def buildMachines (g : Globals) (num_machines : List (MachineType × ℤ)) :
    Except SimErr (List (MachineType × MachineSt)) :=
  buildMachinesAux g [] num_machines

/-- The state of a scenario just before `env.run`: counters reset, machines
built, one breakdown process per machine type, one arrival process per
product type, and the shift-cycle process, in the registration order of
`run_scenario`. -/
def initState (g : Globals) (num_machines : List (MachineType × ℤ)) (rng : RngState) :
    Except SimErr SimState := do
  let ms ← buildMachines g num_machines
  let st0 : SimState :=
    { clock := 0, nextSeq := 0, events := [], procs := [], machines := ms,
      produced := 0, raw := 0, rng := rng, finished := false }
  let st1 := ms.foldl (fun s em => spawnProc s (.breakdown em.1 .bStart)) st0
  let st2 := g.PRODUCT_TYPES.foldl (fun s p => spawnProc s (.arrival p 1 .aStart)) st1
  .ok (spawnProc st2 (.shiftCycle .Day .sStart))

/-- `run_scenario` (renamed to fit local naming rules): reset the counters,
build the machines, start the breakdown, raw-material and shift processes,
and run the scheduler to the horizon.  The `shift_schedules` argument is
accepted and never used, exactly as in the source.  The returned state holds
the run result `(PRODUCTS_PRODUCED, RAW_MATERIALS_USED)` in `produced` and
`raw`. -/
def scenario_run (g : Globals) (num_machines : List (MachineType × ℤ))
    (shift_schedules : List (String × ℕ)) (rng : RngState) (simulation_time : ℚ)
    (fuel : ℕ) : Except SimErr SimState := do
  simSteps g simulation_time fuel (← initState g num_machines rng)

/-- One row of the `results` list of `perform_scenario_analysis`. -/
structure SweepRecord where
  Num_Machines : List (MachineType × ℤ)
  Shift_Schedule : List (String × ℕ)
  Products_Produced : ℕ
  Raw_Materials_Used : ℕ
deriving DecidableEq, Repr

/-- The inner `for shift_schedule in shift_schedules_list` loop of
`perform_scenario_analysis`, threading the shared random stream across the
runs (python's `random` module state persists across scenarios). -/
def performInner (g : Globals) (simulation_time : ℚ) (fuel : ℕ)
    (nm : List (MachineType × ℤ)) :
    List (List (String × ℕ)) → RngState → Except SimErr (List SweepRecord × RngState)
  | [], r => .ok ([], r)
  | ss :: rest, r => do
    let st ← scenario_run g nm ss r simulation_time fuel
    let (tail, r') ← performInner g simulation_time fuel nm rest st.rng
    .ok ({ Num_Machines := nm, Shift_Schedule := ss,
           Products_Produced := st.produced, Raw_Materials_Used := st.raw } :: tail, r')

/-- The outer `for num_machines in num_machines_list` loop. -/
def performOuter (g : Globals) (simulation_time : ℚ) (fuel : ℕ)
    (ssList : List (List (String × ℕ))) :
    List (List (MachineType × ℤ)) → RngState → Except SimErr (List SweepRecord × RngState)
  | [], r => .ok ([], r)
  | nm :: rest, r => do
    let (recs, r1) ← performInner g simulation_time fuel nm ssList r
    let (tail, r2) ← performOuter g simulation_time fuel ssList rest r1
    .ok (recs ++ tail, r2)

/-- `perform_scenario_analysis`: run one scenario per (machine-capacity,
shift-schedule) combination, outer loop over capacities, and collect one
record per combination. -/
def perform_scenario_analysis (g : Globals) (num_machines_list : List (List (MachineType × ℤ)))
    (shift_schedules_list : List (List (String × ℕ))) (simulation_time : ℚ) (fuel : ℕ)
    (r : RngState) : Except SimErr (List SweepRecord) :=
  (performOuter g simulation_time fuel shift_schedules_list num_machines_list r).map (·.1)

/-- Modelled from the spec: the batch sweep's combination order, "outer loop
over capacities, inner loop over shift schedules, matching the Cartesian
product". -/
def sweepCombinations (num_machines_list : List (List (MachineType × ℤ)))
    (shift_schedules_list : List (List (String × ℕ))) :
    List (List (MachineType × ℤ) × List (String × ℕ)) :=
  num_machines_list.flatMap (fun nm => shift_schedules_list.map (fun ss => (nm, ss)))

/-- Modelled from the spec: "runs one scenario per combination, returns a
sequence of (inputs, Run Result) records in combination order" — run the
scenarios of a combination list one after another on the shared stream. -/
def runCombos (g : Globals) (simulation_time : ℚ) (fuel : ℕ) :
    List (List (MachineType × ℤ) × List (String × ℕ)) → RngState →
    Except SimErr (List SweepRecord × RngState)
  | [], r => .ok ([], r)
  | (nm, ss) :: rest, r => do
    let st ← scenario_run g nm ss r simulation_time fuel
    let (tail, r') ← runCombos g simulation_time fuel rest st.rng
    .ok ({ Num_Machines := nm, Shift_Schedule := ss,
           Products_Produced := st.produced, Raw_Materials_Used := st.raw } :: tail, r')

/-! ### The module-level constants of src/main.py (lines 5-53, 203-212) -/

/-- Line 6 of the script.  Note: the constant is defined and never passed to
`random.seed`; no call in the module seeds the generator. -/
def RANDOM_SEED : ℕ := 42

/-- Line 7: 40 days of 8-hour shifts, in minutes (40 * 8 * 60). -/
def SIM_TIME : ℚ := 19200

/-- The module-level dictionaries of lines 8-53, gathered into one record. -/
def defaultGlobals : Globals :=
  { RAW_MATERIAL_ARRIVAL_TIME := fun p => if p = "ProductA" then 15 else if p = "ProductB" then 20 else 0,
    PRODUCT_TYPES := ["ProductA", "ProductB"],
    PROCESSING_TIMES := fun p mt =>
      if p = "ProductA" then
        match mt with
        | .Machining => ⟨10, 20⟩
        | .Assembly => ⟨20, 30⟩
        | .QualityControl => ⟨3, 7⟩
        | .Packaging => ⟨1, 3⟩
      else
        match mt with
        | .Machining => ⟨15, 25⟩
        | .Assembly => ⟨25, 35⟩
        | .QualityControl => ⟨5, 9⟩
        | .Packaging => ⟨2, 4⟩,
    NUM_OPERATORS := fun s => if s = "Day" then 20 else if s = "Evening" then 15 else 10,
    MACHINE_BREAKDOWN_TIME := fun mt =>
      match mt with
      | .Machining => ⟨4 * 60, 8 * 60⟩
      | .Assembly => ⟨6 * 60, 10 * 60⟩
      | .QualityControl => ⟨2 * 60, 4 * 60⟩
      | .Packaging => ⟨1 * 60, 2 * 60⟩,
    MACHINE_REPAIR_TIME := fun mt =>
      match mt with
      | .Machining => ⟨1 * 60, 3 * 60⟩
      | .Assembly => ⟨2 * 60, 4 * 60⟩
      | .QualityControl => ⟨30, 60⟩
      | .Packaging => ⟨15, 30⟩ }

/-- Lines 204-208: the example capacity configurations of the sweep. -/
def num_machines_list : List (List (MachineType × ℤ)) :=
  [[(.Machining, 4), (.Assembly, 7), (.QualityControl, 2), (.Packaging, 1)],
   [(.Machining, 5), (.Assembly, 8), (.QualityControl, 3), (.Packaging, 2)],
   [(.Machining, 6), (.Assembly, 9), (.QualityControl, 4), (.Packaging, 3)]]

/-- Lines 209-212: the example shift schedules of the sweep. -/
def shift_schedules_list : List (List (String × ℕ)) :=
  [[("Day", 15), ("Evening", 10), ("Night", 5)],
   [("Day", 20), ("Evening", 15), ("Night", 10)]]

/-! ### Concrete scenario configurations and observation helpers -/

/-- A constant oracle stream at position 0. -/
def constStream (c : ℚ) : RngState := { stream := fun _ => c, idx := 0 }

/-- Capacity one for each of the four stages. -/
def nmOnes : List (MachineType × ℤ) :=
  [(.Machining, 1), (.Assembly, 1), (.QualityControl, 1), (.Packaging, 1)]

/-- Capacity configuration with `capacity = 0` for Machining. -/
def nmCap0 : List (MachineType × ℤ) :=
  [(.Machining, 0), (.Assembly, 8), (.QualityControl, 3), (.Packaging, 2)]

/-- Globals of the pipeline scenario of §8: one product type with mean
interarrival 1 minute, every stage time fixed to exactly 5 minutes, and the
breakdown interval fixed to horizon + 1 = 21 so that no breakdown requests a
machine inside the 20-minute horizon. -/
def g4 : Globals :=
  { RAW_MATERIAL_ARRIVAL_TIME := fun _ => 1,
    PRODUCT_TYPES := ["ProductA"],
    PROCESSING_TIMES := fun _ _ => ⟨5, 5⟩,
    NUM_OPERATORS := fun _ => 0,
    MACHINE_BREAKDOWN_TIME := fun _ => ⟨21, 21⟩,
    MACHINE_REPAIR_TIME := fun _ => ⟨1, 1⟩ }

/-- A small configuration (every stage exactly 1 minute, breakdowns beyond
the horizon) for exhibiting the dependence of a run on the unseeded random
stream. -/
def gSmall : Globals :=
  { RAW_MATERIAL_ARRIVAL_TIME := fun _ => 1,
    PRODUCT_TYPES := ["ProductA"],
    PROCESSING_TIMES := fun _ _ => ⟨1, 1⟩,
    NUM_OPERATORS := fun _ => 0,
    MACHINE_BREAKDOWN_TIME := fun _ => ⟨100, 100⟩,
    MACHINE_REPAIR_TIME := fun _ => ⟨1, 1⟩ }

/-- A configuration whose processing-time ranges are all empty
(min 10 > max 5): used to show where such a range actually fails. -/
def gBadRange : Globals :=
  { RAW_MATERIAL_ARRIVAL_TIME := fun _ => 1,
    PRODUCT_TYPES := ["ProductA"],
    PROCESSING_TIMES := fun _ _ => ⟨10, 5⟩,
    NUM_OPERATORS := fun _ => 0,
    MACHINE_BREAKDOWN_TIME := fun _ => ⟨100, 100⟩,
    MACHINE_REPAIR_TIME := fun _ => ⟨1, 1⟩ }

/-- The produced-count of a run outcome. -/
def producedOf (r : Except SimErr SimState) : Option ℕ := r.toOption.map (·.produced)

/-- The raw-materials-used count of a run outcome. -/
def rawOf (r : Except SimErr SimState) : Option ℕ := r.toOption.map (·.raw)

/-- Whether a run outcome reached the horizon. -/
def finishedOf (r : Except SimErr SimState) : Option Bool := r.toOption.map (·.finished)

/-- The error of a failed run outcome. -/
def errOf : Except SimErr SimState → Option SimErr
  | .error e => some e
  | .ok _ => none

/-- Whether scenario construction (machines built, processes registered,
nothing yet dispatched) succeeds. -/
def initOk (g : Globals) (num_machines : List (MachineType × ℤ)) (rng : RngState) : Bool :=
  (initState g num_machines rng).toOption.isSome

/-! ### State predicates used by the verified properties -/

/-- The pool whose capacity a process currently holds one unit of, if any:
a production unit between grant and stage exit holds its current stage's
pool; a breakdown process between grant and repair end holds its own
machine type's pool. -/
def holdsPool : Proc → Option MachineType
  | .produce d =>
    match d.pc with
    | .pGranted => stageOrder.get? d.k
    | .pInStage => stageOrder.get? d.k
    | _ => none
  | .breakdown mt pc =>
    match pc with
    | .bGranted => some mt
    | .bRepairing => some mt
    | _ => none
  | _ => none

/-- The pool in whose FIFO wait queue a process currently sits, if any. -/
def waitsPool : Proc → Option MachineType
  | .produce d =>
    match d.pc with
    | .pWaiting => stageOrder.get? d.k
    | _ => none
  | .breakdown mt pc =>
    match pc with
    | .bWaiting => some mt
    | _ => none
  | _ => none

/-- Whether the process at index `pid` holds a unit of pool `mt`. -/
def holdsB (procs : List Proc) (pid : ℕ) (mt : MachineType) : Bool :=
  match procs.get? pid with
  | some pr => holdsPool pr = some mt
  | none => false

/-- Whether the process at index `pid` waits in the queue of pool `mt`. -/
def waitsB (procs : List Proc) (pid : ℕ) (mt : MachineType) : Bool :=
  match procs.get? pid with
  | some pr => waitsPool pr = some mt
  | none => false

/-- Whether a process is a production unit. -/
def isProduce : Proc → Bool
  | .produce _ => true
  | _ => false

/-- Whether a process is a completed production unit. -/
def isDoneProduce : Proc → Bool
  | .produce d => match d.pc with | .pDone => true | _ => false
  | _ => false

/-- The number of production units spawned so far (each spawn increments
`RAW_MATERIALS_USED`). -/
def countProduce (procs : List Proc) : ℕ := procs.countP isProduce

/-- The number of completed production units (each completion increments
`PRODUCTS_PRODUCED`). -/
def countDone (procs : List Proc) : ℕ := procs.countP isDoneProduce

/-- The unit id a process contributes to product type `p`: defined for the
production units of that type. -/
def uidF (p : String) : Proc → Option ℕ
  | .produce d => if d.ptype = p then some d.uid else none
  | _ => none

/-- The (product type, counter) of an arrival process. -/
def arrF : Proc → Option (String × ℕ)
  | .arrival p i _ => some (p, i)
  | _ => none

/-- The product type of an arrival process. -/
def arrTypeF : Proc → Option String
  | .arrival p _ _ => some p
  | _ => none

/-- The unit ids of the production units of a given product type, in spawn
order. -/
def uidsOf (procs : List Proc) (p : String) : List ℕ :=
  procs.filterMap (uidF p)

/-- The product types of the arrival processes, in spawn order. -/
def arrivalTypes (procs : List Proc) : List String :=
  procs.filterMap arrTypeF

/-- The stage-visitation bookkeeping of one production unit: it has entered
exactly the first `k` stages (`k + 1` while inside one), in order; a
completed unit has `k = 4`, a live one `k < 4`. -/
def prodOk (d : ProduceData) : Prop :=
  d.visited = stageOrder.take (d.k + (if d.pc = .pInStage then 1 else 0)) ∧
  (d.pc = .pDone → d.k = 4) ∧
  (d.pc ≠ .pDone → d.k < 4)

/-- The machine type of a breakdown process. -/
def breakdownOf : Proc → Option MachineType
  | .breakdown mt _ => some mt
  | _ => none

/-- Pool bookkeeping invariant: machine-type keys are unique, and every
pool's users list and wait queue contain exactly the processes whose state
says they hold, respectively await, that pool — each exactly once. -/
def WFpool (st : SimState) : Prop :=
  (st.machines.map Prod.fst).Nodup ∧
  ∀ em ∈ st.machines, ∀ pid : ℕ,
    em.2.users.count pid = (if holdsB st.procs pid em.1 then 1 else 0) ∧
    em.2.queue.count pid = (if waitsB st.procs pid em.1 then 1 else 0)

/-- A claim table with the claim of one process overridden: used to state
the pool invariant at the intermediate points of a dispatch, where a
process's bookkeeping has been updated but its state not yet. -/
def overrideB (f : ℕ → MachineType → Bool) (pid : ℕ) (ov : Option MachineType)
    (q : ℕ) (mt : MachineType) : Bool :=
  if q = pid then ov = some mt else f q mt

/-- `WFpool` with process `pid`'s holding/waiting claims overridden by
`hold` and `wait`. -/
def WFpoolX (st : SimState) (pid : ℕ) (hold wait : Option MachineType) : Prop :=
  (st.machines.map Prod.fst).Nodup ∧
  ∀ em ∈ st.machines, ∀ q : ℕ,
    em.2.users.count q = (if overrideB (holdsB st.procs) pid hold q em.1 then 1 else 0) ∧
    em.2.queue.count q = (if overrideB (waitsB st.procs) pid wait q em.1 then 1 else 0)

/-- Counter invariant: the two global counters equal the number of spawned,
respectively completed, production units. -/
def CountInv (st : SimState) : Prop :=
  st.produced = countDone st.procs ∧ st.raw = countProduce st.procs

/-- Stage-visitation invariant: a production unit at stage index `k` has
entered exactly the first `k` stages of the fixed stage list (`k + 1` while
it is inside a stage), in order; a completed unit has `k = 4`, a live one
`k < 4`. -/
def VisitInv (st : SimState) : Prop :=
  ∀ pid d, st.procs.get? pid = some (.produce d) → prodOk d

/-- Sequential-id invariant: arrival processes carry pairwise distinct
product types, and an arrival process whose counter is `i` has spawned
exactly the units `1, …, i - 1` of its type, in order. -/
def SeqInv (st : SimState) : Prop :=
  (arrivalTypes st.procs).Nodup ∧
  ∀ pid p i pc, st.procs.get? pid = some (.arrival p i pc) →
    1 ≤ i ∧ uidsOf st.procs p = List.range' 1 (i - 1)

/-- The three invariants that hold of every reachable state of every
scenario, whatever the configuration. -/
def Inv3 (st : SimState) : Prop :=
  WFpool st ∧ CountInv st ∧ VisitInv st

/-- The reachable-state invariant of the §8 pipeline scenario (`g4`,
capacity one everywhere, horizon 20): it pins down everything needed to
show that no completion event can fire inside the horizon. -/
structure Inv4 (st : SimState) : Prop where
  produced0 : st.produced = 0
  clockLo : 0 ≤ st.clock
  clockHi : st.clock ≤ 20
  evClock : ∀ e ∈ st.events, st.clock ≤ e.time
  evPid : ∀ e ∈ st.events, e.pid < st.procs.length
  evNodup : (st.events.map Ev.pid).Nodup
  evNoWait : ∀ e ∈ st.events, ∀ pr, st.procs.get? e.pid = some pr → waitsPool pr = none
  prodEntered : ∀ pid d, st.procs.get? pid = some (.produce d) → 0 < d.entered
  prodLive : ∀ pid d, st.procs.get? pid = some (.produce d) → d.pc ≠ .pDone
  prodBound : ∀ pid d, st.procs.get? pid = some (.produce d) → d.pc ≠ .pInStage →
    d.entered + 5 * (d.k : ℚ) ≤ st.clock
  prodStage : ∀ pid d, st.procs.get? pid = some (.produce d) → d.pc = .pInStage →
    ∀ e ∈ st.events, e.pid = pid → d.entered + 5 * ((d.k : ℚ) + 1) ≤ e.time
  arrEv : ∀ e ∈ st.events, ∀ p i, st.procs.get? e.pid = some (.arrival p i .aWake) →
    0 < e.time
  brkEv : ∀ e ∈ st.events, ∀ mt pc, st.procs.get? e.pid = some (.breakdown mt pc) →
    pc = .bStart ∨ (pc = .bSleeping ∧ (21 : ℚ) ≤ e.time)
  brkPc : ∀ pid mt pc, st.procs.get? pid = some (.breakdown mt pc) →
    pc = .bStart ∨ pc = .bSleeping
  mBt : ∀ em ∈ st.machines, em.2.breakdown_time = ⟨21, 21⟩
  rngPos : ∀ i, 0 < st.rng.stream i

/-- C5's property of a run outcome: the produced-count never exceeds the
raw-materials count. -/
def ConservationHolds : Except SimErr SimState → Prop
  | .ok st => st.produced ≤ st.raw
  | .error _ => True

/-- C6's property of a run outcome: a completed unit has visited exactly
[Machining, Assembly, QualityControl, Packaging], and any production unit
occupies at most one unit of at most one stage pool. -/
def StageDiscipline : Except SimErr SimState → Prop
  | .ok st =>
    ∀ pid d, st.procs.get? pid = some (.produce d) →
      (d.pc = .pDone → d.visited = stageOrder) ∧
      (∀ em ∈ st.machines, em.2.users.count pid ≤ 1) ∧
      (∀ em ∈ st.machines, ∀ em' ∈ st.machines,
        pid ∈ em.2.users → pid ∈ em'.2.users → em = em')
  | .error _ => True

/-- C9's per-state property: a breakdown process granted or repairing holds
exactly one unit of its own machine type's pool and none of any other; one
waiting sits exactly once in its own pool's FIFO queue and in no other; one
sleeping holds and waits nothing. -/
def BreakdownDiscipline : Except SimErr SimState → Prop
  | .ok st =>
    ∀ pid mt pc, st.procs.get? pid = some (.breakdown mt pc) →
      ((pc = .bGranted ∨ pc = .bRepairing) →
        ∀ em ∈ st.machines, em.2.users.count pid = if em.1 = mt then 1 else 0) ∧
      (pc = .bWaiting →
        ∀ em ∈ st.machines, em.2.queue.count pid = if em.1 = mt then 1 else 0) ∧
      ((pc = .bStart ∨ pc = .bSleeping) →
        ∀ em ∈ st.machines, em.2.users.count pid = 0 ∧ em.2.queue.count pid = 0)
  | .error _ => True

/-- C10's property of a run outcome: the produced-count equals the number of
completed units (each unit is counted exactly once); a completed unit holds
no pool capacity and waits in no queue; and each product type's spawned
units carry the sequential ids 1, 2, …, with no gaps. -/
def CompletionAccounting : Except SimErr SimState → Prop
  | .ok st =>
    st.produced = countDone st.procs ∧
    (∀ pid d, st.procs.get? pid = some (.produce d) → d.pc = .pDone →
      ∀ em ∈ st.machines, em.2.users.count pid = 0 ∧ em.2.queue.count pid = 0) ∧
    (∀ pid p i pc, st.procs.get? pid = some (.arrival p i pc) →
      1 ≤ i ∧ uidsOf st.procs p = List.range' 1 (i - 1))
  | .error _ => True

/-! ### Basic lemmas -/

theorem qAdd_eq (a b : ℚ) : qAdd a b = a + b := (Rat.add_def' a b).symm

theorem qMul_eq (a b : ℚ) : qMul a b = a * b := by
  rw [Rat.mul_def, Rat.normalize_eq_mkRat]; rfl

theorem bindE_err {α β : Type} (e : SimErr) (f : α → Except SimErr β) :
    (Except.error e >>= f) = Except.error e := rfl

theorem bindE_ok {α β : Type} (a : α) (f : α → Except SimErr β) :
    (Except.ok a >>= f) = f a := rfl

theorem popMin_eq_none {l : List Ev} (h : popMin l = none) : l = [] := by
  cases l with
  | nil => rfl
  | cons e es =>
    exfalso
    cases hp : popMin es with
    | none => simp [popMin, hp] at h
    | some p =>
      obtain ⟨m, rest⟩ := p
      simp only [popMin, hp] at h
      split at h <;> simp at h

theorem popMin_perm {l : List Ev} {e : Ev} {rest : List Ev}
    (h : popMin l = some (e, rest)) : l.Perm (e :: rest) := by
  induction l generalizing e rest with
  | nil => simp [popMin] at h
  | cons a es ih =>
    cases hp : popMin es with
    | none =>
      cases popMin_eq_none hp
      simp only [popMin] at h
      simp at h
      obtain ⟨rfl, rfl⟩ := h
      exact List.Perm.refl _
    | some p =>
      obtain ⟨m, rest'⟩ := p
      simp only [popMin, hp] at h
      by_cases hb : evBefore m a = true
      · simp only [if_pos hb] at h
        simp at h
        obtain ⟨rfl, rfl⟩ := h
        exact List.Perm.trans (List.Perm.cons a (ih hp)) (List.Perm.swap _ _ _)
      · simp only [if_neg hb] at h
        simp at h
        obtain ⟨rfl, rfl⟩ := h
        exact List.Perm.refl _

theorem popMin_mem {l : List Ev} {e : Ev} {rest : List Ev}
    (h : popMin l = some (e, rest)) : ∀ x ∈ rest, x ∈ l := by
  intro x hx
  exact (popMin_perm h).mem_iff.2 (List.mem_cons_of_mem e hx)

theorem popMin_self_mem {l : List Ev} {e : Ev} {rest : List Ev}
    (h : popMin l = some (e, rest)) : e ∈ l :=
  (popMin_perm h).mem_iff.2 (List.mem_cons_self e rest)

theorem popMin_min {l : List Ev} {e : Ev} {rest : List Ev}
    (h : popMin l = some (e, rest)) : ∀ x ∈ l, e.time ≤ x.time := by
  induction l generalizing e rest with
  | nil => simp [popMin] at h
  | cons a es ih =>
    cases hp : popMin es with
    | none =>
      cases popMin_eq_none hp
      simp only [popMin] at h
      simp at h
      obtain ⟨rfl, rfl⟩ := h
      intro x hx
      simp at hx
      rw [hx]
    | some p =>
      obtain ⟨m, rest'⟩ := p
      simp only [popMin, hp] at h
      by_cases hb : evBefore m a = true
      · simp only [if_pos hb] at h
        simp at h
        obtain ⟨rfl, rfl⟩ := h
        intro x hx
        rcases List.mem_cons.1 hx with rfl | hx
        · simp only [evBefore, Bool.or_eq_true, Bool.and_eq_true, decide_eq_true_eq] at hb
          rcases hb with hlt | ⟨heq, _⟩
          · exact le_of_lt hlt
          · exact le_of_eq heq
        · exact ih hp x hx
      · simp only [if_neg hb] at h
        simp at h
        obtain ⟨rfl, rfl⟩ := h
        intro x hx
        rcases List.mem_cons.1 hx with rfl | hx
        · exact le_refl _
        · have hm := ih hp x hx
          simp only [evBefore, Bool.or_eq_true, Bool.and_eq_true, decide_eq_true_eq,
            not_or, not_and, Bool.not_eq_true] at hb
          push_neg at hb
          exact le_trans hb.1 hm

/-! ### Projection and inversion lemmas for the state helpers -/

@[simp] theorem sched_procs (st : SimState) (t : ℚ) (pid : ℕ) :
    (st.sched t pid).procs = st.procs := rfl

@[simp] theorem sched_machines (st : SimState) (t : ℚ) (pid : ℕ) :
    (st.sched t pid).machines = st.machines := rfl

@[simp] theorem sched_produced (st : SimState) (t : ℚ) (pid : ℕ) :
    (st.sched t pid).produced = st.produced := rfl

@[simp] theorem sched_raw (st : SimState) (t : ℚ) (pid : ℕ) :
    (st.sched t pid).raw = st.raw := rfl

@[simp] theorem sched_clock (st : SimState) (t : ℚ) (pid : ℕ) :
    (st.sched t pid).clock = st.clock := rfl

@[simp] theorem setProc_clock (st : SimState) (pid : ℕ) (p : Proc) :
    (st.setProc pid p).clock = st.clock := rfl

@[simp] theorem setProc_procs (st : SimState) (pid : ℕ) (p : Proc) :
    (st.setProc pid p).procs = st.procs.set pid p := rfl

@[simp] theorem setProc_machines (st : SimState) (pid : ℕ) (p : Proc) :
    (st.setProc pid p).machines = st.machines := rfl

@[simp] theorem setProc_produced (st : SimState) (pid : ℕ) (p : Proc) :
    (st.setProc pid p).produced = st.produced := rfl

@[simp] theorem setProc_raw (st : SimState) (pid : ℕ) (p : Proc) :
    (st.setProc pid p).raw = st.raw := rfl

@[simp] theorem spawnProc_procs (st : SimState) (p : Proc) :
    (spawnProc st p).procs = st.procs ++ [p] := rfl

@[simp] theorem spawnProc_machines (st : SimState) (p : Proc) :
    (spawnProc st p).machines = st.machines := rfl

@[simp] theorem spawnProc_produced (st : SimState) (p : Proc) :
    (spawnProc st p).produced = st.produced := rfl

@[simp] theorem spawnProc_raw (st : SimState) (p : Proc) :
    (spawnProc st p).raw = st.raw := rfl

theorem get?_some_lt {α : Type} {l : List α} {i : ℕ} {b : α} (h : l.get? i = some b) :
    i < l.length := by
  by_contra hc
  rw [List.get?_eq_none.2 (le_of_not_lt hc)] at h
  exact Option.noConfusion h

theorem timeoutSched_ok {st : SimState} {pid : ℕ} {delay : ℚ} {p : Proc} {st' : SimState}
    (h : timeoutSched st pid delay p = .ok st') :
    st' = SimState.sched (SimState.setProc st pid p) (qAdd st.clock delay) pid := by
  unfold timeoutSched at h
  split at h
  · exact absurd h (by simp)
  · exact (Except.ok.inj h).symm

theorem requestPool_ok {st : SimState} {pid : ℕ} {mt : MachineType} {pG pW : Proc}
    {st' : SimState} (h : requestPool st pid mt pG pW = .ok st') :
    ∃ m, lookupMachine st.machines mt = some m ∧
      ((m.users.length < m.capacity ∧
        st' = SimState.sched
          (SimState.setProc
            { st with machines := setMachine st.machines mt { m with users := m.users ++ [pid] } }
            pid pG) st.clock pid) ∨
       (¬ m.users.length < m.capacity ∧
        st' = SimState.setProc
          { st with machines := setMachine st.machines mt { m with queue := m.queue ++ [pid] } }
          pid pW)) := by
  unfold requestPool at h
  split at h
  · exact absurd h (by simp)
  next m heq =>
    refine ⟨m, heq, ?_⟩
    split at h
    · exact Or.inl ⟨by assumption, (Except.ok.inj h).symm⟩
    · exact Or.inr ⟨by assumption, (Except.ok.inj h).symm⟩

theorem releasePool_ok {st : SimState} {pid : ℕ} {mt : MachineType} {st' : SimState}
    (h : releasePool st pid mt = .ok st') :
    ∃ m, lookupMachine st.machines mt = some m ∧
      ((st' = { st with machines := setMachine st.machines mt { m with users := m.users.erase pid } }) ∨
       (∃ hd tl hp, (m.users.erase pid).length < m.capacity ∧ m.queue = hd :: tl ∧
         st.procs.get? hd = some hp ∧
         st' = SimState.sched
           (SimState.setProc
             { st with machines :=
                 setMachine st.machines mt { m with users := m.users.erase pid ++ [hd], queue := tl } }
             hd (grantProc hp)) st.clock hd)) := by
  unfold releasePool at h
  split at h
  · exact absurd h (by simp)
  next m heq =>
    refine ⟨m, heq, ?_⟩
    split at h
    next hlt =>
      split at h
      next hq => exact Or.inl (Except.ok.inj h).symm
      next hd tl hq =>
        split at h
        · exact absurd h (by simp)
        next hp hpr =>
          exact Or.inr ⟨hd, tl, hp, hlt, hq, hpr, (Except.ok.inj h).symm⟩
    next => exact Or.inl (Except.ok.inj h).symm

theorem lookupMachine_mem {ms : List (MachineType × MachineSt)} {mt : MachineType}
    {m : MachineSt} (h : lookupMachine ms mt = some m) : (mt, m) ∈ ms := by
  induction ms with
  | nil => exact Option.noConfusion h
  | cons em rest ih =>
    obtain ⟨k, v⟩ := em
    by_cases hk : k = mt
    · subst hk
      simp [lookupMachine] at h
      simp [h]
    · simp only [lookupMachine, if_neg hk] at h
      exact List.mem_cons_of_mem _ (ih h)

theorem mem_setMachine {ms : List (MachineType × MachineSt)} {mt : MachineType}
    {m' : MachineSt} {x : MachineType × MachineSt} (h : x ∈ setMachine ms mt m') :
    (x ∈ ms ∧ x.1 ≠ mt) ∨ x = (mt, m') := by
  induction ms with
  | nil => exact absurd h (by simp [setMachine])
  | cons em rest ih =>
    obtain ⟨k, v⟩ := em
    by_cases hk : k = mt
    · subst hk
      simp only [setMachine, if_pos rfl] at h
      rcases List.mem_cons.1 h with rfl | h
      · exact Or.inr rfl
      · rcases ih h with ⟨hmem, hne⟩ | rfl
        · exact Or.inl ⟨List.mem_cons_of_mem _ hmem, hne⟩
        · exact Or.inr rfl
    · simp only [setMachine, if_neg hk] at h
      rcases List.mem_cons.1 h with rfl | h
      · exact Or.inl ⟨List.mem_cons_self _ _, hk⟩
      · rcases ih h with ⟨hmem, hne⟩ | rfl
        · exact Or.inl ⟨List.mem_cons_of_mem _ hmem, hne⟩
        · exact Or.inr rfl

theorem setMachine_keys (ms : List (MachineType × MachineSt)) (mt : MachineType)
    (m' : MachineSt) : (setMachine ms mt m').map Prod.fst = ms.map Prod.fst := by
  induction ms with
  | nil => rfl
  | cons em rest ih =>
    obtain ⟨k, v⟩ := em
    by_cases hk : k = mt
    · simp [setMachine, if_pos hk, ih]
    · simp [setMachine, if_neg hk, ih]

theorem setMachine_mem_of_mem {ms : List (MachineType × MachineSt)} {mt : MachineType}
    {m' : MachineSt} {x : MachineType × MachineSt} (hx : x ∈ ms) (hne : x.1 ≠ mt) :
    x ∈ setMachine ms mt m' := by
  induction ms with
  | nil => exact absurd hx (by simp)
  | cons em rest ih =>
    obtain ⟨k, v⟩ := em
    rcases List.mem_cons.1 hx with rfl | hx
    · by_cases hk : k = mt
      · exact absurd hk hne
      · simp [setMachine, if_neg hk]
    · by_cases hk : k = mt
      · simp only [setMachine, if_pos hk]
        exact List.mem_cons_of_mem _ (ih hx)
      · simp only [setMachine, if_neg hk]
        exact List.mem_cons_of_mem _ (ih hx)

theorem countP_set_of_get? {α : Type} {l : List α} {i : ℕ} {b : α}
    (h : l.get? i = some b) (p : α → Bool) (a : α) :
    (l.set i a).countP p + (if p b then 1 else 0) = l.countP p + (if p a then 1 else 0) := by
  induction l generalizing i with
  | nil => exact Option.noConfusion h
  | cons x xs ih =>
    cases i with
    | zero =>
      simp only [List.get?] at h
      cases h
      simp only [List.set, List.countP_cons]
      omega
    | succ n =>
      simp only [List.get?] at h
      simp only [List.set, List.countP_cons]
      have := ih h
      omega

theorem filterMap_set_of_get? {α β : Type} {l : List α} {i : ℕ} {b : α} {a : α}
    (h : l.get? i = some b) (f : α → Option β) (hf : f a = f b) :
    (l.set i a).filterMap f = l.filterMap f := by
  induction l generalizing i with
  | nil => exact Option.noConfusion h
  | cons x xs ih =>
    cases i with
    | zero =>
      simp only [List.get?] at h
      cases h
      simp only [List.set, List.filterMap_cons, hf]
    | succ n =>
      simp only [List.get?] at h
      simp only [List.set, List.filterMap_cons, ih h]

theorem holdsB_set {procs : List Proc} {pid : ℕ} {b : Proc} (hget : procs.get? pid = some b)
    (p' : Proc) (q : ℕ) (mt : MachineType) :
    holdsB (procs.set pid p') q mt
      = if q = pid then decide (holdsPool p' = some mt) else holdsB procs q mt := by
  unfold holdsB
  by_cases hq : q = pid
  · subst hq
    rw [List.get?_set_eq_of_lt _ (get?_some_lt hget)]
    simp
  · rw [List.get?_set_ne p' procs (fun hne => hq (Eq.symm hne))]
    simp [hq]

theorem waitsB_set {procs : List Proc} {pid : ℕ} {b : Proc} (hget : procs.get? pid = some b)
    (p' : Proc) (q : ℕ) (mt : MachineType) :
    waitsB (procs.set pid p') q mt
      = if q = pid then decide (waitsPool p' = some mt) else waitsB procs q mt := by
  unfold waitsB
  by_cases hq : q = pid
  · subst hq
    rw [List.get?_set_eq_of_lt _ (get?_some_lt hget)]
    simp
  · rw [List.get?_set_ne p' procs (fun hne => hq (Eq.symm hne))]
    simp [hq]

theorem holdsB_append (procs : List Proc) (p : Proc) (q : ℕ) (mt : MachineType) :
    holdsB (procs ++ [p]) q mt
      = if q = procs.length then decide (holdsPool p = some mt) else holdsB procs q mt := by
  unfold holdsB
  by_cases hq : q = procs.length
  · subst hq
    rw [List.get?_append_right (le_refl _)]
    simp
  · by_cases hlt : q < procs.length
    · rw [List.get?_append hlt, if_neg hq]
    · have h1 : procs.length ≤ q := le_of_not_lt hlt
      have h2 : procs.get? q = none := List.get?_eq_none.2 h1
      have h3 : (procs ++ [p]).get? q = none := by
        apply List.get?_eq_none.2
        simp only [List.length_append, List.length_singleton]
        omega
      rw [h2, h3, if_neg hq]

theorem waitsB_append (procs : List Proc) (p : Proc) (q : ℕ) (mt : MachineType) :
    waitsB (procs ++ [p]) q mt
      = if q = procs.length then decide (waitsPool p = some mt) else waitsB procs q mt := by
  unfold waitsB
  by_cases hq : q = procs.length
  · subst hq
    rw [List.get?_append_right (le_refl _)]
    simp
  · by_cases hlt : q < procs.length
    · rw [List.get?_append hlt, if_neg hq]
    · have h1 : procs.length ≤ q := le_of_not_lt hlt
      have h2 : procs.get? q = none := List.get?_eq_none.2 h1
      have h3 : (procs ++ [p]).get? q = none := by
        apply List.get?_eq_none.2
        simp only [List.length_append, List.length_singleton]
        omega
      rw [h2, h3, if_neg hq]

theorem grantProc_of_waits {hp : Proc} {mt : MachineType} (h : waitsPool hp = some mt) :
    holdsPool (grantProc hp) = some mt ∧ waitsPool (grantProc hp) = none ∧
    holdsPool hp = none := by
  cases hp with
  | produce d =>
    cases hpc : d.pc <;> simp [waitsPool, hpc] at h <;>
      simp [grantProc, holdsPool, waitsPool, hpc, h]
  | breakdown mt' pc =>
    cases pc <;> simp [waitsPool] at h <;>
      simp [grantProc, holdsPool, waitsPool, h]
  | arrival p i pc => simp [waitsPool] at h
  | shiftCycle l pc => simp [waitsPool] at h

/-! ### Pool invariant: transfer lemmas -/

theorem WFpool_congr {st st' : SimState} (h1 : st'.machines = st.machines)
    (h2 : st'.procs = st.procs) : WFpool st ↔ WFpool st' := by
  unfold WFpool
  rw [h1, h2]

theorem WFpoolX_congr {st st' : SimState} {pid : ℕ} {hold wait : Option MachineType}
    (h1 : st'.machines = st.machines) (h2 : st'.procs = st.procs) :
    WFpoolX st pid hold wait ↔ WFpoolX st' pid hold wait := by
  unfold WFpoolX
  rw [h1, h2]

theorem overrideB_holds_self {procs : List Proc} {pid : ℕ} {p0 : Proc}
    (hget : procs.get? pid = some p0) (q : ℕ) (mt : MachineType) :
    overrideB (holdsB procs) pid (holdsPool p0) q mt = holdsB procs q mt := by
  unfold overrideB
  by_cases hq : q = pid
  · subst hq
    rw [if_pos rfl]
    unfold holdsB
    rw [hget]
  · rw [if_neg hq]

theorem overrideB_waits_self {procs : List Proc} {pid : ℕ} {p0 : Proc}
    (hget : procs.get? pid = some p0) (q : ℕ) (mt : MachineType) :
    overrideB (waitsB procs) pid (waitsPool p0) q mt = waitsB procs q mt := by
  unfold overrideB
  by_cases hq : q = pid
  · subst hq
    rw [if_pos rfl]
    unfold waitsB
    rw [hget]
  · rw [if_neg hq]

theorem WFpool_toX {st : SimState} {pid : ℕ} {p0 : Proc} (hw : WFpool st)
    (hget : st.procs.get? pid = some p0) :
    WFpoolX st pid (holdsPool p0) (waitsPool p0) := by
  obtain ⟨hk, hc⟩ := hw
  refine ⟨hk, ?_⟩
  intro em hmem q
  obtain ⟨hu, hqv⟩ := hc em hmem q
  rw [overrideB_holds_self hget, overrideB_waits_self hget]
  exact ⟨hu, hqv⟩

theorem WFpoolX_setProc {st : SimState} {pid : ℕ} {hold wait : Option MachineType}
    {p b : Proc} (hx : WFpoolX st pid hold wait) (hget : st.procs.get? pid = some b)
    (hh : holdsPool p = hold) (hw : waitsPool p = wait) :
    WFpool (st.setProc pid p) := by
  obtain ⟨hk, hc⟩ := hx
  refine ⟨by simpa using hk, ?_⟩
  intro em hmem q
  simp only [setProc_machines] at hmem
  obtain ⟨hu, hqv⟩ := hc em hmem q
  have hcondh : holdsB (st.procs.set pid p) q em.1 = overrideB (holdsB st.procs) pid hold q em.1 := by
    rw [holdsB_set hget]
    unfold overrideB
    by_cases hq : q = pid
    · simp [hq, hh]
    · simp [hq]
  have hcondw : waitsB (st.procs.set pid p) q em.1 = overrideB (waitsB st.procs) pid wait q em.1 := by
    rw [waitsB_set hget]
    unfold overrideB
    by_cases hq : q = pid
    · simp [hq, hw]
    · simp [hq]
  simp only [setProc_procs, hcondh, hcondw]
  exact ⟨hu, hqv⟩

theorem count_singleton_ne {q pid : ℕ} (h : q ≠ pid) : List.count q [pid] = 0 :=
  List.count_eq_zero.2 (by simp [h])

theorem WFpoolX_appendUser {st : SimState} {pid : ℕ} {w : Option MachineType}
    {mt : MachineType} {m : MachineSt}
    (hx : WFpoolX st pid none w) (hm : lookupMachine st.machines mt = some m) :
    WFpoolX { st with machines := setMachine st.machines mt ({ m with users := m.users ++ [pid] }) }
      pid (some mt) w := by
  obtain ⟨hk, hc⟩ := hx
  constructor
  · show ((setMachine st.machines mt _).map Prod.fst).Nodup
    rw [setMachine_keys]
    exact hk
  intro em hmem q
  rcases mem_setMachine hmem with ⟨hold_mem, hne⟩ | heq
  · obtain ⟨hu, hqv⟩ := hc em hold_mem q
    have hcond : overrideB (holdsB st.procs) pid (some mt) q em.1
        = overrideB (holdsB st.procs) pid none q em.1 := by
      unfold overrideB
      by_cases hq : q = pid
      · rw [if_pos hq, if_pos hq]
        have h1 : ¬ (some mt = some em.1) := fun h => hne (Option.some.inj h).symm
        simp [h1]
      · rw [if_neg hq, if_neg hq]
    rw [hcond]
    exact ⟨hu, hqv⟩
  · subst heq
    have hmemO : (mt, m) ∈ st.machines := lookupMachine_mem hm
    obtain ⟨huO, hqO⟩ := hc (mt, m) hmemO q
    constructor
    · show (m.users ++ [pid]).count q = _
      rw [List.count_append]
      by_cases hq : q = pid
      · subst hq
        have h0 : m.users.count q = 0 := by
          rw [huO]
          simp [overrideB]
        rw [h0]
        simp [overrideB]
      · rw [count_singleton_ne hq]
        have : overrideB (holdsB st.procs) pid (some mt) q mt
            = overrideB (holdsB st.procs) pid none q mt := by
          unfold overrideB
          rw [if_neg hq, if_neg hq]
        rw [Nat.add_zero, huO, this]
    · exact hqO

theorem WFpoolX_appendQueue {st : SimState} {pid : ℕ} {h : Option MachineType}
    {mt : MachineType} {m : MachineSt}
    (hx : WFpoolX st pid h none) (hm : lookupMachine st.machines mt = some m) :
    WFpoolX { st with machines := setMachine st.machines mt ({ m with queue := m.queue ++ [pid] }) }
      pid h (some mt) := by
  obtain ⟨hk, hc⟩ := hx
  constructor
  · show ((setMachine st.machines mt _).map Prod.fst).Nodup
    rw [setMachine_keys]
    exact hk
  intro em hmem q
  rcases mem_setMachine hmem with ⟨hold_mem, hne⟩ | heq
  · obtain ⟨hu, hqv⟩ := hc em hold_mem q
    have hcond : overrideB (waitsB st.procs) pid (some mt) q em.1
        = overrideB (waitsB st.procs) pid none q em.1 := by
      unfold overrideB
      by_cases hq : q = pid
      · rw [if_pos hq, if_pos hq]
        have h1 : ¬ (some mt = some em.1) := fun h => hne (Option.some.inj h).symm
        simp [h1]
      · rw [if_neg hq, if_neg hq]
    rw [hcond]
    exact ⟨hu, hqv⟩
  · subst heq
    have hmemO : (mt, m) ∈ st.machines := lookupMachine_mem hm
    obtain ⟨huO, hqO⟩ := hc (mt, m) hmemO q
    refine ⟨huO, ?_⟩
    show (m.queue ++ [pid]).count q = _
    rw [List.count_append]
    by_cases hq : q = pid
    · subst hq
      have h0 : m.queue.count q = 0 := by
        rw [hqO]
        simp [overrideB]
      rw [h0]
      simp [overrideB]
    · rw [count_singleton_ne hq]
      have : overrideB (waitsB st.procs) pid (some mt) q mt
          = overrideB (waitsB st.procs) pid none q mt := by
        unfold overrideB
        rw [if_neg hq, if_neg hq]
      rw [Nat.add_zero, hqO, this]

theorem WFpoolX_eraseUser {st : SimState} {pid : ℕ} {w : Option MachineType}
    {mt : MachineType} {m : MachineSt}
    (hx : WFpoolX st pid (some mt) w) (hm : lookupMachine st.machines mt = some m) :
    WFpoolX { st with machines := setMachine st.machines mt ({ m with users := m.users.erase pid }) }
      pid none w := by
  obtain ⟨hk, hc⟩ := hx
  constructor
  · show ((setMachine st.machines mt _).map Prod.fst).Nodup
    rw [setMachine_keys]
    exact hk
  intro em hmem q
  rcases mem_setMachine hmem with ⟨hold_mem, hne⟩ | heq
  · obtain ⟨hu, hqv⟩ := hc em hold_mem q
    have hcond : overrideB (holdsB st.procs) pid none q em.1
        = overrideB (holdsB st.procs) pid (some mt) q em.1 := by
      unfold overrideB
      by_cases hq : q = pid
      · rw [if_pos hq, if_pos hq]
        have h1 : ¬ (some mt = some em.1) := fun h => hne (Option.some.inj h).symm
        simp [h1]
      · rw [if_neg hq, if_neg hq]
    rw [hcond]
    exact ⟨hu, hqv⟩
  · subst heq
    have hmemO : (mt, m) ∈ st.machines := lookupMachine_mem hm
    obtain ⟨huO, hqO⟩ := hc (mt, m) hmemO q
    constructor
    · show (m.users.erase pid).count q = _
      by_cases hq : q = pid
      · subst hq
        have h1 : m.users.count q = 1 := by
          rw [huO]
          simp [overrideB]
        rw [List.count_erase_self, h1]
        simp [overrideB]
      · rw [List.count_erase_of_ne hq, huO]
        have : overrideB (holdsB st.procs) pid none q mt
            = overrideB (holdsB st.procs) pid (some mt) q mt := by
          unfold overrideB
          rw [if_neg hq, if_neg hq]
        rw [this]
    · exact hqO

theorem WFpoolX_release_wake {st : SimState} {pid : ℕ} {mt : MachineType} {m : MachineSt}
    {hd : ℕ} {tl : List ℕ} {hp : Proc}
    (hx : WFpoolX st pid (some mt) none) (hm : lookupMachine st.machines mt = some m)
    (hq : m.queue = hd :: tl) (hget : st.procs.get? hd = some hp) :
    WFpoolX (SimState.sched (SimState.setProc
      { st with machines := setMachine st.machines mt ({ m with users := m.users.erase pid ++ [hd], queue := tl }) }
      hd (grantProc hp)) st.clock hd) pid none none := by
  obtain ⟨hk, hc⟩ := hx
  have hmemO : (mt, m) ∈ st.machines := lookupMachine_mem hm
  -- the head of the queue is a waiter of this pool, distinct from pid
  have hqhd := (hc (mt, m) hmemO hd).2
  rw [hq, List.count_cons_self] at hqhd
  have hhdpid : hd ≠ pid := by
    intro hcontra
    rw [hcontra] at hqhd
    simp [overrideB] at hqhd
  have hov : overrideB (waitsB st.procs) pid none hd mt = waitsB st.procs hd mt := by
    unfold overrideB
    rw [if_neg hhdpid]
  have hwaits : waitsB st.procs hd mt = true := by
    by_contra hcontra
    rw [hov] at hqhd
    simp only [Bool.not_eq_true] at hcontra
    rw [hcontra] at hqhd
    simp at hqhd
  have hwp : waitsPool hp = some mt := by
    unfold waitsB at hwaits
    rw [hget] at hwaits
    simpa using hwaits
  obtain ⟨hgh, hgw, hph⟩ := grantProc_of_waits hwp
  have htl0 : tl.count hd = 0 := by
    rw [hov, hwaits] at hqhd
    simpa using hqhd
  constructor
  · show ((setMachine st.machines mt _).map Prod.fst).Nodup
    rw [setMachine_keys]
    exact hk
  intro em hmem q
  simp only [sched_machines, setProc_machines, sched_procs, setProc_procs] at hmem ⊢
  rcases mem_setMachine hmem with ⟨hold_mem, hne⟩ | heq
  · obtain ⟨hu, hqv⟩ := hc em hold_mem q
    have hsome : ¬ (some mt = some em.1) := fun hcon => hne (Option.some.inj hcon).symm
    constructor
    · rw [hu]
      have hcond : overrideB (holdsB (st.procs.set hd (grantProc hp))) pid none q em.1
          = overrideB (holdsB st.procs) pid (some mt) q em.1 := by
        unfold overrideB
        by_cases hqp : q = pid
        · subst hqp
          rw [if_pos rfl, if_pos rfl]
          simp [hsome]
        · rw [if_neg hqp, if_neg hqp, holdsB_set hget]
          by_cases hqh : q = hd
          · subst hqh
            rw [if_pos rfl]
            unfold holdsB
            rw [hget]
            simp [hgh, hph, hsome]
          · rw [if_neg hqh]
      simp only [hcond]
    · rw [hqv]
      have hcond : overrideB (waitsB (st.procs.set hd (grantProc hp))) pid none q em.1
          = overrideB (waitsB st.procs) pid none q em.1 := by
        unfold overrideB
        by_cases hqp : q = pid
        · subst hqp
          rw [if_pos rfl, if_pos rfl]
        · rw [if_neg hqp, if_neg hqp, waitsB_set hget]
          by_cases hqh : q = hd
          · subst hqh
            rw [if_pos rfl]
            unfold waitsB
            rw [hget]
            have h2 : ¬ (waitsPool hp = some em.1) := by
              rw [hwp]; exact hsome
            simp [hgw, h2]
          · rw [if_neg hqh]
      simp only [hcond]
  · subst heq
    obtain ⟨huO, hqO⟩ := hc (mt, m) hmemO q
    constructor
    · show (m.users.erase pid ++ [hd]).count q = _
      rw [List.count_append]
      by_cases hqp : q = pid
      · subst hqp
        have h1 : m.users.count q = 1 := by
          rw [huO]
          simp [overrideB]
        rw [List.count_erase_self, h1, count_singleton_ne (fun hcon => hhdpid hcon.symm)]
        simp [overrideB]
      · by_cases hqh : q = hd
        · subst hqh
          have h0 : m.users.count q = 0 := by
            rw [huO]
            have hb : overrideB (holdsB st.procs) pid (some mt) q mt = false := by
              unfold overrideB
              rw [if_neg hqp]
              unfold holdsB
              rw [hget]
              simp [hph]
            simp [hb]
          rw [List.count_erase_of_ne hqp, h0, List.count_singleton_self]
          simp [overrideB, hqp, holdsB_set hget, hgh]
        · rw [List.count_erase_of_ne hqp, count_singleton_ne hqh, Nat.add_zero, huO]
          simp [overrideB, hqp, hqh, holdsB_set hget]
    · show tl.count q = _
      by_cases hqp : q = pid
      · subst hqp
        have h0 : m.queue.count q = 0 := by
          rw [hqO]
          simp [overrideB]
        rw [hq, List.count_cons] at h0
        simp [Ne.symm hhdpid] at h0
        simp [overrideB, h0]
      · by_cases hqh : q = hd
        · subst hqh
          rw [htl0]
          simp [overrideB, hqp, waitsB_set hget, hgw]
        · have hcnt : m.queue.count q = tl.count q := by
            rw [hq, List.count_cons]
            simp [hqh, Ne.symm hqh]
          rw [← hcnt, hqO]
          simp [overrideB, hqp, hqh, waitsB_set hget]

theorem bindE_ok_inv {α β : Type} {x : Except SimErr α} {f : α → Except SimErr β} {b : β}
    (h : (x >>= f) = .ok b) : ∃ a, x = .ok a ∧ f a = .ok b := by
  cases x with
  | error e => exact Except.noConfusion h
  | ok a => exact ⟨a, rfl, h⟩

theorem get?_of_lt {α : Type} {l : List α} {i : ℕ} (h : i < l.length) :
    ∃ b, l.get? i = some b := by
  cases hg : l.get? i with
  | none => exact absurd (List.get?_eq_none.1 hg) (not_le.2 h)
  | some b => exact ⟨b, rfl⟩

theorem queue_head_ne {st : SimState} {pid : ℕ} {mt : MachineType} {m : MachineSt}
    {hd : ℕ} {tl : List ℕ} {w : Option MachineType}
    (hx : WFpoolX st pid w none) (hm : lookupMachine st.machines mt = some m)
    (hq : m.queue = hd :: tl) : hd ≠ pid := by
  have hqhd := (hx.2 (mt, m) (lookupMachine_mem hm) hd).2
  rw [hq, List.count_cons_self] at hqhd
  intro hcontra
  rw [hcontra] at hqhd
  simp [overrideB] at hqhd

theorem WFpool_requestPool_fromX {st st' : SimState} {pid : ℕ} {mt : MachineType}
    {pG pW : Proc} (hx : WFpoolX st pid none none) (hlen : pid < st.procs.length)
    (hGh : holdsPool pG = some mt) (hGw : waitsPool pG = none)
    (hWh : holdsPool pW = none) (hWw : waitsPool pW = some mt)
    (h : requestPool st pid mt pG pW = .ok st') : WFpool st' := by
  obtain ⟨b, hb⟩ := get?_of_lt hlen
  rcases requestPool_ok h with ⟨m, hm, hcase⟩
  rcases hcase with ⟨hlt, rfl⟩ | ⟨hge, rfl⟩
  · have hx2 := WFpoolX_appendUser hx hm
    exact WFpoolX_setProc hx2 hb hGh hGw
  · have hx2 := WFpoolX_appendQueue hx hm
    exact WFpoolX_setProc hx2 hb hWh hWw

theorem WFpool_requestPool {st st' : SimState} {pid : ℕ} {mt : MachineType}
    {pG pW p0 : Proc} (hw : WFpool st) (hget : st.procs.get? pid = some p0)
    (h0h : holdsPool p0 = none) (h0w : waitsPool p0 = none)
    (hGh : holdsPool pG = some mt) (hGw : waitsPool pG = none)
    (hWh : holdsPool pW = none) (hWw : waitsPool pW = some mt)
    (h : requestPool st pid mt pG pW = .ok st') : WFpool st' := by
  have hx : WFpoolX st pid none none := by
    have hh := WFpool_toX hw hget
    rw [h0h, h0w] at hh
    exact hh
  exact WFpool_requestPool_fromX hx (get?_some_lt hget) hGh hGw hWh hWw h

theorem WFpool_releasePool_toX {st st' : SimState} {pid : ℕ} {mt : MachineType}
    {p0 : Proc} (hw : WFpool st) (hget : st.procs.get? pid = some p0)
    (h0h : holdsPool p0 = some mt) (h0w : waitsPool p0 = none)
    (h : releasePool st pid mt = .ok st') :
    WFpoolX st' pid none none ∧ st'.procs.get? pid = some p0 ∧
    st'.procs.length = st.procs.length := by
  have hx : WFpoolX st pid (some mt) none := by
    have hh := WFpool_toX hw hget
    rw [h0h, h0w] at hh
    exact hh
  rcases releasePool_ok h with ⟨m, hm, hcase⟩
  rcases hcase with rfl | ⟨hd, tl, hp, hlt, hq, hgethd, rfl⟩
  · exact ⟨WFpoolX_eraseUser hx hm, hget, rfl⟩
  · have hne := queue_head_ne hx hm hq
    refine ⟨WFpoolX_release_wake hx hm hq hgethd, ?_, by simp⟩
    show (st.procs.set hd (grantProc hp)).get? pid = some p0
    rw [List.get?_set_ne _ _ hne]
    exact hget

theorem WFpool_setProc_same {st : SimState} {pid : ℕ} {p0 p' : Proc} (hw : WFpool st)
    (hget : st.procs.get? pid = some p0) (hh : holdsPool p' = holdsPool p0)
    (hww : waitsPool p' = waitsPool p0) : WFpool (st.setProc pid p') :=
  WFpoolX_setProc (WFpool_toX hw hget) hget hh hww

theorem WFpool_spawn {st : SimState} {p : Proc} (hw : WFpool st)
    (hh : holdsPool p = none) (hww : waitsPool p = none) : WFpool (spawnProc st p) := by
  obtain ⟨hk, hc⟩ := hw
  refine ⟨by simpa using hk, ?_⟩
  intro em hmem q
  simp only [spawnProc_machines] at hmem
  obtain ⟨hu, hqv⟩ := hc em hmem q
  have hcondh : holdsB ((spawnProc st p).procs) q em.1 = holdsB st.procs q em.1 := by
    simp only [spawnProc_procs]
    rw [holdsB_append]
    by_cases hq : q = st.procs.length
    · rw [if_pos hq, hh]
      subst hq
      unfold holdsB
      rw [List.get?_eq_none.2 (le_refl _)]
      simp
    · rw [if_neg hq]
  have hcondw : waitsB ((spawnProc st p).procs) q em.1 = waitsB st.procs q em.1 := by
    simp only [spawnProc_procs]
    rw [waitsB_append]
    by_cases hq : q = st.procs.length
    · rw [if_pos hq, hww]
      subst hq
      unfold waitsB
      rw [List.get?_eq_none.2 (le_refl _)]
      simp
    · rw [if_neg hq]
  rw [hcondh, hcondw]
  exact ⟨hu, hqv⟩

theorem WFpool_dispatch {g : Globals} {st st' : SimState} {pid : ℕ}
    (hw : WFpool st) (h : dispatchProc g st pid = .ok st') : WFpool st' := by
  unfold dispatchProc at h
  split at h
  · exact Except.noConfusion h
  case _ mt pc hget =>
    unfold generate_breakdown_step at h
    split at h
    · -- bStart
      split at h
      · exact Except.noConfusion h
      case _ m hm =>
        obtain ⟨⟨t, r'⟩, hr, hf⟩ := bindE_ok_inv h
        obtain rfl := Except.ok.inj hf
        exact (WFpool_congr rfl rfl).1 (WFpool_setProc_same hw hget rfl rfl)
    · -- bSleeping
      refine WFpool_requestPool hw hget ?_ ?_ ?_ ?_ ?_ ?_ h
      · rfl
      · rfl
      · rfl
      · rfl
      · rfl
      · rfl
    · -- bGranted
      split at h
      · exact Except.noConfusion h
      case _ m hm =>
        obtain ⟨⟨t, r'⟩, hr, hf⟩ := bindE_ok_inv h
        obtain rfl := Except.ok.inj hf
        exact (WFpool_congr rfl rfl).1 (WFpool_setProc_same hw hget rfl rfl)
    · -- bRepairing
      split at h
      · exact Except.noConfusion h
      case _ m hm =>
        obtain ⟨st1, hrel, hrest⟩ := bindE_ok_inv h
        obtain ⟨⟨t, r'⟩, hr, hf⟩ := bindE_ok_inv hrest
        obtain rfl := Except.ok.inj hf
        obtain ⟨hx1, hget1, hlen1⟩ := WFpool_releasePool_toX hw hget rfl rfl hrel
        exact (WFpool_congr rfl rfl).1 (WFpoolX_setProc hx1 hget1 rfl rfl)
    · -- bWaiting
      exact Except.noConfusion h
  case _ d hget =>
    unfold produce_product_step at h
    split at h
    case _ hpc =>
      unfold produce_product_request at h
      split at h
      · exact Except.noConfusion h
      case _ mt hstage =>
        refine WFpool_requestPool hw hget ?_ ?_ ?_ ?_ ?_ ?_ h
        · simp [holdsPool, hpc]
        · simp [waitsPool, hpc]
        · simpa [holdsPool] using hstage
        · simp [waitsPool]
        · simp [holdsPool]
        · simpa [waitsPool] using hstage
    case _ hpc =>
      split at h
      · exact Except.noConfusion h
      case _ mt hstage =>
        obtain ⟨⟨t, r'⟩, hr, hf⟩ := bindE_ok_inv h
        obtain rfl := Except.ok.inj hf
        refine (WFpool_congr rfl rfl).1 (WFpool_setProc_same hw hget ?_ ?_)
        · simp [holdsPool, hpc]
        · simp [waitsPool, hpc]
    case _ hpc =>
      split at h
      · exact Except.noConfusion h
      case _ mt hstage =>
        obtain ⟨st1, hrel, hrest⟩ := bindE_ok_inv h
        obtain ⟨hx1, hget1, hlen1⟩ := WFpool_releasePool_toX hw hget
          (by simp only [holdsPool, hpc]; exact hstage) (by simp [waitsPool, hpc]) hrel
        split at hrest
        · unfold produce_product_request at hrest
          split at hrest
          · exact Except.noConfusion hrest
          case _ mt2 hstage2 =>
            refine WFpool_requestPool_fromX hx1 ?_ ?_ ?_ ?_ ?_ hrest
            · rw [hlen1]
              exact get?_some_lt hget
            · simpa [holdsPool] using hstage2
            · simp [waitsPool]
            · simp [holdsPool]
            · simpa [waitsPool] using hstage2
        · obtain rfl := Except.ok.inj hrest
          exact (WFpool_congr rfl rfl).1 (WFpoolX_setProc hx1 hget1 rfl rfl)
    case _ hpc => exact Except.noConfusion h
    case _ hpc => exact Except.noConfusion h
  case _ p i pc hget =>
    unfold send_raw_material_step at h
    split at h
    · -- aStart
      obtain rfl := timeoutSched_ok h
      exact (WFpool_congr rfl rfl).1 (WFpool_setProc_same hw hget rfl rfl)
    · -- aWake
      obtain rfl := timeoutSched_ok h
      have hw1 : WFpool { st with raw := st.raw + 1 } := (WFpool_congr rfl rfl).1 hw
      have hw2 : WFpool (spawnProc { st with raw := st.raw + 1 }
            (Proc.produce { ptype := p, uid := i, entered := st.clock, start_time := st.clock,
                            k := 0, visited := [], pc := .pToRequest })) :=
        WFpool_spawn hw1 rfl rfl
      have hget2 : ((spawnProc { st with raw := st.raw + 1 }
            (Proc.produce { ptype := p, uid := i, entered := st.clock, start_time := st.clock,
                            k := 0, visited := [], pc := .pToRequest })).procs).get? pid
          = some (.arrival p i .aWake) := by
        simp only [spawnProc_procs]
        rw [List.get?_append (get?_some_lt hget)]
        exact hget
      exact (WFpool_congr rfl rfl).1 (WFpool_setProc_same hw2 hget2 rfl rfl)
  case _ label pc hget =>
    obtain rfl := Except.ok.inj h
    unfold change_shift_step
    split
    · exact (WFpool_congr rfl rfl).1 (WFpool_setProc_same hw hget rfl rfl)
    · exact (WFpool_congr rfl rfl).1 (WFpool_setProc_same hw hget rfl rfl)

/-! ### Counter, visitation and id invariants: list-level lemmas -/

theorem get?_set_self {α : Type} {l : List α} {i : ℕ} {b : α} (h : l.get? i = some b)
    (a : α) : (l.set i a).get? i = some a := by
  induction l generalizing i with
  | nil => exact Option.noConfusion h
  | cons x xs ih =>
    cases i with
    | zero => rfl
    | succ n => exact ih h

theorem nodup_filterMap_get? {α β : Type} {l : List α} {f : α → Option β}
    (hn : (l.filterMap f).Nodup) {i j : ℕ} {a b : α} {v : β}
    (hi : l.get? i = some a) (hj : l.get? j = some b)
    (hfi : f a = some v) (hfj : f b = some v) : i = j := by
  induction l generalizing i j with
  | nil => exact Option.noConfusion hi
  | cons x xs ih =>
    have htail : (xs.filterMap f).Nodup := by
      cases hfx : f x with
      | none => rwa [List.filterMap_cons_none hfx] at hn
      | some w =>
        rw [List.filterMap_cons_some hfx] at hn
        exact (List.nodup_cons.1 hn).2
    cases i with
    | zero =>
      cases j with
      | zero => rfl
      | succ n =>
        exfalso
        simp only [List.get?] at hi hj
        cases hi
        rw [List.filterMap_cons_some hfi] at hn
        exact (List.nodup_cons.1 hn).1 (List.mem_filterMap.2 ⟨b, List.get?_mem hj, hfj⟩)
    | succ m =>
      cases j with
      | zero =>
        exfalso
        simp only [List.get?] at hi hj
        cases hj
        rw [List.filterMap_cons_some hfj] at hn
        exact (List.nodup_cons.1 hn).1 (List.mem_filterMap.2 ⟨a, List.get?_mem hi, hfi⟩)
      | succ n =>
        simp only [List.get?] at hi hj
        exact congrArg Nat.succ (ih htail hi hj)

theorem arrTypeF_map_arrF (pr : Proc) : arrTypeF pr = (arrF pr).map Prod.fst := by
  cases pr <;> rfl

theorem arrF_some_inv {pr : Proc} {p : String} {i : ℕ} (h : arrF pr = some (p, i)) :
    ∃ pc, pr = .arrival p i pc := by
  cases pr with
  | arrival p' i' pc =>
    simp only [arrF, Option.some.injEq, Prod.mk.injEq] at h
    exact ⟨pc, by rw [h.1, h.2]⟩
  | breakdown mt pc => exact Option.noConfusion h
  | produce d => exact Option.noConfusion h
  | shiftCycle l pc => exact Option.noConfusion h

theorem waitsPool_cases {pr : Proc} {mt : MachineType} (h : waitsPool pr = some mt) :
    (∃ d, pr = .produce d ∧ d.pc = .pWaiting) ∨ pr = .breakdown mt .bWaiting := by
  cases pr with
  | produce d =>
    cases hpc : d.pc <;> simp [waitsPool, hpc] at h
    exact Or.inl ⟨d, rfl, hpc⟩
  | breakdown mt' pc =>
    cases pc <;> simp [waitsPool] at h
    exact Or.inr (by rw [h])
  | arrival p i pc => simp [waitsPool] at h
  | shiftCycle l pc => simp [waitsPool] at h

theorem grantProc_uidF (t : String) (pr : Proc) : uidF t (grantProc pr) = uidF t pr := by
  cases pr <;> rfl

theorem grantProc_arrF (pr : Proc) : arrF (grantProc pr) = arrF pr := by
  cases pr <;> rfl

theorem grantProc_isProduce (pr : Proc) : isProduce (grantProc pr) = isProduce pr := by
  cases pr <;> rfl

theorem grantProc_isDone_of_waits {pr : Proc} {mt : MachineType}
    (h : waitsPool pr = some mt) :
    isDoneProduce (grantProc pr) = isDoneProduce pr := by
  rcases waitsPool_cases h with ⟨d, rfl, hpc⟩ | rfl
  · simp [grantProc, isDoneProduce, hpc]
  · rfl

theorem CountInv_congr {st st' : SimState} (hp : st'.procs = st.procs)
    (hprod : st'.produced = st.produced) (hraw : st'.raw = st.raw) :
    CountInv st → CountInv st' := by
  unfold CountInv
  rw [hp, hprod, hraw]
  exact id

theorem VisitInv_congr {st st' : SimState} (hp : st'.procs = st.procs) :
    VisitInv st → VisitInv st' := by
  unfold VisitInv
  rw [hp]
  exact id

theorem SeqInv_congr {st st' : SimState} (hp : st'.procs = st.procs) :
    SeqInv st → SeqInv st' := by
  unfold SeqInv
  rw [hp]
  exact id

theorem CountInv_set {st : SimState} {pid : ℕ} {p0 p' : Proc} (hC : CountInv st)
    (hget : st.procs.get? pid = some p0)
    (hzP : isProduce p' = isProduce p0) (hzD : isDoneProduce p' = isDoneProduce p0) :
    CountInv (st.setProc pid p') := by
  obtain ⟨h1, h2⟩ := hC
  have hD := countP_set_of_get? hget isDoneProduce p'
  have hP := countP_set_of_get? hget isProduce p'
  rw [hzD] at hD
  rw [hzP] at hP
  constructor
  · show (st.setProc pid p').produced = countDone ((st.setProc pid p').procs)
    simp only [setProc_produced, setProc_procs]
    unfold countDone at *
    omega
  · show (st.setProc pid p').raw = countProduce ((st.setProc pid p').procs)
    simp only [setProc_raw, setProc_procs]
    unfold countProduce at *
    omega

theorem VisitInv_set {st : SimState} {pid : ℕ} {p0 : Proc} (p' : Proc) (hV : VisitInv st)
    (hget : st.procs.get? pid = some p0)
    (hp' : ∀ d', p' = .produce d' → prodOk d') : VisitInv (st.setProc pid p') := by
  intro q d hq
  simp only [setProc_procs] at hq
  by_cases hqp : q = pid
  · subst hqp
    rw [get?_set_self hget] at hq
    exact hp' d (Option.some.inj hq)
  · rw [List.get?_set_ne _ _ (fun hh => hqp hh.symm)] at hq
    exact hV q d hq

theorem SeqInv_set {st : SimState} {pid : ℕ} {p0 : Proc} (p' : Proc) (hS : SeqInv st)
    (hget : st.procs.get? pid = some p0)
    (hu : ∀ t, uidF t p' = uidF t p0) (ha : arrF p' = arrF p0) :
    SeqInv (st.setProc pid p') := by
  have hat : arrTypeF p' = arrTypeF p0 := by
    rw [arrTypeF_map_arrF, arrTypeF_map_arrF, ha]
  obtain ⟨hn, hcl⟩ := hS
  constructor
  · show (arrivalTypes ((st.setProc pid p').procs)).Nodup
    simp only [setProc_procs]
    unfold arrivalTypes
    rw [filterMap_set_of_get? hget arrTypeF hat]
    exact hn
  · intro q p i pc hq
    simp only [setProc_procs] at hq ⊢
    have huids : uidsOf (st.procs.set pid p') p = uidsOf st.procs p := by
      unfold uidsOf
      exact filterMap_set_of_get? hget (uidF p) (hu p)
    rw [huids]
    by_cases hqp : q = pid
    · subst hqp
      rw [get?_set_self hget] at hq
      have haf : arrF p0 = some (p, i) := by
        rw [← ha, Option.some.inj hq]
        rfl
      obtain ⟨pc0, hp0⟩ := arrF_some_inv haf
      exact hcl q p i pc0 (by rw [hget, hp0])
    · rw [List.get?_set_ne _ _ (fun hh => hqp hh.symm)] at hq
      exact hcl q p i pc hq

theorem CVS_set_to {st st' : SimState} {pid : ℕ} {p0 : Proc} (p' : Proc)
    (hC : CountInv st) (hV : VisitInv st)
    (hget : st.procs.get? pid = some p0)
    (hzP : isProduce p' = isProduce p0) (hzD : isDoneProduce p' = isDoneProduce p0)
    (hu : ∀ t, uidF t p' = uidF t p0) (ha : arrF p' = arrF p0)
    (hp' : ∀ d', p' = .produce d' → prodOk d')
    (hps : st'.procs = st.procs.set pid p')
    (hprod : st'.produced = st.produced) (hraw : st'.raw = st.raw) :
    CountInv st' ∧ VisitInv st' ∧ (SeqInv st → SeqInv st') := by
  refine ⟨CountInv_congr (by simp [hps]) (by simp [hprod]) (by simp [hraw])
    (CountInv_set hC hget hzP hzD),
    VisitInv_congr (by simp [hps]) (VisitInv_set p' hV hget hp'), fun hS => ?_⟩
  exact SeqInv_congr (by simp [hps]) (SeqInv_set p' hS hget hu ha)

theorem CVS_set_chain {st0 st st' : SimState} {pid : ℕ} {p0 : Proc} (p' : Proc)
    (hS1 : SeqInv st0 → SeqInv st)
    (hC : CountInv st) (hV : VisitInv st)
    (hget : st.procs.get? pid = some p0)
    (hzP : isProduce p' = isProduce p0) (hzD : isDoneProduce p' = isDoneProduce p0)
    (hu : ∀ t, uidF t p' = uidF t p0) (ha : arrF p' = arrF p0)
    (hp' : ∀ d', p' = .produce d' → prodOk d')
    (hps : st'.procs = st.procs.set pid p')
    (hprod : st'.produced = st.produced) (hraw : st'.raw = st.raw) :
    CountInv st' ∧ VisitInv st' ∧ (SeqInv st0 → SeqInv st') := by
  obtain ⟨a, b, c⟩ := CVS_set_to p' hC hV hget hzP hzD hu ha hp' hps hprod hraw
  exact ⟨a, b, fun hS => c (hS1 hS)⟩

theorem releasePool_shape {st st' : SimState} {pid : ℕ} {mt : MachineType}
    (hw : WFpool st) (h : releasePool st pid mt = .ok st') :
    st'.produced = st.produced ∧ st'.raw = st.raw ∧
    (st'.procs = st.procs ∨
      ∃ hd hp, st.procs.get? hd = some hp ∧ waitsPool hp = some mt ∧
        st'.procs = st.procs.set hd (grantProc hp)) := by
  rcases releasePool_ok h with ⟨m, hm, hcase⟩
  rcases hcase with rfl | ⟨hd, tl, hp, hlt, hq, hgethd, rfl⟩
  · exact ⟨rfl, rfl, Or.inl rfl⟩
  · refine ⟨rfl, rfl, Or.inr ⟨hd, hp, hgethd, ?_, by simp⟩⟩
    have hcq := (hw.2 (mt, m) (lookupMachine_mem hm) hd).2
    rw [hq, List.count_cons_self] at hcq
    by_cases hB : waitsB st.procs hd mt
    · unfold waitsB at hB
      rw [hgethd] at hB
      simpa using hB
    · rw [if_neg hB] at hcq
      omega

theorem CVS_release {st st' : SimState} {pid : ℕ} {mt : MachineType}
    (hw : WFpool st) (hC : CountInv st) (hV : VisitInv st)
    (h : releasePool st pid mt = .ok st') :
    CountInv st' ∧ VisitInv st' ∧ (SeqInv st → SeqInv st') := by
  obtain ⟨hprod, hraw, hshape⟩ := releasePool_shape hw h
  rcases hshape with heq | ⟨hd, hp, hgethd, hwaits, heq⟩
  · exact ⟨CountInv_congr heq hprod hraw hC, VisitInv_congr heq hV,
      fun hS => SeqInv_congr heq hS⟩
  · refine CVS_set_to (grantProc hp) hC hV hgethd (grantProc_isProduce hp)
      (grantProc_isDone_of_waits hwaits) (fun t => grantProc_uidF t hp)
      (grantProc_arrF hp) ?_ heq hprod hraw
    intro d' hd'
    rcases waitsPool_cases hwaits with ⟨dw, rfl, hpc⟩ | rfl
    · have hde : d' = { dw with pc := .pGranted } :=
        (Proc.produce.inj (by simpa [grantProc] using hd'.symm))
      subst hde
      obtain ⟨hv, hdone, hlt⟩ := hV hd dw hgethd
      refine ⟨?_, ?_, ?_⟩
      · simp only [hpc] at hv
        simpa using hv
      · intro hcon
        exact absurd hcon (by simp)
      · intro _
        exact hlt (by rw [hpc]; exact fun hcc => ProdPc.noConfusion hcc)
    · exact absurd hd' (by simp [grantProc])

theorem take_succ_of_get? {α : Type} {l : List α} {n : ℕ} {a : α}
    (h : l.get? n = some a) : l.take (n + 1) = l.take n ++ [a] := by
  induction l generalizing n with
  | nil => exact Option.noConfusion h
  | cons x xs ih =>
    cases n with
    | zero =>
      simp only [List.get?] at h
      rw [Option.some.inj h]
      rfl
    | succ m =>
      simp only [List.get?] at h
      simp [List.take, ih h]

theorem prodOk_retag {d : ProduceData} {pc' : ProdPc} (hOk : prodOk d)
    (hold : d.pc ≠ .pInStage) (holdD : d.pc ≠ .pDone)
    (hnew : pc' ≠ .pInStage) (hnewD : pc' ≠ .pDone) :
    prodOk { d with pc := pc' } := by
  obtain ⟨hv, hdone, hlt⟩ := hOk
  have hv' : d.visited = stageOrder.take (d.k + 0) := by rwa [if_neg hold] at hv
  refine ⟨?_, fun hcon => absurd hcon hnewD, fun _ => hlt holdD⟩
  show d.visited = stageOrder.take (d.k + (if pc' = .pInStage then 1 else 0))
  rwa [if_neg hnew]

theorem CVS_arrival_wake {st st' : SimState} {pid : ℕ} {p : String} {i : ℕ}
    (dN : ProduceData) (hC : CountInv st) (hV : VisitInv st)
    (hget : st.procs.get? pid = some (.arrival p i .aWake))
    (hN1 : dN.ptype = p) (hN2 : dN.uid = i) (hN3 : dN.k = 0) (hN4 : dN.visited = [])
    (hN5 : dN.pc = .pToRequest)
    (hps : st'.procs = (st.procs ++ [Proc.produce dN]).set pid (.arrival p (i + 1) .aWake))
    (hprod : st'.produced = st.produced) (hraw : st'.raw = st.raw + 1) :
    CountInv st' ∧ VisitInv st' ∧ (SeqInv st → SeqInv st') := by
  have hlen : pid < st.procs.length := get?_some_lt hget
  have hgetL : (st.procs ++ [Proc.produce dN]).get? pid = some (.arrival p i .aWake) := by
    rw [List.get?_append hlen]
    exact hget
  have hDset : List.countP isDoneProduce
      ((st.procs ++ [Proc.produce dN]).set pid (.arrival p (i + 1) .aWake))
      = List.countP isDoneProduce (st.procs ++ [Proc.produce dN]) := by
    have hD := countP_set_of_get? hgetL isDoneProduce (.arrival p (i + 1) .aWake)
    rw [show (if isDoneProduce (Proc.arrival p i .aWake) then 1 else 0) = 0 from rfl,
        show (if isDoneProduce (Proc.arrival p (i + 1) .aWake) then 1 else 0) = 0 from rfl] at hD
    omega
  have hPset : List.countP isProduce
      ((st.procs ++ [Proc.produce dN]).set pid (.arrival p (i + 1) .aWake))
      = List.countP isProduce (st.procs ++ [Proc.produce dN]) := by
    have hP := countP_set_of_get? hgetL isProduce (.arrival p (i + 1) .aWake)
    rw [show (if isProduce (Proc.arrival p i .aWake) then 1 else 0) = 0 from rfl,
        show (if isProduce (Proc.arrival p (i + 1) .aWake) then 1 else 0) = 0 from rfl] at hP
    omega
  have hDa : (st.procs ++ [Proc.produce dN]).countP isDoneProduce
      = st.procs.countP isDoneProduce := by
    rw [List.countP_append]
    simp [isDoneProduce, hN5]
  have hPa : (st.procs ++ [Proc.produce dN]).countP isProduce
      = st.procs.countP isProduce + 1 := by
    rw [List.countP_append]
    simp [isProduce]
  obtain ⟨hc1, hc2⟩ := hC
  unfold countDone at hc1
  unfold countProduce at hc2
  refine ⟨⟨?_, ?_⟩, ?_, fun hS => ?_⟩
  · rw [hprod, hps]
    unfold countDone
    rw [hDset, hDa]
    exact hc1
  · rw [hraw, hps]
    unfold countProduce
    rw [hPset, hPa, hc2]
  · intro q d hq
    rw [hps] at hq
    by_cases hqp : q = pid
    · subst hqp
      rw [get?_set_self hgetL] at hq
      exact Proc.noConfusion (Option.some.inj hq)
    · rw [List.get?_set_ne _ _ (fun hh => hqp hh.symm)] at hq
      by_cases hql : q < st.procs.length
      · rw [List.get?_append hql] at hq
        exact hV q d hq
      · have hqe : q = st.procs.length := by
          by_contra hne
          rw [List.get?_eq_none.2 (by simp; omega)] at hq
          exact Option.noConfusion hq
        subst hqe
        rw [List.get?_concat_length] at hq
        cases Proc.produce.inj (Option.some.inj hq)
        refine ⟨?_, ?_, ?_⟩
        · rw [hN4, hN3, hN5]
          decide
        · rw [hN5]
          intro hcon
          exact absurd hcon (by decide)
        · intro hcon2
          rw [hN3]
          decide
  · obtain ⟨hn, hcl⟩ := hS
    have hAT : arrivalTypes ((st.procs ++ [Proc.produce dN]).set pid (.arrival p (i + 1) .aWake))
        = arrivalTypes st.procs := by
      unfold arrivalTypes
      rw [filterMap_set_of_get? hgetL arrTypeF
        (show arrTypeF (.arrival p (i + 1) .aWake) = arrTypeF (.arrival p i .aWake) from rfl),
        List.filterMap_append]
      rw [show List.filterMap arrTypeF [Proc.produce dN] = [] from rfl, List.append_nil]
    have hUt : ∀ u, uidsOf ((st.procs ++ [Proc.produce dN]).set pid (.arrival p (i + 1) .aWake)) u
        = uidsOf st.procs u ++ (if p = u then [i] else []) := by
      intro u
      unfold uidsOf
      rw [filterMap_set_of_get? hgetL (uidF u)
        (show uidF u (.arrival p (i + 1) .aWake) = uidF u (.arrival p i .aWake) from rfl),
        List.filterMap_append]
      congr 1
      by_cases hpt : p = u
      · rw [if_pos hpt]
        simp [uidF, hN1, hN2, hpt]
      · rw [if_neg hpt]
        simp [uidF, hN1, hpt]
    refine ⟨?_, ?_⟩
    · show (arrivalTypes st'.procs).Nodup
      rw [hps, hAT]
      exact hn
    · intro q p' i' pc' hq
      rw [hps] at hq
      show 1 ≤ i' ∧ uidsOf st'.procs p' = List.range' 1 (i' - 1)
      rw [hps, hUt p']
      by_cases hqp : q = pid
      · subst hqp
        rw [get?_set_self hgetL] at hq
        obtain ⟨rfl, rfl, rfl⟩ := Proc.arrival.inj (Option.some.inj hq)
        obtain ⟨h1a, h2a⟩ := hcl _ p i .aWake hget
        refine ⟨by omega, ?_⟩
        rw [if_pos rfl, h2a]
        obtain ⟨j, rfl⟩ : ∃ j, i = j + 1 := ⟨i - 1, by omega⟩
        simp [List.range'_concat, Nat.add_comm]
      · rw [List.get?_set_ne _ _ (fun hh => hqp hh.symm)] at hq
        by_cases hql : q < st.procs.length
        · rw [List.get?_append hql] at hq
          obtain ⟨h1a, h2a⟩ := hcl q p' i' pc' hq
          have hpp : p ≠ p' := by
            intro hpe
            subst hpe
            exact hqp (nodup_filterMap_get? hn hq hget rfl rfl)
          rw [if_neg hpp, List.append_nil, h2a]
          exact ⟨h1a, rfl⟩
        · have hqe : q = st.procs.length := by
            by_contra hne
            rw [List.get?_eq_none.2 (by simp; omega)] at hq
            exact Option.noConfusion hq
          subst hqe
          rw [List.get?_concat_length] at hq
          exact Proc.noConfusion (Option.some.inj hq)

theorem CVS_dispatch {g : Globals} {st st' : SimState} {pid : ℕ}
    (hw : WFpool st) (hC : CountInv st) (hV : VisitInv st)
    (h : dispatchProc g st pid = .ok st') :
    CountInv st' ∧ VisitInv st' ∧ (SeqInv st → SeqInv st') := by
  unfold dispatchProc at h
  split at h
  · exact Except.noConfusion h
  case _ mt pc hget =>
    unfold generate_breakdown_step at h
    split at h
    · -- bStart
      split at h
      · exact Except.noConfusion h
      case _ m hm =>
        obtain ⟨⟨t, r'⟩, hr, hf⟩ := bindE_ok_inv h
        obtain rfl := Except.ok.inj hf
        exact CVS_set_to (.breakdown mt .bSleeping) hC hV hget rfl rfl (fun _ => rfl) rfl
          (fun d' hd' => Proc.noConfusion hd') rfl rfl rfl
    · -- bSleeping
      rcases requestPool_ok h with ⟨m, hm, hcase⟩
      rcases hcase with ⟨hlt, rfl⟩ | ⟨hge, rfl⟩
      · exact CVS_set_to (.breakdown mt .bGranted) hC hV hget rfl rfl (fun _ => rfl) rfl
          (fun d' hd' => Proc.noConfusion hd') rfl rfl rfl
      · exact CVS_set_to (.breakdown mt .bWaiting) hC hV hget rfl rfl (fun _ => rfl) rfl
          (fun d' hd' => Proc.noConfusion hd') rfl rfl rfl
    · -- bGranted
      split at h
      · exact Except.noConfusion h
      case _ m hm =>
        obtain ⟨⟨t, r'⟩, hr, hf⟩ := bindE_ok_inv h
        obtain rfl := Except.ok.inj hf
        exact CVS_set_to (.breakdown mt .bRepairing) hC hV hget rfl rfl (fun _ => rfl) rfl
          (fun d' hd' => Proc.noConfusion hd') rfl rfl rfl
    · -- bRepairing
      split at h
      · exact Except.noConfusion h
      case _ m hm =>
        obtain ⟨st1, hrel, hrest⟩ := bindE_ok_inv h
        obtain ⟨⟨t, r'⟩, hr, hf⟩ := bindE_ok_inv hrest
        obtain rfl := Except.ok.inj hf
        obtain ⟨hC1, hV1, hS1⟩ := CVS_release hw hC hV hrel
        obtain ⟨hx1, hget1, hlen1⟩ := WFpool_releasePool_toX hw hget rfl rfl hrel
        exact CVS_set_chain (.breakdown mt .bSleeping) hS1 hC1 hV1 hget1 rfl rfl
          (fun _ => rfl) rfl (fun d' hd' => Proc.noConfusion hd') rfl rfl rfl
    · -- bWaiting
      exact Except.noConfusion h
  case _ d hget =>
    unfold produce_product_step at h
    split at h
    case _ hpc =>
      -- pToRequest
      unfold produce_product_request at h
      split at h
      · exact Except.noConfusion h
      case _ mt hstage =>
        have hOk := hV pid d hget
        rcases requestPool_ok h with ⟨m, hm, hcase⟩
        rcases hcase with ⟨hlt, rfl⟩ | ⟨hge, rfl⟩
        · exact CVS_set_to (.produce { d with pc := .pGranted }) hC hV hget rfl
            (by simp [isDoneProduce, hpc]) (fun _ => rfl) rfl
            (fun d' hd' => by
              cases Proc.produce.inj hd'
              exact prodOk_retag hOk (by rw [hpc]; decide) (by rw [hpc]; decide)
                (by decide) (by decide)) rfl rfl rfl
        · exact CVS_set_to (.produce { d with pc := .pWaiting }) hC hV hget rfl
            (by simp [isDoneProduce, hpc]) (fun _ => rfl) rfl
            (fun d' hd' => by
              cases Proc.produce.inj hd'
              exact prodOk_retag hOk (by rw [hpc]; decide) (by rw [hpc]; decide)
                (by decide) (by decide)) rfl rfl rfl
    case _ hpc =>
      -- pGranted
      split at h
      · exact Except.noConfusion h
      case _ mt hstage =>
        obtain ⟨⟨t, r'⟩, hr, hf⟩ := bindE_ok_inv h
        obtain rfl := Except.ok.inj hf
        obtain ⟨hv, hdone, hlt⟩ := hV pid d hget
        exact CVS_set_to (.produce { d with visited := d.visited ++ [mt], pc := .pInStage })
          hC hV hget rfl (by simp [isDoneProduce, hpc]) (fun _ => rfl) rfl
          (fun d' hd' => by
            cases Proc.produce.inj hd'
            refine ⟨?_, fun hcon => ProdPc.noConfusion hcon, fun _ => hlt (by rw [hpc]; decide)⟩
            show d.visited ++ [mt]
              = stageOrder.take (d.k + (if (ProdPc.pInStage = .pInStage) then 1 else 0))
            rw [if_pos rfl]
            have hv' : d.visited = stageOrder.take (d.k + 0) := by
              rwa [if_neg (by rw [hpc]; decide)] at hv
            rw [Nat.add_zero] at hv'
            rw [hv', take_succ_of_get? hstage]) rfl rfl rfl
    case _ hpc =>
      -- pInStage
      split at h
      · exact Except.noConfusion h
      case _ mt hstage =>
        obtain ⟨st1, hrel, hrest⟩ := bindE_ok_inv h
        obtain ⟨hC1, hV1, hS1⟩ := CVS_release hw hC hV hrel
        obtain ⟨hx1, hget1, hlen1⟩ := WFpool_releasePool_toX hw hget
          (by simp only [holdsPool, hpc]; exact hstage) (by simp [waitsPool, hpc]) hrel
        obtain ⟨hv, hdone, hlt⟩ := hV pid d hget
        have hvis : d.visited = stageOrder.take (d.k + 1) := by rwa [if_pos hpc] at hv
        split at hrest
        case _ hk4 =>
          unfold produce_product_request at hrest
          split at hrest
          · exact Except.noConfusion hrest
          case _ mt2 hstage2 =>
            rcases requestPool_ok hrest with ⟨m2, hm2, hcase⟩
            rcases hcase with ⟨hlt2, rfl⟩ | ⟨hge2, rfl⟩
            · exact CVS_set_chain
                (.produce { d with start_time := st.clock, k := d.k + 1, pc := .pGranted })
                hS1 hC1 hV1 hget1 rfl (by simp [isDoneProduce, hpc]) (fun _ => rfl) rfl
                (fun d' hd' => by
                  cases Proc.produce.inj hd'
                  refine ⟨?_, fun hcon => ProdPc.noConfusion hcon, fun _ => hk4⟩
                  show d.visited = stageOrder.take (d.k + 1 + 0)
                  rwa [Nat.add_zero]) rfl rfl rfl
            · exact CVS_set_chain
                (.produce { d with start_time := st.clock, k := d.k + 1, pc := .pWaiting })
                hS1 hC1 hV1 hget1 rfl (by simp [isDoneProduce, hpc]) (fun _ => rfl) rfl
                (fun d' hd' => by
                  cases Proc.produce.inj hd'
                  refine ⟨?_, fun hcon => ProdPc.noConfusion hcon, fun _ => hk4⟩
                  show d.visited = stageOrder.take (d.k + 1 + 0)
                  rwa [Nat.add_zero]) rfl rfl rfl
        case _ hk4 =>
          obtain rfl := Except.ok.inj hrest
          have hk3 : d.k + 1 = 4 := by
            have := hlt (by rw [hpc]; decide)
            omega
          obtain ⟨hc1, hc2⟩ := hC1
          have hDset : List.countP isDoneProduce (st1.procs.set pid
              (.produce { d with start_time := st.clock, k := d.k + 1, pc := .pDone }))
              = List.countP isDoneProduce st1.procs + 1 := by
            have hD := countP_set_of_get? hget1 isDoneProduce
              (.produce { d with start_time := st.clock, k := d.k + 1, pc := .pDone })
            rw [show (if isDoneProduce (Proc.produce { d with start_time := st.clock, k := d.k + 1, pc := .pDone }) then 1 else 0) = 1 from rfl] at hD
            have h0 : (if isDoneProduce (Proc.produce d) then 1 else 0) = 0 := by
              simp [isDoneProduce, hpc]
            rw [h0] at hD
            omega
          have hPset : List.countP isProduce (st1.procs.set pid
              (.produce { d with start_time := st.clock, k := d.k + 1, pc := .pDone }))
              = List.countP isProduce st1.procs := by
            have hP := countP_set_of_get? hget1 isProduce
              (.produce { d with start_time := st.clock, k := d.k + 1, pc := .pDone })
            rw [show (if isProduce (Proc.produce { d with start_time := st.clock, k := d.k + 1, pc := .pDone }) then 1 else 0) = 1 from rfl,
              show (if isProduce (Proc.produce d) then 1 else 0) = 1 from rfl] at hP
            omega
          unfold countDone at hc1
          unfold countProduce at hc2
          refine ⟨⟨?_, ?_⟩, ?_, fun hS => ?_⟩
          · show st1.produced + 1 = countDone (st1.procs.set pid
              (.produce { d with start_time := st.clock, k := d.k + 1, pc := .pDone }))
            unfold countDone
            rw [hDset]
            omega
          · show st1.raw = countProduce (st1.procs.set pid
              (.produce { d with start_time := st.clock, k := d.k + 1, pc := .pDone }))
            unfold countProduce
            rw [hPset]
            omega
          · refine VisitInv_congr rfl (VisitInv_set
              (.produce { d with start_time := st.clock, k := d.k + 1, pc := .pDone })
              hV1 hget1 ?_)
            intro d' hd'
            cases Proc.produce.inj hd'
            refine ⟨?_, fun _ => hk3, fun hcon => absurd rfl hcon⟩
            show d.visited
              = stageOrder.take (d.k + 1 + (if (ProdPc.pDone = .pInStage) then 1 else 0))
            rwa [if_neg (by decide), Nat.add_zero]
          · exact SeqInv_congr rfl (SeqInv_set
              (.produce { d with start_time := st.clock, k := d.k + 1, pc := .pDone })
              (hS1 hS) hget1 (fun _ => rfl) rfl)
    case _ hpc => exact Except.noConfusion h
    case _ hpc => exact Except.noConfusion h
  case _ p i pc hget =>
    unfold send_raw_material_step at h
    split at h
    · -- aStart
      obtain rfl := timeoutSched_ok h
      exact CVS_set_to (.arrival p i .aWake) hC hV hget rfl rfl (fun _ => rfl) rfl
        (fun d' hd' => Proc.noConfusion hd') rfl rfl rfl
    · -- aWake
      obtain rfl := timeoutSched_ok h
      exact CVS_arrival_wake ⟨p, i, st.clock, st.clock, 0, [], .pToRequest⟩ hC hV hget
        rfl rfl rfl rfl rfl rfl rfl rfl
  case _ label pc hget =>
    obtain rfl := Except.ok.inj h
    cases pc with
    | sStart =>
      exact CVS_set_to (.shiftCycle label .sWake) hC hV hget rfl rfl (fun _ => rfl) rfl
        (fun d' hd' => Proc.noConfusion hd') rfl rfl rfl
    | sWake =>
      exact CVS_set_to (.shiftCycle (nextShiftLabel label) .sWake) hC hV hget rfl rfl
        (fun _ => rfl) rfl (fun d' hd' => Proc.noConfusion hd') rfl rfl rfl

/-! ### Scheduler-level preservation and the initial state -/

theorem Inv3_simStep {g : Globals} {horizon : ℚ} {st st' : SimState}
    (hI : Inv3 st) (h : simStep g horizon st = .ok st') :
    Inv3 st' ∧ (SeqInv st → SeqInv st') := by
  obtain ⟨hw, hC, hV⟩ := hI
  unfold simStep at h
  split at h
  · obtain rfl := Except.ok.inj h
    exact ⟨⟨hw, hC, hV⟩, id⟩
  · split at h
    · obtain rfl := Except.ok.inj h
      exact ⟨⟨(WFpool_congr rfl rfl).1 hw, CountInv_congr rfl rfl rfl hC,
        VisitInv_congr rfl hV⟩, fun hS => SeqInv_congr rfl hS⟩
    case _ e rest hpop =>
      split at h
      · obtain rfl := Except.ok.inj h
        exact ⟨⟨(WFpool_congr rfl rfl).1 hw, CountInv_congr rfl rfl rfl hC,
          VisitInv_congr rfl hV⟩, fun hS => SeqInv_congr rfl hS⟩
      · have hwM : WFpool { st with events := rest, clock := e.time } :=
          (WFpool_congr rfl rfl).1 hw
        have hCM : CountInv { st with events := rest, clock := e.time } :=
          CountInv_congr rfl rfl rfl hC
        have hVM : VisitInv { st with events := rest, clock := e.time } :=
          VisitInv_congr rfl hV
        obtain ⟨hC', hV', hS'⟩ := CVS_dispatch hwM hCM hVM h
        exact ⟨⟨WFpool_dispatch hwM h, hC', hV'⟩,
          fun hS => hS' (SeqInv_congr rfl hS)⟩

theorem Inv3_simSteps {g : Globals} {horizon : ℚ} (fuel : ℕ) :
    ∀ {st st' : SimState}, Inv3 st → simSteps g horizon fuel st = .ok st' →
      Inv3 st' ∧ (SeqInv st → SeqInv st') := by
  induction fuel with
  | zero =>
    intro st st' hI h
    obtain rfl := Except.ok.inj h
    exact ⟨hI, id⟩
  | succ n ih =>
    intro st st' hI h
    obtain ⟨st1, h1, h2⟩ := bindE_ok_inv h
    obtain ⟨hI1, hS1⟩ := Inv3_simStep hI h1
    obtain ⟨hI2, hS2⟩ := ih hI1 h2
    exact ⟨hI2, fun hS => hS2 (hS1 hS)⟩

theorem mem_assocSet {acc : List (MachineType × MachineSt)} {mt : MachineType}
    {m : MachineSt} {x : MachineType × MachineSt} (h : x ∈ assocSet acc mt m) :
    x ∈ acc ∨ x = (mt, m) := by
  induction acc with
  | nil => simpa [assocSet] using h
  | cons em rest ih =>
    obtain ⟨k, v⟩ := em
    by_cases hk : k = mt
    · simp only [assocSet, if_pos hk] at h
      rcases List.mem_cons.1 h with rfl | h
      · exact Or.inr (by rw [hk])
      · exact Or.inl (List.mem_cons_of_mem _ h)
    · simp only [assocSet, if_neg hk] at h
      rcases List.mem_cons.1 h with rfl | h
      · exact Or.inl (List.mem_cons_self _ _)
      · rcases ih h with h | h
        · exact Or.inl (List.mem_cons_of_mem _ h)
        · exact Or.inr h

theorem assocSet_keys_mem {acc : List (MachineType × MachineSt)} {mt : MachineType}
    {m : MachineSt} {a : MachineType} (h : a ∈ (assocSet acc mt m).map Prod.fst) :
    a ∈ acc.map Prod.fst ∨ a = mt := by
  obtain ⟨x, hx, rfl⟩ := List.mem_map.1 h
  rcases mem_assocSet hx with hx | rfl
  · exact Or.inl (List.mem_map.2 ⟨x, hx, rfl⟩)
  · exact Or.inr rfl

theorem assocSet_keys_nodup {acc : List (MachineType × MachineSt)} {mt : MachineType}
    {m : MachineSt} (h : (acc.map Prod.fst).Nodup) :
    ((assocSet acc mt m).map Prod.fst).Nodup := by
  induction acc with
  | nil => simp [assocSet]
  | cons em rest ih =>
    obtain ⟨k, v⟩ := em
    rw [List.map_cons, List.nodup_cons] at h
    by_cases hk : k = mt
    · simp only [assocSet, if_pos hk, List.map_cons, List.nodup_cons]
      exact h
    · simp only [assocSet, if_neg hk, List.map_cons, List.nodup_cons]
      refine ⟨?_, ih h.2⟩
      intro hmem
      rcases assocSet_keys_mem hmem with hmem | rfl
      · exact h.1 hmem
      · exact hk rfl

theorem buildMachinesAux_inv {g : Globals} :
    ∀ (nm : List (MachineType × ℤ)) (acc ms : List (MachineType × MachineSt)),
      buildMachinesAux g acc nm = .ok ms →
      (acc.map Prod.fst).Nodup →
      (∀ em ∈ acc, em.2.users = [] ∧ em.2.queue = [] ∧
        em.2.breakdown_time = g.MACHINE_BREAKDOWN_TIME em.1) →
      (ms.map Prod.fst).Nodup ∧ ∀ em ∈ ms, em.2.users = [] ∧ em.2.queue = [] ∧
        em.2.breakdown_time = g.MACHINE_BREAKDOWN_TIME em.1 := by
  intro nm
  induction nm with
  | nil =>
    intro acc ms h hk hP
    obtain rfl := Except.ok.inj h
    exact ⟨hk, hP⟩
  | cons hd tl ih =>
    intro acc ms h hk hP
    obtain ⟨mt, q⟩ := hd
    simp only [buildMachinesAux, Machine_init] at h
    split at h
    · rw [bindE_err] at h
      exact Except.noConfusion h
    · rw [bindE_ok] at h
      refine ih _ _ h (assocSet_keys_nodup hk) ?_
      intro em hmem
      rcases mem_assocSet hmem with hmem | rfl
      · exact hP em hmem
      · exact ⟨rfl, rfl, rfl⟩

theorem foldl_spawn_machines {α : Type} (f : α → Proc) :
    ∀ (xs : List α) (st : SimState),
      (xs.foldl (fun s x => spawnProc s (f x)) st).machines = st.machines := by
  intro xs
  induction xs with
  | nil => intro st; rfl
  | cons x tl ih =>
    intro st
    rw [List.foldl_cons, ih]
    simp

theorem foldl_spawn_produced {α : Type} (f : α → Proc) :
    ∀ (xs : List α) (st : SimState),
      (xs.foldl (fun s x => spawnProc s (f x)) st).produced = st.produced := by
  intro xs
  induction xs with
  | nil => intro st; rfl
  | cons x tl ih =>
    intro st
    rw [List.foldl_cons, ih]
    simp

theorem foldl_spawn_raw {α : Type} (f : α → Proc) :
    ∀ (xs : List α) (st : SimState),
      (xs.foldl (fun s x => spawnProc s (f x)) st).raw = st.raw := by
  intro xs
  induction xs with
  | nil => intro st; rfl
  | cons x tl ih =>
    intro st
    rw [List.foldl_cons, ih]
    simp

theorem foldl_spawn_procs {α : Type} (f : α → Proc) :
    ∀ (xs : List α) (st : SimState),
      (xs.foldl (fun s x => spawnProc s (f x)) st).procs = st.procs ++ xs.map f := by
  intro xs
  induction xs with
  | nil => intro st; simp
  | cons x tl ih =>
    intro st
    rw [List.foldl_cons, ih]
    simp

theorem WFpool_foldl_spawn {α : Type} (f : α → Proc) :
    ∀ (xs : List α) {st : SimState}, WFpool st →
      (∀ x ∈ xs, holdsPool (f x) = none ∧ waitsPool (f x) = none) →
      WFpool (xs.foldl (fun s x => spawnProc s (f x)) st) := by
  intro xs
  induction xs with
  | nil =>
    intro st hw hf
    exact hw
  | cons x tl ih =>
    intro st hw hf
    rw [List.foldl_cons]
    exact ih (WFpool_spawn hw (hf x (List.mem_cons_self _ _)).1
      (hf x (List.mem_cons_self _ _)).2)
      (fun y hy => hf y (List.mem_cons_of_mem _ hy))

theorem initState_shape {g : Globals} {nm : List (MachineType × ℤ)} {rng : RngState}
    {st0 : SimState} (h : initState g nm rng = .ok st0) :
    ∃ ms, buildMachines g nm = .ok ms ∧
      st0.machines = ms ∧ st0.produced = 0 ∧ st0.raw = 0 ∧
      st0.procs = ms.map (fun em => Proc.breakdown em.1 .bStart)
        ++ (g.PRODUCT_TYPES.map (fun p => Proc.arrival p 1 .aStart)
        ++ [Proc.shiftCycle .Day .sStart]) := by
  unfold initState at h
  obtain ⟨ms, hms, hrest⟩ := bindE_ok_inv h
  obtain rfl := Except.ok.inj hrest
  refine ⟨ms, hms, ?_, ?_, ?_, ?_⟩
  · simp [foldl_spawn_machines]
  · simp [foldl_spawn_produced]
  · simp [foldl_spawn_raw]
  · simp [foldl_spawn_procs, List.append_assoc]

theorem isProduce_init_false {ms : List (MachineType × MachineSt)} {pts : List String}
    {pr : Proc}
    (hpr : pr ∈ ms.map (fun em => Proc.breakdown em.1 .bStart)
      ++ (pts.map (fun p => Proc.arrival p 1 .aStart) ++ [Proc.shiftCycle .Day .sStart])) :
    isProduce pr = false ∧ isDoneProduce pr = false := by
  rcases List.mem_append.1 hpr with hpr | hpr
  · obtain ⟨em, hem, rfl⟩ := List.mem_map.1 hpr
    exact ⟨rfl, rfl⟩
  · rcases List.mem_append.1 hpr with hpr | hpr
    · obtain ⟨p, hp, rfl⟩ := List.mem_map.1 hpr
      exact ⟨rfl, rfl⟩
    · rw [List.mem_singleton.1 hpr]
      exact ⟨rfl, rfl⟩

theorem Inv3_initState {g : Globals} {nm : List (MachineType × ℤ)} {rng : RngState}
    {st0 : SimState} (h : initState g nm rng = .ok st0) : Inv3 st0 := by
  obtain ⟨ms, hms, hmach, hprod, hraw, hprocs⟩ := initState_shape h
  obtain ⟨hk, hP⟩ := buildMachinesAux_inv nm [] ms hms (by simp) (by simp)
  have hbase : WFpool { clock := 0, nextSeq := 0, events := ([] : List Ev), procs := ([] : List Proc), machines := ms, produced := 0, raw := 0, rng := rng, finished := false } := by
    refine ⟨hk, ?_⟩
    intro em hmem q
    rw [(hP em hmem).1, (hP em hmem).2.1]
    constructor <;> simp [holdsB, waitsB]
  refine ⟨?_, ?_, ?_⟩
  · -- WFpool: rebuild along the registration order
    have hw1 := WFpool_foldl_spawn (fun em : MachineType × MachineSt => Proc.breakdown em.1 .bStart)
      ms hbase (fun x hx => ⟨rfl, rfl⟩)
    have hw2 := WFpool_foldl_spawn (fun p : String => Proc.arrival p 1 .aStart)
      g.PRODUCT_TYPES hw1 (fun x hx => ⟨rfl, rfl⟩)
    have hw3 := WFpool_spawn hw2 (p := Proc.shiftCycle .Day .sStart) rfl rfl
    refine (WFpool_congr ?_ ?_).1 hw3
    · rw [hmach]
      simp [foldl_spawn_machines]
    · rw [hprocs]
      simp [foldl_spawn_procs, List.append_assoc]
  · constructor
    · rw [hprod, hprocs]
      unfold countDone
      symm
      rw [List.countP_eq_zero]
      intro a ha
      simp [(isProduce_init_false ha).2]
    · rw [hraw, hprocs]
      unfold countProduce
      symm
      rw [List.countP_eq_zero]
      intro a ha
      simp [(isProduce_init_false ha).1]
  · intro q d hq
    rw [hprocs] at hq
    have hmem := List.get?_mem hq
    have := (isProduce_init_false hmem).1
    simp [isProduce] at this

theorem arrivalTypes_init (ms : List (MachineType × MachineSt)) (pts : List String) :
    arrivalTypes (ms.map (fun em => Proc.breakdown em.1 .bStart)
      ++ (pts.map (fun p => Proc.arrival p 1 .aStart) ++ [Proc.shiftCycle .Day .sStart]))
      = pts := by
  unfold arrivalTypes
  rw [List.filterMap_append, List.filterMap_append]
  have h1 : List.filterMap arrTypeF (ms.map (fun em => Proc.breakdown em.1 .bStart)) = [] := by
    induction ms with
    | nil => rfl
    | cons a tl ih => simpa [arrTypeF] using ih
  have h2 : List.filterMap arrTypeF (pts.map (fun p => Proc.arrival p 1 .aStart)) = pts := by
    induction pts with
    | nil => rfl
    | cons a tl ih => simpa [arrTypeF] using ih
  rw [h1, h2, List.nil_append,
    show List.filterMap arrTypeF [Proc.shiftCycle .Day .sStart] = [] from rfl, List.append_nil]

theorem uidsOf_init (ms : List (MachineType × MachineSt)) (pts : List String) (u : String) :
    uidsOf (ms.map (fun em => Proc.breakdown em.1 .bStart)
      ++ (pts.map (fun p => Proc.arrival p 1 .aStart) ++ [Proc.shiftCycle .Day .sStart])) u
      = [] := by
  unfold uidsOf
  rw [List.filterMap_append, List.filterMap_append]
  have h1 : List.filterMap (uidF u) (ms.map (fun em => Proc.breakdown em.1 .bStart)) = [] := by
    induction ms with
    | nil => rfl
    | cons a tl ih => simpa [uidF] using ih
  have h2 : List.filterMap (uidF u) (pts.map (fun p => Proc.arrival p 1 .aStart)) = [] := by
    induction pts with
    | nil => rfl
    | cons a tl ih => simpa [uidF] using ih
  rw [h1, h2]
  rfl

theorem SeqInv_initState {g : Globals} {nm : List (MachineType × ℤ)} {rng : RngState}
    {st0 : SimState} (hnd : g.PRODUCT_TYPES.Nodup) (h : initState g nm rng = .ok st0) :
    SeqInv st0 := by
  obtain ⟨ms, hms, hmach, hprod, hraw, hprocs⟩ := initState_shape h
  constructor
  · rw [hprocs, arrivalTypes_init]
    exact hnd
  · intro q p i pc hq
    rw [hprocs] at hq
    have hmem := List.get?_mem hq
    have hone : i = 1 := by
      rcases List.mem_append.1 hmem with hm | hm
      · obtain ⟨em, hem, heq⟩ := List.mem_map.1 hm
        exact Proc.noConfusion heq
      · rcases List.mem_append.1 hm with hm | hm
        · obtain ⟨p', hp', heq⟩ := List.mem_map.1 hm
          obtain ⟨h1, h2, h3⟩ := Proc.arrival.inj heq
          omega
        · exact Proc.noConfusion (List.mem_singleton.1 hm)
    subst hone
    rw [hprocs, uidsOf_init]
    exact ⟨le_refl 1, rfl⟩

theorem Inv3_scenario {g : Globals} {nm : List (MachineType × ℤ)} {ss : List (String × ℕ)}
    {rng : RngState} {t : ℚ} {fuel : ℕ} {st : SimState}
    (h : scenario_run g nm ss rng t fuel = .ok st) :
    Inv3 st ∧ (g.PRODUCT_TYPES.Nodup → SeqInv st) := by
  unfold scenario_run at h
  obtain ⟨st0, h0, h1⟩ := bindE_ok_inv h
  obtain ⟨hI3, hScond⟩ := Inv3_simSteps fuel (Inv3_initState h0) h1
  exact ⟨hI3, fun hnd => hScond (SeqInv_initState hnd h0)⟩

/-! ### The pipeline-scenario invariant (C4): building blocks -/

theorem randint_same (a : ℕ) (r : RngState) :
    randint a a r = .ok (a, { r with idx := r.idx + 1 }) := by
  unfold randint RngState.next
  rw [if_neg (lt_irrefl a)]
  simp [Nat.mod_one]

theorem expovariate_snd (mean : ℚ) (r : RngState) :
    (expovariate mean r).2 = { r with idx := r.idx + 1 } := rfl

theorem expovariate_fst_pos {mean : ℚ} {r : RngState} (hm : 0 < mean)
    (hr : 0 < r.stream r.idx) : 0 < (expovariate mean r).1 := by
  show 0 < qMul mean (max (r.stream r.idx) 0)
  rw [qMul_eq]
  exact mul_pos hm (lt_max_of_lt_left hr)

theorem popMin_pid_facts {l : List Ev} {e : Ev} {rest : List Ev}
    (h : popMin l = some (e, rest)) (hn : (l.map Ev.pid).Nodup) :
    (rest.map Ev.pid).Nodup ∧ e.pid ∉ rest.map Ev.pid := by
  have hp := (popMin_perm h).map Ev.pid
  rw [List.Perm.nodup_iff hp] at hn
  rw [List.map_cons, List.nodup_cons] at hn
  exact ⟨hn.2, hn.1⟩

theorem Inv4_transfer {M N : SimState} (hI : Inv4 M)
    (h1 : N.produced = M.produced) (h2 : N.clock = M.clock) (h3 : N.events = M.events)
    (h4 : N.procs = M.procs)
    (h8 : ∀ em ∈ N.machines, em.2.breakdown_time = ⟨21, 21⟩)
    (h9 : ∀ i, 0 < N.rng.stream i) : Inv4 N := by
  refine ⟨?_, ?_, ?_, ?_, ?_, ?_, ?_, ?_, ?_, ?_, ?_, ?_, ?_, ?_, h8, h9⟩
  · rw [h1]; exact hI.produced0
  · rw [h2]; exact hI.clockLo
  · rw [h2]; exact hI.clockHi
  · rw [h2, h3]; exact hI.evClock
  · rw [h3, h4]; exact hI.evPid
  · rw [h3]; exact hI.evNodup
  · rw [h3, h4]; exact hI.evNoWait
  · rw [h4]; exact hI.prodEntered
  · rw [h4]; exact hI.prodLive
  · rw [h4, h2]; exact hI.prodBound
  · rw [h4, h3]; exact hI.prodStage
  · rw [h3, h4]; exact hI.arrEv
  · rw [h3, h4]; exact hI.brkEv
  · rw [h4]; exact hI.brkPc

theorem Inv4_set {M : SimState} {pid : ℕ} {p0 : Proc} (p' : Proc) (hI : Inv4 M)
    (hget : M.procs.get? pid = some p0)
    (hnoev : ∀ e ∈ M.events, e.pid ≠ pid)
    (hbrk : ∀ mt pc, p' = .breakdown mt pc → pc = .bStart ∨ pc = .bSleeping)
    (hprod : ∀ d', p' = .produce d' → 0 < d'.entered ∧ d'.pc ≠ .pDone ∧
      (d'.pc ≠ .pInStage → d'.entered + 5 * (d'.k : ℚ) ≤ M.clock)) :
    Inv4 (M.setProc pid p') := by
  have hgs : ∀ q : ℕ, q ≠ pid → (M.procs.set pid p').get? q = M.procs.get? q :=
    fun q hq => List.get?_set_ne _ _ (fun hh => hq hh.symm)
  refine ⟨hI.produced0, hI.clockLo, hI.clockHi, hI.evClock, ?_, hI.evNodup, ?_, ?_, ?_, ?_,
    ?_, ?_, ?_, ?_, hI.mBt, hI.rngPos⟩
  · intro e he
    have := hI.evPid e he
    simpa using this
  · intro e he pr hpr
    simp only [setProc_procs] at hpr
    rw [hgs e.pid (hnoev e he)] at hpr
    exact hI.evNoWait e he pr hpr
  · intro q d hq
    simp only [setProc_procs] at hq
    by_cases hqp : q = pid
    · subst hqp
      rw [get?_set_self hget] at hq
      exact (hprod d (Option.some.inj hq)).1
    · rw [hgs q hqp] at hq
      exact hI.prodEntered q d hq
  · intro q d hq
    simp only [setProc_procs] at hq
    by_cases hqp : q = pid
    · subst hqp
      rw [get?_set_self hget] at hq
      exact (hprod d (Option.some.inj hq)).2.1
    · rw [hgs q hqp] at hq
      exact hI.prodLive q d hq
  · intro q d hq hpc
    simp only [setProc_procs] at hq
    by_cases hqp : q = pid
    · subst hqp
      rw [get?_set_self hget] at hq
      exact (hprod d (Option.some.inj hq)).2.2 hpc
    · rw [hgs q hqp] at hq
      exact hI.prodBound q d hq hpc
  · intro q d hq hpc e he heq
    simp only [setProc_procs] at hq
    by_cases hqp : q = pid
    · subst hqp
      exact absurd heq (hnoev e he)
    · rw [hgs q hqp] at hq
      exact hI.prodStage q d hq hpc e he heq
  · intro e he p i hq
    simp only [setProc_procs] at hq
    rw [hgs e.pid (hnoev e he)] at hq
    exact hI.arrEv e he p i hq
  · intro e he mt pc hq
    simp only [setProc_procs] at hq
    rw [hgs e.pid (hnoev e he)] at hq
    exact hI.brkEv e he mt pc hq
  · intro q mt pc hq
    simp only [setProc_procs] at hq
    by_cases hqp : q = pid
    · subst hqp
      rw [get?_set_self hget] at hq
      exact hbrk mt pc (Option.some.inj hq)
    · rw [hgs q hqp] at hq
      exact hI.brkPc q mt pc hq

theorem Inv4_sched {M : SimState} {pid : ℕ} {t : ℚ} (hI : Inv4 M)
    (hte : M.clock ≤ t) (hpid : pid < M.procs.length)
    (hnoev : ∀ e ∈ M.events, e.pid ≠ pid)
    (hnowait : ∀ pr, M.procs.get? pid = some pr → waitsPool pr = none)
    (harr : ∀ p i, M.procs.get? pid = some (.arrival p i .aWake) → 0 < t)
    (hbrks : ∀ mt pc, M.procs.get? pid = some (.breakdown mt pc) →
      pc = .bSleeping ∧ (21 : ℚ) ≤ t)
    (hstg : ∀ d, M.procs.get? pid = some (.produce d) → d.pc = .pInStage →
      d.entered + 5 * ((d.k : ℚ) + 1) ≤ t) :
    Inv4 (M.sched t pid) := by
  have hev : (M.sched t pid).events
      = M.events ++ [{ time := t, seq := M.nextSeq, pid := pid }] := rfl
  refine ⟨hI.produced0, hI.clockLo, hI.clockHi, ?_, ?_, ?_, ?_, hI.prodEntered, hI.prodLive,
    hI.prodBound, ?_, ?_, ?_, hI.brkPc, hI.mBt, hI.rngPos⟩
  · intro e he
    rw [hev] at he
    rcases List.mem_append.1 he with he | he
    · exact hI.evClock e he
    · rw [List.mem_singleton.1 he]
      exact hte
  · intro e he
    rw [hev] at he
    rcases List.mem_append.1 he with he | he
    · exact hI.evPid e he
    · rw [List.mem_singleton.1 he]
      exact hpid
  · show ((M.events ++ [({ time := t, seq := M.nextSeq, pid := pid } : Ev)]).map Ev.pid).Nodup
    rw [List.map_append]
    refine List.Nodup.append hI.evNodup (List.nodup_singleton _) ?_
    intro a ha hb
    obtain ⟨e', he', rfl⟩ := List.mem_map.1 ha
    simp only [List.map_cons, List.map_nil, List.mem_singleton] at hb
    exact hnoev e' he' hb
  · intro e he pr hpr
    rw [hev] at he
    rcases List.mem_append.1 he with he | he
    · exact hI.evNoWait e he pr hpr
    · obtain rfl := List.mem_singleton.1 he
      exact hnowait pr hpr
  · intro q d hq hpc e he heq
    rw [hev] at he
    rcases List.mem_append.1 he with he | he
    · exact hI.prodStage q d hq hpc e he heq
    · obtain rfl := List.mem_singleton.1 he
      have heq' : pid = q := heq
      subst heq'
      exact hstg d hq hpc
  · intro e he p i hq
    rw [hev] at he
    rcases List.mem_append.1 he with he | he
    · exact hI.arrEv e he p i hq
    · obtain rfl := List.mem_singleton.1 he
      exact harr p i hq
  · intro e he mt pc hq
    rw [hev] at he
    rcases List.mem_append.1 he with he | he
    · exact hI.brkEv e he mt pc hq
    · obtain rfl := List.mem_singleton.1 he
      obtain ⟨hpc, h21⟩ := hbrks mt pc hq
      exact Or.inr ⟨hpc, h21⟩

theorem Inv4_append {M N : SimState} {pN : Proc} (hI : Inv4 M)
    (h1 : N.produced = M.produced) (h2 : N.clock = M.clock) (h3 : N.events = M.events)
    (h4 : N.procs = M.procs ++ [pN])
    (h8 : ∀ em ∈ N.machines, em.2.breakdown_time = ⟨21, 21⟩)
    (h9 : ∀ i, 0 < N.rng.stream i)
    (hbrkN : ∀ mt pc, pN ≠ .breakdown mt pc)
    (hprodN : ∀ d', pN = .produce d' → 0 < d'.entered ∧ d'.pc ≠ .pDone ∧
      (d'.pc ≠ .pInStage → d'.entered + 5 * (d'.k : ℚ) ≤ M.clock)) : Inv4 N := by
  have hlen : N.procs.length = M.procs.length + 1 := by rw [h4]; simp
  have hgq : ∀ (q : ℕ) (pr : Proc), N.procs.get? q = some pr →
      M.procs.get? q = some pr ∨ pr = pN := by
    intro q pr hq
    rw [h4] at hq
    by_cases hql : q < M.procs.length
    · rw [List.get?_append hql] at hq
      exact Or.inl hq
    · have hqe : q = M.procs.length := by
        by_contra hne
        rw [List.get?_eq_none.2 (by simp; omega)] at hq
        exact Option.noConfusion hq
      subst hqe
      rw [List.get?_concat_length] at hq
      exact Or.inr (Option.some.inj hq).symm
  have hgev : ∀ e ∈ M.events, ∀ pr : Proc, N.procs.get? e.pid = some pr →
      M.procs.get? e.pid = some pr := by
    intro e he pr hq
    rw [h4] at hq
    rw [List.get?_append (hI.evPid e he)] at hq
    exact hq
  refine ⟨?_, ?_, ?_, ?_, ?_, ?_, ?_, ?_, ?_, ?_, ?_, ?_, ?_, ?_, h8, h9⟩
  · rw [h1]; exact hI.produced0
  · rw [h2]; exact hI.clockLo
  · rw [h2]; exact hI.clockHi
  · rw [h2, h3]; exact hI.evClock
  · intro e he
    rw [h3] at he
    rw [hlen]
    exact Nat.lt_succ_of_lt (hI.evPid e he)
  · rw [h3]; exact hI.evNodup
  · intro e he pr hq
    rw [h3] at he
    rcases hgq e.pid pr hq with hq | rfl
    · exact hI.evNoWait e he pr hq
    · exact hI.evNoWait e he pr (hgev e he pr hq)
  · intro q d hq
    rcases hgq q (.produce d) hq with hq | hpn
    · exact hI.prodEntered q d hq
    · exact (hprodN d hpn.symm).1
  · intro q d hq
    rcases hgq q (.produce d) hq with hq | hpn
    · exact hI.prodLive q d hq
    · exact (hprodN d hpn.symm).2.1
  · intro q d hq hpc
    rw [h2]
    rcases hgq q (.produce d) hq with hq | hpn
    · exact hI.prodBound q d hq hpc
    · exact (hprodN d hpn.symm).2.2 hpc
  · intro q d hq hpc e he heq
    rw [h3] at he
    subst heq
    have hq2 := hgev e he (.produce d) hq
    exact hI.prodStage e.pid d hq2 hpc e he rfl
  · intro e he p i hq
    rw [h3] at he
    exact hI.arrEv e he p i (hgev e he _ hq)
  · intro e he mt pc hq
    rw [h3] at he
    exact hI.brkEv e he mt pc (hgev e he _ hq)
  · intro q mt pc hq
    rcases hgq q (.breakdown mt pc) hq with hq | hpn
    · exact hI.brkPc q mt pc hq
    · exact absurd hpn.symm (hbrkN mt pc)

theorem Inv4_pop {st : SimState} {e : Ev} {rest : List Ev} (hI : Inv4 st)
    (hp : popMin st.events = some (e, rest)) (hlt : e.time < 20) :
    Inv4 { st with events := rest, clock := e.time } ∧ e.pid < st.procs.length ∧
      (∀ e' ∈ rest, e'.pid ≠ e.pid) := by
  obtain ⟨hn', hnotin⟩ := popMin_pid_facts hp hI.evNodup
  have hmemrest : ∀ e' ∈ rest, e' ∈ st.events := popMin_mem hp
  have hself := popMin_self_mem hp
  have hne : ∀ e' ∈ rest, e'.pid ≠ e.pid := by
    intro e' he' heq
    exact hnotin (heq ▸ List.mem_map.2 ⟨e', he', rfl⟩)
  refine ⟨⟨hI.produced0, ?_, le_of_lt hlt, ?_, ?_, hn', ?_, hI.prodEntered, hI.prodLive,
    ?_, ?_, ?_, ?_, hI.brkPc, hI.mBt, hI.rngPos⟩, hI.evPid e hself, hne⟩
  · exact le_trans hI.clockLo (hI.evClock e hself)
  · intro e' he'
    exact popMin_min hp e' (hmemrest e' he')
  · intro e' he'
    exact hI.evPid e' (hmemrest e' he')
  · intro e' he' pr hpr
    exact hI.evNoWait e' (hmemrest e' he') pr hpr
  · intro q d hq hpc
    exact le_trans (hI.prodBound q d hq hpc) (hI.evClock e hself)
  · intro q d hq hpc e' he' heq
    exact hI.prodStage q d hq hpc e' (hmemrest e' he') heq
  · intro e' he' p i hq
    exact hI.arrEv e' (hmemrest e' he') p i hq
  · intro e' he' mt pc hq
    exact hI.brkEv e' (hmemrest e' he') mt pc hq

theorem Inv4_release {M st1 : SimState} {pid : ℕ} {mt : MachineType} {p0 : Proc}
    (hw : WFpool M) (hI : Inv4 M)
    (hget : M.procs.get? pid = some p0) (hold : holdsPool p0 = some mt)
    (hnoevM : ∀ ev ∈ M.events, ev.pid ≠ pid)
    (h : releasePool M pid mt = .ok st1) :
    Inv4 st1 ∧ st1.clock = M.clock ∧ (∀ ev ∈ st1.events, ev.pid ≠ pid) := by
  rcases releasePool_ok h with ⟨m, hm, hcase⟩
  have hmm := lookupMachine_mem hm
  rcases hcase with rfl | ⟨hd, tl, hp, hltc, hq, hgethd, rfl⟩
  · refine ⟨Inv4_transfer hI rfl rfl rfl rfl ?_ hI.rngPos, rfl, hnoevM⟩
    intro em hmem
    rcases mem_setMachine hmem with ⟨hmem2, _⟩ | rfl
    · exact hI.mBt em hmem2
    · exact hI.mBt (mt, m) hmm
  · have hwaits : waitsPool hp = some mt := by
      have hcq := (hw.2 (mt, m) hmm hd).2
      rw [hq, List.count_cons_self] at hcq
      by_cases hB : waitsB M.procs hd mt
      · unfold waitsB at hB
        rw [hgethd] at hB
        simpa using hB
      · rw [if_neg hB] at hcq
        omega
    have hdne : hd ≠ pid := by
      intro hcon
      subst hcon
      rw [hget] at hgethd
      obtain rfl := Option.some.inj hgethd
      rcases waitsPool_cases hwaits with ⟨dw, rfl, hpc⟩ | rfl
      · rw [show holdsPool (Proc.produce dw) = none from by simp [holdsPool, hpc]] at hold
        exact Option.noConfusion hold
      · exact Option.noConfusion hold
    rcases waitsPool_cases hwaits with ⟨dw, rfl, hpc⟩ | rfl
    · have hnoevhd : ∀ ev ∈ M.events, ev.pid ≠ hd := by
        intro ev hev hcon
        have hnw := hI.evNoWait ev hev (Proc.produce dw) (by rw [hcon]; exact hgethd)
        rw [hwaits] at hnw
        exact Option.noConfusion hnw
      have hmBt2 : ∀ em ∈ setMachine M.machines mt { m with users := m.users.erase pid ++ [hd], queue := tl }, em.2.breakdown_time = ⟨21, 21⟩ := by
        intro em hmem
        rcases mem_setMachine hmem with ⟨hmem2, _⟩ | rfl
        · exact hI.mBt em hmem2
        · exact hI.mBt (mt, m) hmm
      have hIm : Inv4 { M with machines := setMachine M.machines mt { m with users := m.users.erase pid ++ [hd], queue := tl } } :=
        Inv4_transfer hI rfl rfl rfl rfl hmBt2 hI.rngPos
      have hIset := Inv4_set (grantProc (.produce dw)) hIm hgethd hnoevhd
        (fun mt' pc' hcon => by simp [grantProc] at hcon)
        (fun d' hd' => by
          have hde : d' = { dw with pc := .pGranted } :=
            Proc.produce.inj (by simpa [grantProc] using hd'.symm)
          subst hde
          refine ⟨hI.prodEntered hd dw hgethd, fun hcc => ProdPc.noConfusion hcc, fun _ => ?_⟩
          exact hI.prodBound hd dw hgethd (by rw [hpc]; exact fun hcc => ProdPc.noConfusion hcc))
      refine ⟨Inv4_sched hIset (le_refl _) ?_ hnoevhd ?_ ?_ ?_ ?_, rfl, ?_⟩
      · have := get?_some_lt hgethd
        simpa using this
      · intro pr hpr
        simp only [setProc_procs] at hpr
        rw [get?_set_self hgethd] at hpr
        rw [← Option.some.inj hpr]
        rfl
      · intro p i hpr
        simp only [setProc_procs] at hpr
        rw [get?_set_self hgethd] at hpr
        exact Proc.noConfusion (Option.some.inj hpr)
      · intro mt' pc' hpr
        simp only [setProc_procs] at hpr
        rw [get?_set_self hgethd] at hpr
        exact Proc.noConfusion (Option.some.inj hpr)
      · intro d hpr hpcc
        simp only [setProc_procs] at hpr
        rw [get?_set_self hgethd] at hpr
        have hde : { dw with pc := ProdPc.pGranted } = d :=
          Proc.produce.inj (Option.some.inj hpr)
        rw [← hde] at hpcc
        exact absurd hpcc (fun hcc => ProdPc.noConfusion hcc)
      · intro ev hev
        rcases List.mem_append.1 hev with hev | hev
        · exact hnoevM ev hev
        · rw [List.mem_singleton.1 hev]
          exact hdne
    · rcases hI.brkPc hd mt .bWaiting hgethd with hcon | hcon
      · exact BreakPc.noConfusion hcon
      · exact BreakPc.noConfusion hcon

theorem Inv4_arrival_wake {M st' : SimState} {pid : ℕ} {p : String} {i : ℕ}
    (dN : ProduceData) (gap : ℚ) (hI : Inv4 M) (hpin : pid < M.procs.length)
    (hget : M.procs.get? pid = some (.arrival p i .aWake))
    (hnoev : ∀ ev ∈ M.events, ev.pid ≠ pid)
    (hclkpos : 0 < M.clock) (hgap : 0 < gap)
    (hN1 : dN.entered = M.clock) (hN3 : dN.k = 0) (hN5 : dN.pc = .pToRequest)
    (h9 : ∀ j, 0 < st'.rng.stream j)
    (hmach : ∀ em ∈ st'.machines, em.2.breakdown_time = ⟨21, 21⟩)
    (hps : st'.procs = (M.procs ++ [Proc.produce dN]).set pid (.arrival p (i + 1) .aWake))
    (hprodE : st'.produced = M.produced) (hclk : st'.clock = M.clock)
    (hevs : st'.events = (M.events ++ [({ time := M.clock, seq := M.nextSeq, pid := M.procs.length } : Ev)]) ++ [({ time := qAdd M.clock gap, seq := M.nextSeq + 1, pid := pid } : Ev)]) :
    Inv4 st' := by
  have hgetA : (M.procs ++ [Proc.produce dN]).get? pid = some (.arrival p i .aWake) := by
    rw [List.get?_append hpin]
    exact hget
  have hA : Inv4 { M with procs := M.procs ++ [Proc.produce dN] } := by
    refine Inv4_append hI rfl rfl rfl rfl hI.mBt hI.rngPos
      (fun mt' pc' hcon => Proc.noConfusion hcon) ?_
    intro d' hd'
    obtain rfl := Proc.produce.inj hd'
    refine ⟨by rw [hN1]; exact hclkpos, ?_, fun _ => ?_⟩
    · intro hcc
      rw [hN5] at hcc
      exact ProdPc.noConfusion hcc
    · rw [hN1, hN3]
      norm_num
  have hB : Inv4 (SimState.sched { M with procs := M.procs ++ [Proc.produce dN] } M.clock M.procs.length) := by
    refine Inv4_sched hA (le_refl _) ?_ ?_ ?_ ?_ ?_ ?_
    · show M.procs.length < (M.procs ++ [Proc.produce dN]).length
      simp
    · intro ev hev hcon
      have := hI.evPid ev hev
      omega
    · intro pr hpr
      have hpr2 : (M.procs ++ [Proc.produce dN]).get? M.procs.length = some pr := hpr
      rw [List.get?_concat_length] at hpr2
      rw [← Option.some.inj hpr2]
      show waitsPool (Proc.produce dN) = none
      simp [waitsPool, hN5]
    · intro p2 i2 hpr
      have hpr2 : (M.procs ++ [Proc.produce dN]).get? M.procs.length = some (.arrival p2 i2 .aWake) := hpr
      rw [List.get?_concat_length] at hpr2
      exact Proc.noConfusion (Option.some.inj hpr2)
    · intro mt' pc' hpr
      have hpr2 : (M.procs ++ [Proc.produce dN]).get? M.procs.length = some (.breakdown mt' pc') := hpr
      rw [List.get?_concat_length] at hpr2
      exact Proc.noConfusion (Option.some.inj hpr2)
    · intro d2 hpr hpcc
      have hpr2 : (M.procs ++ [Proc.produce dN]).get? M.procs.length = some (.produce d2) := hpr
      rw [List.get?_concat_length] at hpr2
      obtain rfl := Proc.produce.inj (Option.some.inj hpr2)
      rw [hN5] at hpcc
      exact ProdPc.noConfusion hpcc
  have hget2 : (SimState.sched { M with procs := M.procs ++ [Proc.produce dN] } M.clock M.procs.length).procs.get? pid = some (.arrival p i .aWake) := hgetA
  have hnoev2 : ∀ ev ∈ (SimState.sched { M with procs := M.procs ++ [Proc.produce dN] } M.clock M.procs.length).events, ev.pid ≠ pid := by
    intro ev hev
    have hev2 : ev ∈ M.events ++ [({ time := M.clock, seq := M.nextSeq, pid := M.procs.length } : Ev)] := hev
    rcases List.mem_append.1 hev2 with hev3 | hev3
    · exact hnoev ev hev3
    · rw [List.mem_singleton.1 hev3]
      show M.procs.length ≠ pid
      omega
  have hC := Inv4_set (.arrival p (i + 1) .aWake) hB hget2 hnoev2
    (fun mt' pc' hcon => Proc.noConfusion hcon) (fun d' hd' => Proc.noConfusion hd')
  have hD : Inv4 (((SimState.sched { M with procs := M.procs ++ [Proc.produce dN] } M.clock M.procs.length).setProc pid (.arrival p (i + 1) .aWake)).sched (qAdd M.clock gap) pid) := by
    refine Inv4_sched hC ?_ ?_ hnoev2 ?_ ?_ ?_ ?_
    · show M.clock ≤ qAdd M.clock gap
      rw [qAdd_eq]
      linarith
    · show pid < ((M.procs ++ [Proc.produce dN]).set pid (.arrival p (i + 1) .aWake)).length
      rw [List.length_set, List.length_append, List.length_singleton]
      omega
    · intro pr hpr
      have hpr2 : ((M.procs ++ [Proc.produce dN]).set pid (.arrival p (i + 1) .aWake)).get? pid = some pr := hpr
      rw [get?_set_self hgetA] at hpr2
      rw [← Option.some.inj hpr2]
      rfl
    · intro p2 i2 hpr
      show (0 : ℚ) < qAdd M.clock gap
      rw [qAdd_eq]
      linarith
    · intro mt' pc' hpr
      have hpr2 : ((M.procs ++ [Proc.produce dN]).set pid (.arrival p (i + 1) .aWake)).get? pid = some (.breakdown mt' pc') := hpr
      rw [get?_set_self hgetA] at hpr2
      exact Proc.noConfusion (Option.some.inj hpr2)
    · intro d2 hpr hpcc
      have hpr2 : ((M.procs ++ [Proc.produce dN]).set pid (.arrival p (i + 1) .aWake)).get? pid = some (.produce d2) := hpr
      rw [get?_set_self hgetA] at hpr2
      exact Proc.noConfusion (Option.some.inj hpr2)
  refine Inv4_transfer hD hprodE hclk ?_ hps hmach h9
  rw [hevs]
  rfl

theorem Inv4_dispatch {M st' : SimState} {pid : ℕ} (hw : WFpool M) (hI : Inv4 M)
    (hclk : M.clock < 20) (hpin : pid < M.procs.length)
    (hnoev : ∀ ev ∈ M.events, ev.pid ≠ pid)
    (hstageE : ∀ d, M.procs.get? pid = some (.produce d) → d.pc = .pInStage →
      d.entered + 5 * ((d.k : ℚ) + 1) ≤ M.clock)
    (harrE : ∀ p i, M.procs.get? pid = some (.arrival p i .aWake) → 0 < M.clock)
    (hbrkE : ∀ mt pc, M.procs.get? pid = some (.breakdown mt pc) →
      pc = .bStart ∨ (pc = .bSleeping ∧ (21 : ℚ) ≤ M.clock))
    (h : dispatchProc g4 M pid = .ok st') : Inv4 st' := by
  unfold dispatchProc at h
  split at h
  · exact Except.noConfusion h
  case _ mt pc hget =>
    unfold generate_breakdown_step at h
    split at h
    · -- bStart
      split at h
      · exact Except.noConfusion h
      case _ m hm =>
        obtain ⟨⟨t, r'⟩, hr, hf⟩ := bindE_ok_inv h
        obtain rfl := Except.ok.inj hf
        have hmb : m.breakdown_time = ⟨21, 21⟩ := hI.mBt (mt, m) (lookupMachine_mem hm)
        rw [hmb] at hr
        rw [show (MMRange.mk 21 21).min = 21 from rfl, show (MMRange.mk 21 21).max = 21 from rfl,
          randint_same] at hr
        have hpair := Except.ok.inj hr
        rw [Prod.mk.injEq] at hpair
        obtain ⟨ht, hrr⟩ := hpair
        subst ht
        subst hrr
        have hIm : Inv4 { M with rng := { M.rng with idx := M.rng.idx + 1 } } :=
          Inv4_transfer hI rfl rfl rfl rfl hI.mBt hI.rngPos
        have hIset := Inv4_set (.breakdown mt .bSleeping) hIm hget hnoev
          (fun mt' pc' hcon => Or.inr (Proc.breakdown.inj hcon).2.symm)
          (fun d' hd' => Proc.noConfusion hd')
        refine Inv4_sched hIset ?_ (by simpa using hpin) hnoev ?_ ?_ ?_ ?_
        · simp only [setProc_clock]
          rw [qAdd_eq]
          push_cast
          linarith
        · intro pr hpr
          simp only [setProc_procs] at hpr
          rw [get?_set_self hget] at hpr
          rw [← Option.some.inj hpr]
          rfl
        · intro p i hpr
          simp only [setProc_procs] at hpr
          rw [get?_set_self hget] at hpr
          exact Proc.noConfusion (Option.some.inj hpr)
        · intro mt' pc' hpr
          simp only [setProc_procs] at hpr
          rw [get?_set_self hget] at hpr
          refine ⟨(Proc.breakdown.inj (Option.some.inj hpr)).2.symm, ?_⟩
          rw [qAdd_eq]
          push_cast
          linarith [hI.clockLo]
        · intro d hpr hpcc
          simp only [setProc_procs] at hpr
          rw [get?_set_self hget] at hpr
          exact Proc.noConfusion (Option.some.inj hpr)
    · -- bSleeping: cannot fire inside the horizon
      exfalso
      rcases hbrkE mt .bSleeping hget with hcon | ⟨hcon, h21⟩
      · exact BreakPc.noConfusion hcon
      · linarith
    · -- bGranted: unreachable program counter
      exfalso
      rcases hI.brkPc pid mt .bGranted hget with hcon | hcon
      · exact BreakPc.noConfusion hcon
      · exact BreakPc.noConfusion hcon
    · -- bRepairing: unreachable program counter
      exfalso
      rcases hI.brkPc pid mt .bRepairing hget with hcon | hcon
      · exact BreakPc.noConfusion hcon
      · exact BreakPc.noConfusion hcon
    · -- bWaiting
      exact Except.noConfusion h
  case _ d hget =>
    unfold produce_product_step at h
    split at h
    case _ hpc =>
      -- pToRequest
      unfold produce_product_request at h
      split at h
      · exact Except.noConfusion h
      case _ mt hstage =>
        rcases requestPool_ok h with ⟨m, hm, hcase⟩
        have hent := hI.prodEntered pid d hget
        have hbnd := hI.prodBound pid d hget (by rw [hpc]; exact fun hcc => ProdPc.noConfusion hcc)
        rcases hcase with ⟨hltc, rfl⟩ | ⟨hgec, rfl⟩
        · have hIm : Inv4 { M with machines := setMachine M.machines mt { m with users := m.users ++ [pid] } } := by
            refine Inv4_transfer hI rfl rfl rfl rfl ?_ hI.rngPos
            intro em hmem
            rcases mem_setMachine hmem with ⟨hmem2, _⟩ | rfl
            · exact hI.mBt em hmem2
            · exact hI.mBt (mt, m) (lookupMachine_mem hm)
          have hIset := Inv4_set (.produce { d with pc := .pGranted }) hIm hget hnoev
            (fun mt' pc' hcon => Proc.noConfusion hcon)
            (fun d' hd' => by
              obtain rfl := Proc.produce.inj hd'
              exact ⟨hent, fun hcc => ProdPc.noConfusion hcc, fun _ => hbnd⟩)
          refine Inv4_sched hIset (le_refl _) (by simpa using hpin) hnoev ?_ ?_ ?_ ?_
          · intro pr hpr
            simp only [setProc_procs] at hpr
            rw [get?_set_self hget] at hpr
            rw [← Option.some.inj hpr]
            rfl
          · intro p i hpr
            simp only [setProc_procs] at hpr
            rw [get?_set_self hget] at hpr
            exact Proc.noConfusion (Option.some.inj hpr)
          · intro mt' pc' hpr
            simp only [setProc_procs] at hpr
            rw [get?_set_self hget] at hpr
            exact Proc.noConfusion (Option.some.inj hpr)
          · intro d2 hpr hpcc
            simp only [setProc_procs] at hpr
            rw [get?_set_self hget] at hpr
            obtain rfl := Proc.produce.inj (Option.some.inj hpr).symm
            exact absurd hpcc (fun hcc => ProdPc.noConfusion hcc)
        · have hIm : Inv4 { M with machines := setMachine M.machines mt { m with queue := m.queue ++ [pid] } } := by
            refine Inv4_transfer hI rfl rfl rfl rfl ?_ hI.rngPos
            intro em hmem
            rcases mem_setMachine hmem with ⟨hmem2, _⟩ | rfl
            · exact hI.mBt em hmem2
            · exact hI.mBt (mt, m) (lookupMachine_mem hm)
          exact Inv4_set (.produce { d with pc := .pWaiting }) hIm hget hnoev
            (fun mt' pc' hcon => Proc.noConfusion hcon)
            (fun d' hd' => by
              obtain rfl := Proc.produce.inj hd'
              exact ⟨hent, fun hcc => ProdPc.noConfusion hcc, fun _ => hbnd⟩)
    case _ hpc =>
      -- pGranted
      split at h
      · exact Except.noConfusion h
      case _ mt hstage =>
        obtain ⟨⟨t, r'⟩, hr, hf⟩ := bindE_ok_inv h
        obtain rfl := Except.ok.inj hf
        have hr5 : randint 5 5 M.rng = .ok (t, r') := hr
        rw [randint_same] at hr5
        have hpair := Except.ok.inj hr5
        rw [Prod.mk.injEq] at hpair
        obtain ⟨ht, hrr⟩ := hpair
        subst ht
        subst hrr
        have hent := hI.prodEntered pid d hget
        have hbnd := hI.prodBound pid d hget (by rw [hpc]; exact fun hcc => ProdPc.noConfusion hcc)
        have hIm : Inv4 { M with rng := { M.rng with idx := M.rng.idx + 1 } } :=
          Inv4_transfer hI rfl rfl rfl rfl hI.mBt hI.rngPos
        have hIset := Inv4_set (.produce { d with visited := d.visited ++ [mt], pc := .pInStage })
          hIm hget hnoev (fun mt' pc' hcon => Proc.noConfusion hcon)
          (fun d' hd' => by
            obtain rfl := Proc.produce.inj hd'
            exact ⟨hent, fun hcc => ProdPc.noConfusion hcc, fun hcc => absurd rfl hcc⟩)
        refine Inv4_sched hIset ?_ (by simpa using hpin) hnoev ?_ ?_ ?_ ?_
        · simp only [setProc_clock]
          rw [qAdd_eq]
          push_cast
          linarith
        · intro pr hpr
          simp only [setProc_procs] at hpr
          rw [get?_set_self hget] at hpr
          rw [← Option.some.inj hpr]
          rfl
        · intro p i hpr
          simp only [setProc_procs] at hpr
          rw [get?_set_self hget] at hpr
          exact Proc.noConfusion (Option.some.inj hpr)
        · intro mt' pc' hpr
          simp only [setProc_procs] at hpr
          rw [get?_set_self hget] at hpr
          exact Proc.noConfusion (Option.some.inj hpr)
        · intro d2 hpr hpcc
          simp only [setProc_procs] at hpr
          rw [get?_set_self hget] at hpr
          obtain rfl := Proc.produce.inj (Option.some.inj hpr).symm
          show d.entered + 5 * ((d.k : ℚ) + 1) ≤ qAdd M.clock ((5 : ℕ) : ℚ)
          rw [qAdd_eq]
          push_cast
          push_cast at hbnd
          linarith
    case _ hpc =>
      -- pInStage
      split at h
      · exact Except.noConfusion h
      case _ mt hstage =>
        obtain ⟨st1, hrel, hrest⟩ := bindE_ok_inv h
        have hstE := hstageE d hget hpc
        have hent := hI.prodEntered pid d hget
        split at hrest
        case _ hk4 =>
          have hold : holdsPool (Proc.produce d) = some mt := by
            simp only [holdsPool, hpc]
            exact hstage
          obtain ⟨hI1, hclk1, hnoev1⟩ := Inv4_release hw hI hget hold hnoev hrel
          obtain ⟨hx1, hget1, hlen1⟩ := WFpool_releasePool_toX hw hget hold
            (by simp [waitsPool, hpc]) hrel
          unfold produce_product_request at hrest
          split at hrest
          · exact Except.noConfusion hrest
          case _ mt2 hstage2 =>
            rcases requestPool_ok hrest with ⟨m2, hm2, hcase⟩
            have hbnd1 : d.entered + 5 * (((d.k + 1 : ℕ)) : ℚ) ≤ st1.clock := by
              rw [hclk1]
              push_cast
              push_cast at hstE
              linarith
            rcases hcase with ⟨hltc, rfl⟩ | ⟨hgec, rfl⟩
            · have hIm : Inv4 { st1 with machines := setMachine st1.machines mt2 { m2 with users := m2.users ++ [pid] } } := by
                refine Inv4_transfer hI1 rfl rfl rfl rfl ?_ hI1.rngPos
                intro em hmem
                rcases mem_setMachine hmem with ⟨hmem2, _⟩ | rfl
                · exact hI1.mBt em hmem2
                · exact hI1.mBt (mt2, m2) (lookupMachine_mem hm2)
              have hIset := Inv4_set
                (.produce { d with start_time := M.clock, k := d.k + 1, pc := .pGranted })
                hIm hget1 hnoev1 (fun mt' pc' hcon => Proc.noConfusion hcon)
                (fun d' hd' => by
                  obtain rfl := Proc.produce.inj hd'
                  exact ⟨hent, fun hcc => ProdPc.noConfusion hcc, fun _ => hbnd1⟩)
              refine Inv4_sched hIset (le_refl _) (by simpa using get?_some_lt hget1) hnoev1
                ?_ ?_ ?_ ?_
              · intro pr hpr
                simp only [setProc_procs] at hpr
                rw [get?_set_self hget1] at hpr
                rw [← Option.some.inj hpr]
                rfl
              · intro p i hpr
                simp only [setProc_procs] at hpr
                rw [get?_set_self hget1] at hpr
                exact Proc.noConfusion (Option.some.inj hpr)
              · intro mt' pc' hpr
                simp only [setProc_procs] at hpr
                rw [get?_set_self hget1] at hpr
                exact Proc.noConfusion (Option.some.inj hpr)
              · intro d2 hpr hpcc
                simp only [setProc_procs] at hpr
                rw [get?_set_self hget1] at hpr
                obtain rfl := Proc.produce.inj (Option.some.inj hpr).symm
                exact absurd hpcc (fun hcc => ProdPc.noConfusion hcc)
            · have hIm : Inv4 { st1 with machines := setMachine st1.machines mt2 { m2 with queue := m2.queue ++ [pid] } } := by
                refine Inv4_transfer hI1 rfl rfl rfl rfl ?_ hI1.rngPos
                intro em hmem
                rcases mem_setMachine hmem with ⟨hmem2, _⟩ | rfl
                · exact hI1.mBt em hmem2
                · exact hI1.mBt (mt2, m2) (lookupMachine_mem hm2)
              exact Inv4_set
                (.produce { d with start_time := M.clock, k := d.k + 1, pc := .pWaiting })
                hIm hget1 hnoev1 (fun mt' pc' hcon => Proc.noConfusion hcon)
                (fun d' hd' => by
                  obtain rfl := Proc.produce.inj hd'
                  exact ⟨hent, fun hcc => ProdPc.noConfusion hcc, fun _ => hbnd1⟩)
        case _ hk4 =>
          exfalso
          have hk1 : 4 ≤ d.k + 1 := not_lt.1 hk4
          have h20 : (20 : ℚ) ≤ 5 * ((d.k : ℚ) + 1) := by
            have h4c : (4 : ℚ) ≤ (d.k : ℚ) + 1 := by exact_mod_cast hk1
            linarith
          linarith
    case _ hpc => exact Except.noConfusion h
    case _ hpc => exact Except.noConfusion h
  case _ p i pc hget =>
    unfold send_raw_material_step at h
    split at h
    · -- aStart
      obtain rfl := timeoutSched_ok h
      have hgap : 0 < (expovariate (g4.RAW_MATERIAL_ARRIVAL_TIME p) M.rng).1 :=
        expovariate_fst_pos (by show (0 : ℚ) < 1; norm_num) (hI.rngPos M.rng.idx)
      have hIm : Inv4 { M with rng := (expovariate (g4.RAW_MATERIAL_ARRIVAL_TIME p) M.rng).2 } :=
        Inv4_transfer hI rfl rfl rfl rfl hI.mBt hI.rngPos
      have hIset := Inv4_set (.arrival p i .aWake) hIm hget hnoev
        (fun mt' pc' hcon => Proc.noConfusion hcon) (fun d' hd' => Proc.noConfusion hd')
      refine Inv4_sched hIset ?_ (by simpa using hpin) hnoev ?_ ?_ ?_ ?_
      · show M.clock ≤ qAdd M.clock (expovariate (g4.RAW_MATERIAL_ARRIVAL_TIME p) M.rng).1
        rw [qAdd_eq]
        linarith
      · intro pr hpr
        simp only [setProc_procs] at hpr
        rw [get?_set_self hget] at hpr
        rw [← Option.some.inj hpr]
        rfl
      · intro p2 i2 hpr
        show (0 : ℚ) < qAdd M.clock (expovariate (g4.RAW_MATERIAL_ARRIVAL_TIME p) M.rng).1
        rw [qAdd_eq]
        linarith [hI.clockLo]
      · intro mt' pc' hpr
        simp only [setProc_procs] at hpr
        rw [get?_set_self hget] at hpr
        exact Proc.noConfusion (Option.some.inj hpr)
      · intro d2 hpr hpcc
        simp only [setProc_procs] at hpr
        rw [get?_set_self hget] at hpr
        exact Proc.noConfusion (Option.some.inj hpr)
    · -- aWake
      obtain rfl := timeoutSched_ok h
      have hclkpos : 0 < M.clock := harrE p i hget
      refine Inv4_arrival_wake ⟨p, i, M.clock, M.clock, 0, [], .pToRequest⟩ _ hI hpin hget
        hnoev hclkpos ?_ rfl rfl rfl hI.rngPos hI.mBt rfl rfl rfl rfl
      exact expovariate_fst_pos (by show (0 : ℚ) < 1; norm_num) (hI.rngPos M.rng.idx)
  case _ label pc hget =>
    obtain rfl := Except.ok.inj h
    cases pc with
    | sStart =>
      have hIset := Inv4_set (.shiftCycle label .sWake) hI hget hnoev
        (fun mt' pc' hcon => Proc.noConfusion hcon) (fun d' hd' => Proc.noConfusion hd')
      refine Inv4_sched hIset ?_ (by simpa using hpin) hnoev ?_ ?_ ?_ ?_
      · simp only [setProc_clock]
        rw [qAdd_eq]
        linarith
      · intro pr hpr
        simp only [setProc_procs] at hpr
        rw [get?_set_self hget] at hpr
        rw [← Option.some.inj hpr]
        rfl
      · intro p2 i2 hpr
        simp only [setProc_procs] at hpr
        rw [get?_set_self hget] at hpr
        exact Proc.noConfusion (Option.some.inj hpr)
      · intro mt' pc' hpr
        simp only [setProc_procs] at hpr
        rw [get?_set_self hget] at hpr
        exact Proc.noConfusion (Option.some.inj hpr)
      · intro d2 hpr hpcc
        simp only [setProc_procs] at hpr
        rw [get?_set_self hget] at hpr
        exact Proc.noConfusion (Option.some.inj hpr)
    | sWake =>
      have hIset := Inv4_set (.shiftCycle (nextShiftLabel label) .sWake) hI hget hnoev
        (fun mt' pc' hcon => Proc.noConfusion hcon) (fun d' hd' => Proc.noConfusion hd')
      refine Inv4_sched hIset ?_ (by simpa using hpin) hnoev ?_ ?_ ?_ ?_
      · simp only [setProc_clock]
        rw [qAdd_eq]
        linarith
      · intro pr hpr
        simp only [setProc_procs] at hpr
        rw [get?_set_self hget] at hpr
        rw [← Option.some.inj hpr]
        rfl
      · intro p2 i2 hpr
        simp only [setProc_procs] at hpr
        rw [get?_set_self hget] at hpr
        exact Proc.noConfusion (Option.some.inj hpr)
      · intro mt' pc' hpr
        simp only [setProc_procs] at hpr
        rw [get?_set_self hget] at hpr
        exact Proc.noConfusion (Option.some.inj hpr)
      · intro d2 hpr hpcc
        simp only [setProc_procs] at hpr
        rw [get?_set_self hget] at hpr
        exact Proc.noConfusion (Option.some.inj hpr)

theorem Inv4_simStep {st st' : SimState} (hw : WFpool st) (hI : Inv4 st)
    (h : simStep g4 20 st = .ok st') : WFpool st' ∧ Inv4 st' := by
  unfold simStep at h
  split at h
  · obtain rfl := Except.ok.inj h
    exact ⟨hw, hI⟩
  · split at h
    case _ hpop =>
      obtain rfl := Except.ok.inj h
      have hev : st.events = [] := popMin_eq_none hpop
      refine ⟨(WFpool_congr rfl rfl).1 hw,
        ⟨hI.produced0, by norm_num, le_refl 20, ?_, hI.evPid, hI.evNodup, hI.evNoWait,
          hI.prodEntered, hI.prodLive, ?_, hI.prodStage, hI.arrEv, hI.brkEv, hI.brkPc,
          hI.mBt, hI.rngPos⟩⟩
      · intro e he
        have he2 : e ∈ st.events := he
        rw [hev] at he2
        exact absurd he2 (List.not_mem_nil e)
      · intro q d hq hpc
        exact le_trans (hI.prodBound q d hq hpc) hI.clockHi
    case _ e rest hpop =>
      split at h
      case _ hge =>
        obtain rfl := Except.ok.inj h
        refine ⟨(WFpool_congr rfl rfl).1 hw,
          ⟨hI.produced0, by norm_num, le_refl 20, ?_, hI.evPid, hI.evNodup, hI.evNoWait,
            hI.prodEntered, hI.prodLive, ?_, hI.prodStage, hI.arrEv, hI.brkEv, hI.brkPc,
            hI.mBt, hI.rngPos⟩⟩
        · intro x hx
          have hx2 : x ∈ st.events := hx
          exact le_trans hge (popMin_min hpop x hx2)
        · intro q d hq hpc
          exact le_trans (hI.prodBound q d hq hpc) hI.clockHi
      case _ hge =>
        have hlt : e.time < 20 := lt_of_not_le hge
        obtain ⟨hIM, hpidlen, hne⟩ := Inv4_pop hI hpop hlt
        have hwM : WFpool { st with events := rest, clock := e.time } :=
          (WFpool_congr rfl rfl).1 hw
        refine ⟨WFpool_dispatch hwM h, ?_⟩
        refine Inv4_dispatch hwM hIM hlt hpidlen hne ?_ ?_ ?_ h
        · intro d hq hpc
          exact hI.prodStage e.pid d hq hpc e (popMin_self_mem hpop) rfl
        · intro p i hq
          exact hI.arrEv e (popMin_self_mem hpop) p i hq
        · intro mt pc hq
          exact hI.brkEv e (popMin_self_mem hpop) mt pc hq

theorem Inv4_simSteps (fuel : ℕ) :
    ∀ {st st' : SimState}, WFpool st → Inv4 st → simSteps g4 20 fuel st = .ok st' →
      WFpool st' ∧ Inv4 st' := by
  induction fuel with
  | zero =>
    intro st st' hw hI h
    obtain rfl := Except.ok.inj h
    exact ⟨hw, hI⟩
  | succ n ih =>
    intro st st' hw hI h
    obtain ⟨st1, h1, h2⟩ := bindE_ok_inv h
    obtain ⟨hw1, hI1⟩ := Inv4_simStep hw hI h1
    exact ih hw1 hI1 h2

theorem initState_g4 (rng : RngState) :
    initState g4 nmOnes rng = .ok
      { clock := 0, nextSeq := 6,
        events := [⟨0, 0, 0⟩, ⟨0, 1, 1⟩, ⟨0, 2, 2⟩, ⟨0, 3, 3⟩, ⟨0, 4, 4⟩, ⟨0, 5, 5⟩],
        procs := [.breakdown .Machining .bStart, .breakdown .Assembly .bStart,
          .breakdown .QualityControl .bStart, .breakdown .Packaging .bStart,
          .arrival "ProductA" 1 .aStart, .shiftCycle .Day .sStart],
        machines := [(.Machining, ⟨1, [], [], ⟨21, 21⟩, ⟨1, 1⟩⟩),
          (.Assembly, ⟨1, [], [], ⟨21, 21⟩, ⟨1, 1⟩⟩),
          (.QualityControl, ⟨1, [], [], ⟨21, 21⟩, ⟨1, 1⟩⟩),
          (.Packaging, ⟨1, [], [], ⟨21, 21⟩, ⟨1, 1⟩⟩)],
        produced := 0, raw := 0, rng := rng, finished := false } := rfl

theorem Inv4_init {rng : RngState} (hr : ∀ j, 0 < rng.stream j) {st0 : SimState}
    (h : initState g4 nmOnes rng = .ok st0) : Inv4 st0 := by
  rw [initState_g4] at h
  obtain rfl := Except.ok.inj h
  refine ⟨rfl, by norm_num, by norm_num, ?_, ?_, of_decide_eq_true rfl, ?_, ?_, ?_, ?_, ?_,
    ?_, ?_, ?_, ?_, hr⟩
  · intro e he
    fin_cases he <;> exact le_refl 0
  · intro e he
    fin_cases he <;> exact of_decide_eq_true rfl
  · intro e he pr hpr
    fin_cases he <;> (rw [← Option.some.inj hpr]; rfl)
  · intro q d hq
    have hm := List.get?_mem hq
    simp at hm
  · intro q d hq
    have hm := List.get?_mem hq
    simp at hm
  · intro q d hq
    have hm := List.get?_mem hq
    simp at hm
  · intro q d hq
    have hm := List.get?_mem hq
    simp at hm
  · intro e he p i hq
    fin_cases he <;> simp at hq
  · intro e he mt pc hq
    fin_cases he
    · obtain ⟨rfl, rfl⟩ := Proc.breakdown.inj (Option.some.inj hq)
      exact Or.inl rfl
    · obtain ⟨rfl, rfl⟩ := Proc.breakdown.inj (Option.some.inj hq)
      exact Or.inl rfl
    · obtain ⟨rfl, rfl⟩ := Proc.breakdown.inj (Option.some.inj hq)
      exact Or.inl rfl
    · obtain ⟨rfl, rfl⟩ := Proc.breakdown.inj (Option.some.inj hq)
      exact Or.inl rfl
    · exact absurd (Option.some.inj hq) (fun hcc => Proc.noConfusion hcc)
    · exact absurd (Option.some.inj hq) (fun hcc => Proc.noConfusion hcc)
  · intro q mt pc hq
    have hm := List.get?_mem hq
    simp at hm
    rcases hm with ⟨rfl, rfl⟩ | ⟨rfl, rfl⟩ | ⟨rfl, rfl⟩ | ⟨rfl, rfl⟩ <;> exact Or.inl rfl
  · intro em hem
    fin_cases hem <;> rfl

/-! ### C4, the general theorem -/

/-- C4 (amended): in the §8 pipeline scenario (capacity 1 per stage, one
product type, every stage exactly 5 minutes, breakdown interval 21 =
horizon + 1, horizon 20), every run on every strictly positive draw stream
completes exactly 0 units, not 4: the first unit enters the line only after
the first (positive) exponential interarrival draw and must then spend
4 × 5 = 20 minutes in the stages, so its completion event lies strictly
after minute 20 and `env.run(until=20)` never dispatches it.  This holds at
every intermediate instant (any fuel) as well as at the horizon. -/
theorem pipeline_zero_completions (r : RngState) (hr : ∀ j, 0 < r.stream j)
    (ss : List (String × ℕ)) (fuel : ℕ) :
    producedOf (scenario_run g4 nmOnes ss r 20 fuel) = none ∨
    producedOf (scenario_run g4 nmOnes ss r 20 fuel) = some 0 := by
  cases hrun : scenario_run g4 nmOnes ss r 20 fuel with
  | error e => exact Or.inl rfl
  | ok st =>
    right
    unfold scenario_run at hrun
    obtain ⟨st0, h0, h1⟩ := bindE_ok_inv hrun
    have hI0 := Inv4_init hr h0
    have hw0 : WFpool st0 := (Inv3_initState h0).1
    obtain ⟨hw, hI⟩ := Inv4_simSteps fuel hw0 hI0 h1
    show some st.produced = some 0
    rw [hI.produced0]

/-- Witness for `pipeline_zero_completions`. -/
theorem pipeline_zero_completions_witness :
    producedOf (scenario_run g4 nmOnes [] (constStream 1) 20 300) = none ∨
    producedOf (scenario_run g4 nmOnes [] (constStream 1) 20 300) = some 0 :=
  pipeline_zero_completions (constStream 1) (fun j => one_pos) [] 300

/-! ### C1 -/

/-- C1: refuted as stated — the script defines RANDOM_SEED but never calls
random.seed, so the shared stream is initialized from process entropy.  With
the configuration, the (unused) seed and the horizon all fixed, two process
executions that start from different underlying generator states produce
different Run Results: the result is not a function of
(configuration, seed, horizon). -/
theorem run_result_depends_on_unseeded_stream :
    producedOf (scenario_run gSmall nmOnes [] (constStream 1) 6 200) = some 1 ∧
    rawOf (scenario_run gSmall nmOnes [] (constStream 1) 6 200) = some 5 ∧
    producedOf (scenario_run gSmall nmOnes [] (constStream 100) 6 200) = some 0 ∧
    rawOf (scenario_run gSmall nmOnes [] (constStream 100) 6 200) = some 0 ∧
    finishedOf (scenario_run gSmall nmOnes [] (constStream 1) 6 200) = some true ∧
    finishedOf (scenario_run gSmall nmOnes [] (constStream 100) 6 200) = some true := by
  decide

/-! ### C2 -/

theorem buildMachinesAux_err {g : Globals} {nm : List (MachineType × ℤ)}
    (acc : List (MachineType × MachineSt)) (h : ∃ p ∈ nm, p.2 ≤ 0) :
    buildMachinesAux g acc nm = .error .valueErrorCapacity := by
  induction nm generalizing acc with
  | nil => simp at h
  | cons hd tl ih =>
    obtain ⟨mt, q⟩ := hd
    simp only [buildMachinesAux, Machine_init]
    by_cases hq : q ≤ 0
    · rw [if_pos hq, bindE_err]
    · rw [if_neg hq, bindE_ok]
      apply ih
      rcases h with ⟨p, hp, hple⟩
      rcases List.mem_cons.1 hp with rfl | hp
      · exact absurd hple hq
      · exact ⟨p, hp, hple⟩

/-- C2 (counterexample to the claim as stated): with capacity 0 for
Machining, the scenario is rejected before the run starts, but with the
resource primitive's ValueError — the program raises no InvalidRangeError
(no such class exists anywhere in it; `SimErr` enumerates its error space). -/
theorem capacity_zero_valueerror_counterexample :
    errOf (scenario_run defaultGlobals nmCap0 [] (constStream 1) 6 10)
      = some .valueErrorCapacity ∧
    initOk defaultGlobals nmCap0 (constStream 1) = false := by
  decide

/-- C2 (amended): a configuration in which any machine type has capacity 0
or negative is rejected, with the ValueError raised by the resource pool's
constructor, before the run starts: scenario construction itself fails, so
no event is ever dispatched and the result does not depend on the fuel. -/
theorem capacity_nonpositive_rejected_before_run (g : Globals)
    (nm : List (MachineType × ℤ)) (ss : List (String × ℕ)) (rng : RngState)
    (simulation_time : ℚ) (fuel : ℕ) (h : ∃ p ∈ nm, p.2 ≤ 0) :
    initState g nm rng = .error .valueErrorCapacity ∧
    scenario_run g nm ss rng simulation_time fuel = .error .valueErrorCapacity ∧
    scenario_run g nm ss rng simulation_time fuel = scenario_run g nm ss rng simulation_time 0 := by
  have hinit : initState g nm rng = .error .valueErrorCapacity := by
    rw [initState, buildMachines, buildMachinesAux_err [] h, bindE_err]
  refine ⟨hinit, ?_, ?_⟩ <;> simp only [scenario_run, hinit, bindE_err]

/-- Witness for `capacity_nonpositive_rejected_before_run`. -/
theorem capacity_nonpositive_rejected_before_run_witness :
    initState defaultGlobals nmCap0 (constStream 1) = .error .valueErrorCapacity ∧
    scenario_run defaultGlobals nmCap0 [] (constStream 1) 6 10 = .error .valueErrorCapacity ∧
    scenario_run defaultGlobals nmCap0 [] (constStream 1) 6 10
      = scenario_run defaultGlobals nmCap0 [] (constStream 1) 6 0 :=
  capacity_nonpositive_rejected_before_run defaultGlobals nmCap0 [] (constStream 1) 6 10
    ⟨(.Machining, 0), by decide, by decide⟩

/-! ### C3 -/

theorem buildMachinesAux_ok {g : Globals} {nm : List (MachineType × ℤ)}
    (acc : List (MachineType × MachineSt)) (h : ∀ p ∈ nm, 0 < p.2) :
    ∃ ms, buildMachinesAux g acc nm = .ok ms := by
  induction nm generalizing acc with
  | nil => exact ⟨acc, rfl⟩
  | cons hd tl ih =>
    obtain ⟨mt, q⟩ := hd
    have hq : ¬ q ≤ 0 := not_le.2 (h (mt, q) (List.mem_cons_self _ _))
    simp only [buildMachinesAux, Machine_init, if_neg hq, bindE_ok]
    exact ih _ (fun p hp => h p (List.mem_cons_of_mem _ hp))

/-- C3 (counterexample to the claim as stated): a configuration whose
processing ranges all have min 10 > max 5 passes scenario construction
untouched (no validation runs there), and the run then fails mid-simulation
with randint's ValueError when the first unit reaches a machine and the
first draw from the empty range is attempted. -/
theorem empty_range_counterexample :
    initOk gBadRange nmOnes (constStream 1) = true ∧
    errOf (scenario_run gBadRange nmOnes [] (constStream 1) 6 50)
      = some .valueErrorEmptyRange := by
  decide

/-- C3 (amended): a configured min > max is not detected at scenario
construction — construction succeeds for every configuration whose
capacities are positive, whatever its ranges — and instead the ValueError
surfaces at draw time: randint fails on an empty range exactly when it is
first drawn from. -/
theorem empty_range_fails_at_draw_time :
    (∀ (g : Globals) (nm : List (MachineType × ℤ)) (rng : RngState),
      (∀ p ∈ nm, 0 < p.2) → initOk g nm rng = true) ∧
    (∀ (a b : ℕ) (r : RngState), b < a → randint a b r = .error .valueErrorEmptyRange) := by
  constructor
  · intro g nm rng h
    obtain ⟨ms, hms⟩ := buildMachinesAux_ok (g := g) [] h
    simp only [initOk, initState, buildMachines, hms, bindE_ok]
    rfl
  · intro a b r h
    simp [randint, h]

/-- Witness for `empty_range_fails_at_draw_time`. -/
theorem empty_range_fails_at_draw_time_witness :
    initOk gBadRange nmOnes (constStream 1) = true ∧
    randint 10 5 (constStream 1) = .error .valueErrorEmptyRange :=
  ⟨empty_range_fails_at_draw_time.1 gBadRange nmOnes (constStream 1) (by decide),
   empty_range_fails_at_draw_time.2 10 5 (constStream 1) (by decide)⟩

/-! ### C4, concrete counterexample -/

/-- C4 (counterexample to the claim as stated): in the §8 pipeline scenario
(capacity 1 everywhere, one product type, every stage exactly 5 minutes,
breakdown interval 21 = horizon + 1, horizon 20) a run with concrete
interarrival draws of 1 minute finishes the horizon with 0 completed units,
not 4: the first unit enters the line only at the first arrival (minute 1)
and needs 20 processing minutes, so no completion event is dispatched inside
the horizon. -/
theorem pipeline_scenario_counterexample :
    producedOf (scenario_run g4 nmOnes [] (constStream 1) 20 300) = some 0 ∧
    rawOf (scenario_run g4 nmOnes [] (constStream 1) 20 300) = some 19 ∧
    finishedOf (scenario_run g4 nmOnes [] (constStream 1) 20 300) = some true ∧
    producedOf (scenario_run g4 nmOnes [] (constStream 1) 20 300) ≠ some 4 := by
  decide

/-! ### C7 -/

theorem runCombos_append (g : Globals) (t : ℚ) (fuel : ℕ)
    (xs ys : List (List (MachineType × ℤ) × List (String × ℕ))) (r : RngState) :
    runCombos g t fuel (xs ++ ys) r =
      (do
        let (recs1, r1) ← runCombos g t fuel xs r
        let (recs2, r2) ← runCombos g t fuel ys r1
        .ok (recs1 ++ recs2, r2)) := by
  induction xs generalizing r with
  | nil =>
    simp only [List.nil_append, runCombos, bindE_ok]
    cases h : runCombos g t fuel ys r with
    | error e => rfl
    | ok p => rfl
  | cons hd tl ih =>
    obtain ⟨nm, ss⟩ := hd
    simp only [List.cons_append, runCombos]
    cases h : scenario_run g nm ss r t fuel with
    | error e => rfl
    | ok st =>
      simp only [bindE_ok, List.append_eq]
      rw [ih st.rng]
      cases h2 : runCombos g t fuel tl st.rng with
      | error e => rfl
      | ok p =>
        obtain ⟨recs1, r1⟩ := p
        simp only [bindE_ok]
        cases h3 : runCombos g t fuel ys r1 with
        | error e => rfl
        | ok q => simp only [bindE_ok, List.cons_append]

theorem performInner_eq (g : Globals) (t : ℚ) (fuel : ℕ) (nm : List (MachineType × ℤ))
    (ssList : List (List (String × ℕ))) (r : RngState) :
    performInner g t fuel nm ssList r =
      runCombos g t fuel (ssList.map (fun ss => (nm, ss))) r := by
  induction ssList generalizing r with
  | nil => rfl
  | cons ss tl ih =>
    simp only [performInner, List.map_cons, runCombos]
    cases h : scenario_run g nm ss r t fuel with
    | error e => rfl
    | ok st => simp only [bindE_ok, ih st.rng]

theorem performOuter_eq (g : Globals) (t : ℚ) (fuel : ℕ)
    (ssList : List (List (String × ℕ))) (nmList : List (List (MachineType × ℤ)))
    (r : RngState) :
    performOuter g t fuel ssList nmList r =
      runCombos g t fuel (sweepCombinations nmList ssList) r := by
  induction nmList generalizing r with
  | nil => rfl
  | cons nm tl ih =>
    simp only [performOuter, sweepCombinations, List.flatMap_cons, runCombos_append,
      performInner_eq, ih]

theorem runCombos_inputs (g : Globals) (t : ℚ) (fuel : ℕ) :
    ∀ (pairs : List (List (MachineType × ℤ) × List (String × ℕ))) (r : RngState)
      (recs : List SweepRecord) (r' : RngState),
      runCombos g t fuel pairs r = .ok (recs, r') →
      recs.map (fun rec => (rec.Num_Machines, rec.Shift_Schedule)) = pairs := by
  intro pairs
  induction pairs with
  | nil =>
    intro r recs r' h
    simp only [runCombos] at h
    simp at h
    simp [h.1]
  | cons hd tl ih =>
    obtain ⟨nm, ss⟩ := hd
    intro r recs r' h
    simp only [runCombos] at h
    cases hs : scenario_run g nm ss r t fuel with
    | error e => rw [hs] at h; simp [bindE_err] at h
    | ok st =>
      rw [hs] at h
      simp only [bindE_ok] at h
      cases ht : runCombos g t fuel tl st.rng with
      | error e => rw [ht] at h; simp [bindE_err] at h
      | ok p =>
        obtain ⟨tailRecs, r2⟩ := p
        rw [ht] at h
        simp only [bindE_ok] at h
        simp at h
        obtain ⟨rfl, -⟩ := h
        simp [ih st.rng tailRecs r2 ht]

theorem sweepCombinations_length (nmList : List (List (MachineType × ℤ)))
    (ssList : List (List (String × ℕ))) :
    (sweepCombinations nmList ssList).length = nmList.length * ssList.length := by
  induction nmList with
  | nil => simp [sweepCombinations]
  | cons nm tl ih =>
    simp only [sweepCombinations, List.flatMap_cons, List.length_append, List.length_map,
      List.length_cons]
    simp only [sweepCombinations] at ih
    rw [ih]
    ring

/-- C7: the batch sweep runs one scenario per (machine-capacity,
shift-schedule) combination on the shared stream, in Cartesian-product order
(outer loop over capacity configurations, inner loop over shift schedules):
whenever running the combination list succeeds, `perform_scenario_analysis`
returns exactly its records — one record per combination, in combination
order, each carrying its input pair. -/
theorem sweep_is_cartesian_product (g : Globals)
    (nmList : List (List (MachineType × ℤ))) (ssList : List (List (String × ℕ)))
    (t : ℚ) (fuel : ℕ) (r : RngState) (pr : List SweepRecord × RngState)
    (h : runCombos g t fuel (sweepCombinations nmList ssList) r = .ok pr) :
    perform_scenario_analysis g nmList ssList t fuel r = .ok pr.1 ∧
    pr.1.map (fun rec => (rec.Num_Machines, rec.Shift_Schedule))
        = sweepCombinations nmList ssList ∧
    pr.1.length = nmList.length * ssList.length := by
  obtain ⟨recs, r'⟩ := pr
  have hmap := runCombos_inputs g t fuel _ r recs r' h
  refine ⟨?_, hmap, ?_⟩
  · simp only [perform_scenario_analysis, performOuter_eq, h, Except.map]
  · have := congrArg List.length hmap
    simpa [sweepCombinations_length] using this

/-- Witness for `sweep_is_cartesian_product`. -/
theorem sweep_is_cartesian_product_witness :
    perform_scenario_analysis gSmall [nmOnes] [[], [("Day", 1)]] 1 20 (constStream 2) =
      .ok [{ Num_Machines := nmOnes, Shift_Schedule := [],
             Products_Produced := 0, Raw_Materials_Used := 0 },
           { Num_Machines := nmOnes, Shift_Schedule := [("Day", 1)],
             Products_Produced := 0, Raw_Materials_Used := 0 }] ∧
    ([{ Num_Machines := nmOnes, Shift_Schedule := [],
        Products_Produced := 0, Raw_Materials_Used := 0 },
      { Num_Machines := nmOnes, Shift_Schedule := [("Day", 1)],
        Products_Produced := 0, Raw_Materials_Used := 0 }] : List SweepRecord).map
        (fun rec => (rec.Num_Machines, rec.Shift_Schedule))
      = sweepCombinations [nmOnes] [[], [("Day", 1)]] ∧
    ([{ Num_Machines := nmOnes, Shift_Schedule := [],
        Products_Produced := 0, Raw_Materials_Used := 0 },
      { Num_Machines := nmOnes, Shift_Schedule := [("Day", 1)],
        Products_Produced := 0, Raw_Materials_Used := 0 }] : List SweepRecord).length
      = [nmOnes].length * [[], [("Day", 1)]].length :=
  sweep_is_cartesian_product gSmall [nmOnes] [[], [("Day", 1)]] 1 20 (constStream 2)
    ([{ Num_Machines := nmOnes, Shift_Schedule := [],
        Products_Produced := 0, Raw_Materials_Used := 0 },
      { Num_Machines := nmOnes, Shift_Schedule := [("Day", 1)],
        Products_Produced := 0, Raw_Materials_Used := 0 }],
     { stream := fun _ => 2, idx := 10 }) rfl

/-! ### C8 -/

/-- C8: the Shift Cycle process only advances its label, cyclically Day →
Evening → Night → Day, waking every fixed 480-minute shift; its step leaves
the machine pools (hence every capacity), both counters, the random stream
and the process count untouched, scheduling only its own next wake-up; and
the operators-per-shift configuration has no effect at all on a run: two
runs of `scenario_run` that differ only in the shift-schedule argument are
identical. -/
theorem shift_cycle_is_observational :
    (∀ (g : Globals) (nm : List (MachineType × ℤ)) (ss1 ss2 : List (String × ℕ))
       (rng : RngState) (t : ℚ) (fuel : ℕ),
      scenario_run g nm ss1 rng t fuel = scenario_run g nm ss2 rng t fuel) ∧
    (∀ (st : SimState) (pid : ℕ) (label : ShiftLabel) (pc : ShiftPc),
      (change_shift_step st pid label pc).machines = st.machines ∧
      (change_shift_step st pid label pc).produced = st.produced ∧
      (change_shift_step st pid label pc).raw = st.raw ∧
      (change_shift_step st pid label pc).rng = st.rng ∧
      (change_shift_step st pid label pc).clock = st.clock ∧
      (change_shift_step st pid label pc).procs.length = st.procs.length ∧
      (change_shift_step st pid label pc).events
        = st.events ++ [{ time := qAdd st.clock 480, seq := st.nextSeq, pid := pid }]) ∧
    nextShiftLabel .Day = .Evening ∧
    nextShiftLabel .Evening = .Night ∧
    nextShiftLabel .Night = .Day := by
  refine ⟨fun g nm ss1 ss2 rng t fuel => rfl, ?_, rfl, rfl, rfl⟩
  intro st pid label pc
  cases pc <;>
    simp [change_shift_step, SimState.sched, SimState.setProc]


/-! ### C5 -/

/-- C5: conservation — at every instant of every run (any configuration, any
draw stream, any horizon, any number of dispatched events), the
produced-count never exceeds the raw-materials count: `RAW_MATERIALS_USED`
is incremented when a unit is spawned, `PRODUCTS_PRODUCED` only when a
spawned unit completes the final stage, so the completed units are always a
sub-population of the spawned ones. -/
theorem conservation_produced_le_raw (g : Globals) (nm : List (MachineType × ℤ))
    (ss : List (String × ℕ)) (rng : RngState) (simulation_time : ℚ) (fuel : ℕ) :
    ConservationHolds (scenario_run g nm ss rng simulation_time fuel) := by
  cases hrun : scenario_run g nm ss rng simulation_time fuel with
  | error e => exact trivial
  | ok st =>
    obtain ⟨⟨hw, hC, hV⟩, hSf⟩ := Inv3_scenario hrun
    show st.produced ≤ st.raw
    rw [hC.1, hC.2]
    unfold countDone countProduce
    apply List.countP_mono_left
    intro a ha hda
    cases a with
    | produce d => rfl
    | breakdown mt pc => exact absurd hda (by simp [isDoneProduce])
    | arrival p i pc => exact absurd hda (by simp [isDoneProduce])
    | shiftCycle l pc => exact absurd hda (by simp [isDoneProduce])

/-! ### C6 -/

theorem nodup_keys_eq {ms : List (MachineType × MachineSt)}
    (h : (ms.map Prod.fst).Nodup) {a b : MachineType × MachineSt}
    (ha : a ∈ ms) (hb : b ∈ ms) (hk : a.1 = b.1) : a = b := by
  induction ms with
  | nil => exact absurd ha (List.not_mem_nil a)
  | cons x tl ih =>
    rw [List.map_cons, List.nodup_cons] at h
    rcases List.mem_cons.1 ha with ha1 | ha2
    · rcases List.mem_cons.1 hb with hb1 | hb2
      · rw [ha1, hb1]
      · exfalso
        apply h.1
        have hx : Prod.fst b = x.1 := by rw [← ha1, ← hk]
        exact List.mem_map.2 ⟨b, hb2, hx⟩
    · rcases List.mem_cons.1 hb with hb1 | hb2
      · exfalso
        apply h.1
        have hx : Prod.fst a = x.1 := by rw [hk, hb1]
        exact List.mem_map.2 ⟨a, ha2, hx⟩
      · exact ih h.2 ha2 hb2

/-- C6: stage discipline — in every run outcome, a completed unit's recorded
visitation sequence is exactly [Machining, Assembly, QualityControl,
Packaging] (nothing skipped, repeated or reordered), and at any instant a
production unit occupies at most one capacity unit of at most one stage's
pool. -/
theorem stage_order_and_single_occupancy (g : Globals) (nm : List (MachineType × ℤ))
    (ss : List (String × ℕ)) (rng : RngState) (simulation_time : ℚ) (fuel : ℕ) :
    StageDiscipline (scenario_run g nm ss rng simulation_time fuel) := by
  cases hrun : scenario_run g nm ss rng simulation_time fuel with
  | error e => exact trivial
  | ok st =>
    obtain ⟨⟨hw, hC, hV⟩, hSf⟩ := Inv3_scenario hrun
    intro pid d hget
    refine ⟨?_, ?_, ?_⟩
    · intro hdone
      obtain ⟨hv, hd4, hlt⟩ := hV pid d hget
      rw [hdone, if_neg (by decide), hd4 hdone] at hv
      exact hv.trans rfl
    · intro em hmem
      rw [(hw.2 em hmem pid).1]
      split
      · exact le_refl 1
      · exact Nat.zero_le 1
    · intro em hmem em' hmem' hin hin'
      have h1 := (hw.2 em hmem pid).1
      have h2 := (hw.2 em' hmem' pid).1
      have hB1 : holdsB st.procs pid em.1 = true := by
        by_cases hB : holdsB st.procs pid em.1
        · exact hB
        · rw [if_neg hB] at h1
          exact absurd h1 (fun h0 => (List.count_eq_zero.1 h0) hin)
      have hB2 : holdsB st.procs pid em'.1 = true := by
        by_cases hB : holdsB st.procs pid em'.1
        · exact hB
        · rw [if_neg hB] at h2
          exact absurd h2 (fun h0 => (List.count_eq_zero.1 h0) hin')
      unfold holdsB at hB1 hB2
      rw [hget] at hB1 hB2
      simp only [decide_eq_true_eq] at hB1 hB2
      exact nodup_keys_eq hw.1 hmem hmem' (Option.some.inj (hB1.symm.trans hB2))

/-! ### C9 -/

theorem breakdownOf_init (ms : List (MachineType × MachineSt)) (pts : List String) :
    (ms.map (fun em => Proc.breakdown em.1 .bStart)
      ++ (pts.map (fun p => Proc.arrival p 1 .aStart)
      ++ [Proc.shiftCycle .Day .sStart])).filterMap breakdownOf
      = ms.map Prod.fst := by
  rw [List.filterMap_append, List.filterMap_append]
  have h1 : List.filterMap breakdownOf (ms.map (fun em => Proc.breakdown em.1 .bStart))
      = ms.map Prod.fst := by
    induction ms with
    | nil => rfl
    | cons a tl ih => simpa [breakdownOf] using ih
  have h2 : List.filterMap breakdownOf (pts.map (fun p => Proc.arrival p 1 .aStart)) = [] := by
    induction pts with
    | nil => rfl
    | cons a tl ih => simpa [breakdownOf] using ih
  rw [h1, h2, show List.filterMap breakdownOf [Proc.shiftCycle .Day .sStart] = [] from rfl,
    List.append_nil, List.append_nil]

/-- C9: breakdown-process discipline — (a) in every run outcome, a breakdown
process that is granted or repairing holds exactly one capacity unit of its
own machine type's pool and none of any other pool; one that waits sits
exactly once in its own pool's FIFO queue and in no other; one sleeping
between breakdowns holds and waits nothing; (b) on waking it requests its
own machine type's pool through the very same `requestPool` primitive
production requests use (equal FIFO footing); (c) the scenario starts
exactly one breakdown process per machine-type key of the machines dict, in
dict order. -/
theorem breakdown_pool_discipline :
    (∀ (g : Globals) (nm : List (MachineType × ℤ)) (ss : List (String × ℕ))
        (rng : RngState) (t : ℚ) (fuel : ℕ),
      BreakdownDiscipline (scenario_run g nm ss rng t fuel)) ∧
    (∀ (st : SimState) (pid : ℕ) (mt : MachineType),
      generate_breakdown_step st pid mt .bSleeping
        = requestPool st pid mt (.breakdown mt .bGranted) (.breakdown mt .bWaiting)) ∧
    (∀ (g : Globals) (nm : List (MachineType × ℤ)) (rng : RngState),
      (initState g nm rng).toOption.map (fun st0 => st0.procs.filterMap breakdownOf)
        = (initState g nm rng).toOption.map (fun st0 => st0.machines.map Prod.fst)) := by
  refine ⟨?_, fun st pid mt => rfl, ?_⟩
  · intro g nm ss rng t fuel
    cases hrun : scenario_run g nm ss rng t fuel with
    | error e => exact trivial
    | ok st =>
      obtain ⟨⟨hw, hC, hV⟩, hSf⟩ := Inv3_scenario hrun
      intro pid mt pc hget
      have hhold : ∀ em ∈ st.machines, ∀ v : Option MachineType,
          holdsPool (Proc.breakdown mt pc) = v →
          em.2.users.count pid = (if v = some em.1 then 1 else 0) := by
        intro em hmem v hv
        have hBB : holdsB st.procs pid em.1 = decide (v = some em.1) := by
          unfold holdsB
          rw [hget]
          show decide (holdsPool (Proc.breakdown mt pc) = some em.1) = decide (v = some em.1)
          rw [hv]
        rw [(hw.2 em hmem pid).1, hBB]
        by_cases hc : v = some em.1
        · rw [if_pos hc, if_pos (by simp [hc])]
        · rw [if_neg hc, if_neg (by simp [hc])]
      have hwait : ∀ em ∈ st.machines, ∀ v : Option MachineType,
          waitsPool (Proc.breakdown mt pc) = v →
          em.2.queue.count pid = (if v = some em.1 then 1 else 0) := by
        intro em hmem v hv
        have hBB : waitsB st.procs pid em.1 = decide (v = some em.1) := by
          unfold waitsB
          rw [hget]
          show decide (waitsPool (Proc.breakdown mt pc) = some em.1) = decide (v = some em.1)
          rw [hv]
        rw [(hw.2 em hmem pid).2, hBB]
        by_cases hc : v = some em.1
        · rw [if_pos hc, if_pos (by simp [hc])]
        · rw [if_neg hc, if_neg (by simp [hc])]
      refine ⟨?_, ?_, ?_⟩
      · intro hpc em hmem
        have hv : holdsPool (Proc.breakdown mt pc) = some mt := by
          rcases hpc with rfl | rfl
          · rfl
          · rfl
        rw [hhold em hmem (some mt) hv]
        by_cases hc : em.1 = mt
        · rw [if_pos hc, if_pos (by rw [hc])]
        · rw [if_neg hc, if_neg (by simpa using fun hh => hc (Eq.symm hh))]
      · intro hpc em hmem
        subst hpc
        rw [hwait em hmem (some mt) rfl]
        by_cases hc : em.1 = mt
        · rw [if_pos hc, if_pos (by rw [hc])]
        · rw [if_neg hc, if_neg (by simpa using fun hh => hc (Eq.symm hh))]
      · intro hpc em hmem
        have hv : holdsPool (Proc.breakdown mt pc) = none := by
          rcases hpc with rfl | rfl
          · rfl
          · rfl
        have hv2 : waitsPool (Proc.breakdown mt pc) = none := by
          rcases hpc with rfl | rfl
          · rfl
          · rfl
        constructor
        · rw [hhold em hmem none hv, if_neg (by simp)]
        · rw [hwait em hmem none hv2, if_neg (by simp)]
  · intro g nm rng
    cases hinit : initState g nm rng with
    | error e => rfl
    | ok st0 =>
      obtain ⟨ms, hms, hmach, hprod, hraw, hprocs⟩ := initState_shape hinit
      simp only [Except.toOption, Option.map]
      rw [hprocs, hmach, breakdownOf_init]

/-! ### C10 -/

/-- C10: completion accounting — in every run outcome of a configuration with
pairwise-distinct product types (as the script's PRODUCT_TYPES is), the
produced-count equals the number of units whose process reached its final
state, so each unit is counted exactly once and only at termination (which
happens only after releasing the final Packaging stage); a counted unit
holds no pool capacity and waits in no queue; and each product type's
spawned units carry sequential ids 1, 2, 3, … with no gaps. -/
theorem produced_counted_once_and_sequential_ids (g : Globals)
    (hnd : g.PRODUCT_TYPES.Nodup) (nm : List (MachineType × ℤ)) (ss : List (String × ℕ))
    (rng : RngState) (t : ℚ) (fuel : ℕ) :
    CompletionAccounting (scenario_run g nm ss rng t fuel) := by
  cases hrun : scenario_run g nm ss rng t fuel with
  | error e => exact trivial
  | ok st =>
    obtain ⟨⟨hw, hC, hV⟩, hSf⟩ := Inv3_scenario hrun
    have hS := hSf hnd
    refine ⟨hC.1, ?_, hS.2⟩
    intro pid d hget hdone em hmem
    have hBh : holdsB st.procs pid em.1 = false := by
      unfold holdsB
      rw [hget]
      simp [holdsPool, hdone]
    have hBw : waitsB st.procs pid em.1 = false := by
      unfold waitsB
      rw [hget]
      simp [waitsPool, hdone]
    constructor
    · rw [(hw.2 em hmem pid).1, hBh]
      simp
    · rw [(hw.2 em hmem pid).2, hBw]
      simp

/-- Witness for `produced_counted_once_and_sequential_ids`. -/
theorem produced_counted_once_and_sequential_ids_witness :
    CompletionAccounting (scenario_run defaultGlobals nmOnes [] (constStream 2) 5 60) :=
  produced_counted_once_and_sequential_ids defaultGlobals (by decide) nmOnes [] (constStream 2) 5 60

end MainSim
